import Mathlib

/-! Repeatr: the fshash walker, the `dir` input, the git transmat and the
serialisation helpers.

A shallow embedding of `lib/fshash/walker.go` (`FillBucket`) and
`input/dir/dir_input.go` (`Input.Apply`) over an explicit model of the
operating-system interface the Go code talks to (paths, `lstat`, `mkdir`,
`open`, `symlink`, `utimes`, `filepath.Walk`, `archive/tar` headers), of
`rio/contract.go` (`ConvertFilterConfig`, `AssemblyPartsByPath`),
`def/action_serial.go` (`Env.asMappySlice`, the codec methods of
`MountGroup`), `rio/transmat/impl/git/git_transmat.go` (`Materialize`,
`Scan`), `dir.New` and `executor/chroot/chroot_executor.go`
(`waitAndHandleExit`, `waitTry`).

The first part of the file holds definitions only; theorems follow.
-/

namespace Repeatr

/-! ## Strings and paths (Go `strings` and `path/filepath`, Unix flavour) -/

/-- Go `strings.TrimPrefix(s, p)`: `s` without the leading `p`, or `s` itself
when `s` does not start with `p`. -/
def TrimPrefixStr (s p : String) : String :=
  if p.data.isPrefixOf s.data then ⟨s.data.drop p.data.length⟩ else s

/-- Split a character list at every `/` (Go `strings.Split(s, "/")`): the
result always has one more element than there are slashes. -/
def splitSlash : List Char → List (List Char)
  | [] => [[]]
  | c :: cs =>
    match splitSlash cs with
    | [] => [[]]
    | hd :: tl => if c = '/' then [] :: hd :: tl else (c :: hd) :: tl

/-- Join components with single slashes (Go `strings.Join(xs, "/")`). -/
def joinSlash : List (List Char) → List Char
  | [] => []
  | [x] => x
  | x :: y :: rest => x ++ '/' :: joinSlash (y :: rest)

/-- One step of the lexical simplification done by `filepath.Clean`: `stack`
is the list of components kept so far, innermost last. -/
def cleanStep (rooted : Bool) (stack : List (List Char)) (c : List Char) : List (List Char) :=
  if c = [] ∨ c = ['.'] then stack
  else if c = ['.', '.'] then
    match stack.getLast? with
    | some top => if top = ['.', '.'] then stack ++ [c] else stack.dropLast
    | none => if rooted then stack else stack ++ [c]
  else stack ++ [c]

/-- Go `filepath.Clean`: the shortest path name equivalent to `p` by purely
lexical processing (collapse `//`, drop `.`, resolve inner `..`, drop a `..`
that follows the root; the empty result is `.`). -/
def Clean (p : String) : String :=
  let rooted := p.data.head? = some '/'
  let comps := (splitSlash p.data).foldl (cleanStep rooted) []
  if rooted then ⟨'/' :: joinSlash comps⟩
  else if comps = [] then "." else ⟨joinSlash comps⟩

/-- Go `filepath.Join(a, b)`: the non-empty elements joined with `/` and
cleaned; the empty string when both are empty. -/
def Join (a b : String) : String :=
  if a = "" then (if b = "" then "" else Clean b)
  else Clean (a ++ "/" ++ b)

/-- Path components of a path string, as the kernel sees them: the pieces
between slashes (empty pieces included). -/
def pathComps (p : String) : List String :=
  (splitSlash p.data).map String.mk

/-- Byte-wise "less than" on names. Code points are compared; on UTF-8 text
this is the order of the raw bytes, which is what Go's `sort.Strings` uses. -/
def bytesLt : List Char → List Char → Bool
  | _, [] => false
  | [], _ :: _ => true
  | a :: as, b :: bs => decide (a.toNat < b.toNat) || (decide (a.toNat = b.toNat) && bytesLt as bs)

/-- Byte-wise "less or equal" on names. -/
def bytesLe (a b : List Char) : Bool := !bytesLt b a

/-- Go `sort.Strings`: ascending byte-wise order. -/
def sortStrings (names : List String) : List String :=
  names.insertionSort (fun a b => bytesLe a.data b.data = true)

/-! ## Go `os.FileMode` -/

def ModeDir : Nat := 2 ^ 31
def ModeSymlink : Nat := 2 ^ 27
def ModeDevice : Nat := 2 ^ 26
def ModeNamedPipe : Nat := 2 ^ 25
def ModeSocket : Nat := 2 ^ 24
def ModeSetuid : Nat := 2 ^ 23
def ModeSetgid : Nat := 2 ^ 22
def ModeCharDevice : Nat := 2 ^ 21
def ModeSticky : Nat := 2 ^ 20
/-- Go `os.ModeType`, the mask for the type bits. -/
def ModeType : Nat := ModeDir ||| ModeSymlink ||| ModeNamedPipe ||| ModeSocket ||| ModeDevice
/-- Go `os.ModePerm`, the Unix permission bits. -/
def ModePerm : Nat := 0o777

/-- Unix `st_mode` flags outside the nine permission bits. -/
def S_ISUID : Nat := 0o4000
def S_ISGID : Nat := 0o2000
def S_ISVTX : Nat := 0o1000

/-! ## The file system -/

/-- What a directory entry is. File contents are bytes (`Nat` below 256). -/
inductive Kind
  | dir
  | file (data : List Nat)
  | symlink (target : String)
  | fifo
  | socket
  | blockDev
  | charDev
  deriving DecidableEq

/-- The attributes `lstat` reports for a node. `perm` is `st_mode &&& 07777`;
times are nanoseconds since the epoch. -/
structure Inode where
  kind : Kind
  perm : Nat
  uid : Nat
  gid : Nat
  atime : Nat
  mtime : Nat
  ctime : Nat
  deriving DecidableEq

/-- The state of the machine as far as the walker can observe or change it:
the nodes of the file system keyed by their absolute component path (the
root directory has key `[]`), and the calling process's working directory,
credentials and umask. `clock` is the time stamped onto the next change.
Of the access checks only the read permission that opening a node for
reading needs is modelled (`World.mayRead`); search and write permission are
not. A successful read stamps the access time (`World.touchAtime`). -/
structure World where
  nodes : List (List String × Inode)
  cwd : List String
  euid : Nat
  egid : Nat
  umask : Nat
  clock : Nat
  deriving DecidableEq

inductive Errno
  | ENOENT | EEXIST | ENOTDIR | EISDIR | ELOOP | EINVAL | ENXIOerrno | EACCES
  deriving DecidableEq

deriving instance DecidableEq for Except

/-- The node at an absolute component path. -/
def World.node (w : World) (key : List String) : Option Inode :=
  w.nodes.lookup key

/-- Replace the node stored at `key`. -/
def World.setNode (w : World) (key : List String) (n : Inode) : World :=
  { w with nodes := w.nodes.map (fun kv => if kv.1 = key then (kv.1, n) else kv) }

/-- Add a node at a key that is not yet present. -/
def World.addNode (w : World) (key : List String) (n : Inode) : World :=
  { w with nodes := w.nodes ++ [(key, n)] }

/-- Advance the clock after a change. -/
def World.tick (w : World) : World := { w with clock := w.clock + 1 }

/-- Whether the process may open the node for reading: the effective user 0
always may; otherwise the read bit of the owner, of the group or of the
others decides, whichever class the process falls into. -/
def World.mayRead (w : World) (n : Inode) : Bool :=
  if w.euid = 0 then true
  else if n.uid = w.euid then n.perm &&& 0o400 ≠ 0
  else if n.gid = w.egid then n.perm &&& 0o040 ≠ 0
  else n.perm &&& 0o004 ≠ 0

/-- The `relatime` rule of the kernel (the default of a mount): a read stamps
the access time when that time is not later than the modification time or
the change time, or when it is a day old. Times are nanoseconds. -/
def Inode.atimeDue (n : Inode) (now : Nat) : Bool :=
  n.atime ≤ n.mtime || n.atime ≤ n.ctime || n.atime / 1000000000 + 86400 ≤ now / 1000000000

/-- What a successful read of the node at `key` (`read`, `getdents`,
`readlink`) does to the machine: the access time of the node is stamped with
the current time when the `relatime` rule asks for it. Nothing else changes,
and the clock, which advances with changes of data or status, stays. -/
def World.touchAtime (w : World) (key : List String) : World :=
  match w.node key with
  | none => w
  | some n => if n.atimeDue w.clock then w.setNode key { n with atime := w.clock } else w

/-- Outcome of walking the components of one path string. -/
inductive NameiStep
  | done (key : List String)
  | link (dir : List String) (target : String) (rest : List String)
  | fail (e : Errno)
  deriving DecidableEq

/-- Walk path components `todo` starting from directory `cur`. Every step
needs `cur` to be an existing directory. A symbolic link met on the way is
reported with the components still to do; the last component is reported
only when `follow` is set. A last component that does not exist is returned
as the key where it would be created. -/
def walkComps (w : World) (follow : Bool) : List String → List String → NameiStep
  | cur, [] => .done cur
  | cur, c :: rest =>
    match w.node cur with
    | none => .fail .ENOENT
    | some d =>
      if d.kind ≠ .dir then .fail .ENOTDIR
      else if c = "" ∨ c = "." then walkComps w follow cur rest
      else if c = ".." then walkComps w follow cur.dropLast rest
      else
        match w.node (cur ++ [c]) with
        | none => if rest = [] then .done (cur ++ [c]) else .fail .ENOENT
        | some n =>
          match n.kind with
          | .symlink t =>
            if rest = [] ∧ follow = false then .done (cur ++ [c]) else .link cur t rest
          | _ => walkComps w follow (cur ++ [c]) rest

/-- Kernel path resolution with a bound on the number of symbolic links
followed (`ELOOP` beyond it). -/
def namei (w : World) (follow : Bool) : Nat → List String → List String → Except Errno (List String)
  | 0, _, _ => .error .ELOOP
  | fuel + 1, cur, todo =>
    match walkComps w follow cur todo with
    | .done key => .ok key
    | .fail e => .error e
    | .link dir t rest =>
      if t = "" then .error .ENOENT
      else namei w follow fuel (if t.data.head? = some '/' then [] else dir) (pathComps t ++ rest)

/-- Resolve a path string to the key of the node it names (or, for a missing
last component, would name). Relative paths start at the working directory. -/
def resolve (w : World) (follow : Bool) (p : String) : Except Errno (List String) :=
  if p = "" then .error .ENOENT
  else namei w follow 41 (if p.data.head? = some '/' then [] else w.cwd) (pathComps p)

/-! ## The system calls used by the walker (Go `os`, `syscall`, `fspatch`) -/

/-- Errors as Go values: `*os.PathError`, `*os.LinkError`, the error classes of
the repository that the walker and the input raise (`NotImplementedError`
with its message, or with the formatted file mode; `InputHashMismatchError`),
the error of `tar.FileInfoHeader`, the run-time panic of a nil dereference,
and `filepath.SkipDir`. -/
inductive GoError
  | pathError (op : String) (path : String) (errno : Errno)
  | linkError (op : String) (old : String) (new : String) (errno : Errno)
  | notImplemented (msg : String)
  | notImplementedMode (mode : Nat)
  | inputHashMismatch (expected : String) (got : String)
  | tarUnknownMode (mode : Nat)
  | nilDereference
  | skipDir
  deriving DecidableEq

/-- Go `os.FileInfo` as `os.Lstat` fills it on Unix, with the fields of the
underlying `Stat_t` that `archive/tar` reads. The base name is left out: the
walker overwrites the only place it would go. -/
structure FileInfo where
  size : Nat
  mode : Nat
  modTime : Nat
  uid : Nat
  gid : Nat
  atime : Nat
  ctime : Nat
  deriving DecidableEq

/-- The type bits of `os.FileMode` for each kind of node. -/
def typeBits : Kind → Nat
  | .dir => ModeDir
  | .file _ => 0
  | .symlink _ => ModeSymlink
  | .fifo => ModeNamedPipe
  | .socket => ModeSocket
  | .blockDev => ModeDevice
  | .charDev => ModeDevice ||| ModeCharDevice

/-- The `os.FileMode` Go derives from `st_mode`. -/
def Inode.fileMode (n : Inode) : Nat :=
  (n.perm &&& 0o777) ||| typeBits n.kind
    ||| (if n.perm &&& S_ISUID ≠ 0 then ModeSetuid else 0)
    ||| (if n.perm &&& S_ISGID ≠ 0 then ModeSetgid else 0)
    ||| (if n.perm &&& S_ISVTX ≠ 0 then ModeSticky else 0)

def Inode.size (n : Inode) : Nat :=
  match n.kind with
  | .file data => data.length
  | .symlink t => t.length
  | _ => 0

def Inode.info (n : Inode) : FileInfo :=
  { size := n.size, mode := n.fileMode, modTime := n.mtime,
    uid := n.uid, gid := n.gid, atime := n.atime, ctime := n.ctime }

/-- Go `os.Lstat`. -/
def Lstat (w : World) (path : String) : Except GoError FileInfo :=
  match resolve w false path with
  | .error e => .error (.pathError "lstat" path e)
  | .ok key =>
    match w.node key with
    | none => .error (.pathError "lstat" path .ENOENT)
    | some n => .ok n.info

/-- Go `os.syscallMode`: the `st_mode` bits requested by a `FileMode`. -/
def syscallMode (m : Nat) : Nat :=
  (m &&& ModePerm)
    ||| (if m &&& ModeSetuid ≠ 0 then S_ISUID else 0)
    ||| (if m &&& ModeSetgid ≠ 0 then S_ISGID else 0)
    ||| (if m &&& ModeSticky ≠ 0 then S_ISVTX else 0)

/-- The bits of `mode` that the umask lets through (`mode & ~umask`). -/
def applyUmask (mode umask : Nat) : Nat :=
  mode &&& (0o7777 ^^^ (umask &&& 0o7777))

/-- Stamp the directory holding `key` as modified now. -/
def World.touchParent (w : World) (key : List String) : World :=
  match w.node key.dropLast with
  | none => w
  | some d => w.setNode key.dropLast { d with mtime := w.clock, ctime := w.clock }

/-- Create a node at the missing key `key` with the credentials of the
process; a directory with the set-group-ID bit hands its group down (and,
to directories, the bit). -/
def World.create (w : World) (key : List String) (kind : Kind) (perm : Nat) : World :=
  let parentSgid : Option Inode :=
    match w.node key.dropLast with
    | some d => if d.perm &&& S_ISGID ≠ 0 then some d else none
    | none => none
  let gid := match parentSgid with | some d => d.gid | none => w.egid
  let perm := match parentSgid, kind with
    | some _, .dir => perm ||| S_ISGID
    | _, _ => perm
  let n : Inode := { kind := kind, perm := perm, uid := w.euid, gid := gid,
                     atime := w.clock, mtime := w.clock, ctime := w.clock }
  ((w.touchParent key).addNode key n).tick

/-- Go `os.Mkdir(path, perm)`: fails when the name exists. -/
def Mkdir (w : World) (path : String) (perm : Nat) : Except GoError World :=
  match resolve w false path with
  | .error e => .error (.pathError "mkdir" path e)
  | .ok key =>
    match w.node key with
    | some _ => .error (.pathError "mkdir" path .EEXIST)
    | none => .ok (w.create key .dir (applyUmask (syscallMode perm &&& 0o1777) w.umask))

/-- Go `os.OpenFile(path, O_WRONLY|O_CREATE|O_EXCL, perm)`: creates an empty
regular file and fails when the name exists. The result carries the key of
the open file. -/
def OpenFileCreateExcl (w : World) (path : String) (perm : Nat) : Except GoError (World × List String) :=
  match resolve w false path with
  | .error e => .error (.pathError "open" path e)
  | .ok key =>
    match w.node key with
    | some _ => .error (.pathError "open" path .EEXIST)
    | none => .ok (w.create key (.file []) (applyUmask (syscallMode perm) w.umask), key)

/-- Go `os.OpenFile(path, O_RDONLY, 0)`: the key of the opened node. A node
the process may not read does not open; opening a socket fails; a directory
opens (reading it fails later). -/
def OpenFileRead (w : World) (path : String) : Except GoError (List String) :=
  match resolve w true path with
  | .error e => .error (.pathError "open" path e)
  | .ok key =>
    match w.node key with
    | none => .error (.pathError "open" path .ENOENT)
    | some n =>
      if w.mayRead n = false then .error (.pathError "open" path .EACCES)
      else
        match n.kind with
        | .socket => .error (.pathError "open" path .ENXIOerrno)
        | _ => .ok key

/-- All the bytes `io.Copy` reads from an open file. Reading a directory
fails; pipes and devices hold no bytes in this model. The machine after a
read that succeeded is `w.touchAtime key`. -/
def readAll (w : World) (path : String) (key : List String) : Except GoError (List Nat) :=
  match w.node key with
  | none => .ok []
  | some n =>
    match n.kind with
    | .file data => .ok data
    | .dir => .error (.pathError "read" path .EISDIR)
    | _ => .ok []

/-- The bytes `io.Copy` writes to an open regular file (nothing is written,
and nothing is stamped, when there are no bytes). -/
def writeAll (w : World) (key : List String) (data : List Nat) : World :=
  if data = [] then w
  else
    match w.node key with
    | none => w
    | some n =>
      (w.setNode key { n with kind := .file data, mtime := w.clock, ctime := w.clock }).tick

/-- Go `os.Readlink`. The machine after a call that succeeded is
`w.accessed false path`. -/
def Readlink (w : World) (path : String) : Except GoError String :=
  match resolve w false path with
  | .error e => .error (.pathError "readlink" path e)
  | .ok key =>
    match w.node key with
    | none => .error (.pathError "readlink" path .ENOENT)
    | some n =>
      match n.kind with
      | .symlink t => .ok t
      | _ => .error (.pathError "readlink" path .EINVAL)

/-- Go `os.Symlink(oldname, newname)`: creates `newname` as a symbolic link
whose target is the string `oldname`. -/
def Symlink (w : World) (oldname newname : String) : Except GoError World :=
  match resolve w false newname with
  | .error e => .error (.linkError "symlink" oldname newname e)
  | .ok key =>
    match w.node key with
    | some _ => .error (.linkError "symlink" oldname newname .EEXIST)
    | none => .ok (w.create key (.symlink oldname) 0o777)

/-- Set access and modification time of the node that `path` resolves to. -/
def utimesAt (w : World) (follow : Bool) (path : String) (atime mtime : Nat) : Except GoError World :=
  match resolve w follow path with
  | .error e => .error (.pathError "utimensat" path e)
  | .ok key =>
    match w.node key with
    | none => .error (.pathError "utimensat" path .ENOENT)
    | some n =>
      .ok (w.setNode key { n with atime := atime, mtime := mtime, ctime := w.clock }).tick

/-- Modelled from the spec: `fspatch.UtimesNano` is not among the sources
(only a test of the package is). It restores the times of the file a path
names, following a final symbolic link as `utimes` does. -/
def UtimesNano (w : World) (path : String) (atime mtime : Nat) : Except GoError World :=
  utimesAt w true path atime mtime

/-- Modelled from the spec: `fspatch.LUtimesNano` is not among the sources.
It is the `lutimes` variant: the times of a symbolic link itself are set, and
a missing file is an error (as the package's test checks). -/
def LUtimesNano (w : World) (path : String) (atime mtime : Nat) : Except GoError World :=
  utimesAt w false path atime mtime

/-- The machine after a successful read through `path` (a listing, which
follows a final link, or a `readlink`, which does not): the node the path
names has been accessed. -/
def World.accessed (w : World) (follow : Bool) (path : String) : World :=
  match resolve w follow path with
  | .ok key => w.touchAtime key
  | .error _ => w

/-- The names in a directory (Go `filepath.readDirNames`): `os.Open`,
`Readdirnames(-1)`, `sort.Strings`. The open fails for a directory the
process may not read. The machine after a listing that succeeded is
`w.accessed true path`. -/
def readDirNames (w : World) (path : String) : Except GoError (List String) :=
  match resolve w true path with
  | .error e => .error (.pathError "open" path e)
  | .ok key =>
    match w.node key with
    | none => .error (.pathError "open" path .ENOENT)
    | some n =>
      if w.mayRead n = false then .error (.pathError "open" path .EACCES)
      else if n.kind ≠ .dir then .error (.pathError "readdirent" path .ENOTDIR)
      else .ok (sortStrings (w.nodes.filterMap (fun kv =>
        if kv.1 ≠ [] ∧ kv.1.dropLast = key then kv.1.getLast? else none)))

/-- The machine after the attempt to list `path`: accessed when the listing
succeeded, as it was when it failed. -/
def World.listed (w : World) (path : String) : World :=
  match readDirNames w path with
  | .ok _ => w.accessed true path
  | .error _ => w

/-! ## `archive/tar` headers -/

/-- Go `tar.Header` (the walker's `Metadata` is this type). -/
structure Header where
  Name : String
  Mode : Nat
  Uid : Nat
  Gid : Nat
  Size : Nat
  ModTime : Nat
  Typeflag : Char
  Linkname : String
  Uname : String
  Gname : String
  Devmajor : Nat
  Devminor : Nat
  AccessTime : Nat
  ChangeTime : Nat
  deriving DecidableEq

/-- Go `tar.FileInfoHeader(fi, link)` on Unix: permission bits or-ed with the
tar type and set-id constants, size for regular files only, link name for
symbolic links only, owner and access/change times from `Stat_t`. The name is
left empty here; the walker assigns it right after the call. -/
def FileInfoHeader (fi : FileInfo) (link : String) : Except GoError Header :=
  let fm := fi.mode
  let h : Header :=
    { Name := "", Mode := fm &&& ModePerm, Uid := fi.uid, Gid := fi.gid, Size := 0,
      ModTime := fi.modTime, Typeflag := '\x00', Linkname := "", Uname := "", Gname := "",
      Devmajor := 0, Devminor := 0, AccessTime := fi.atime, ChangeTime := fi.ctime }
  let typed : Option Header :=
    if fm &&& ModeType = 0 then
      some { h with Mode := h.Mode ||| 0o100000, Typeflag := '0', Size := fi.size }
    else if fm &&& ModeDir ≠ 0 then
      some { h with Mode := h.Mode ||| 0o40000, Typeflag := '5' }
    else if fm &&& ModeSymlink ≠ 0 then
      some { h with Mode := h.Mode ||| 0o120000, Typeflag := '2', Linkname := link }
    else if fm &&& ModeDevice ≠ 0 then
      if fm &&& ModeCharDevice ≠ 0 then some { h with Mode := h.Mode ||| 0o20000, Typeflag := '3' }
      else some { h with Mode := h.Mode ||| 0o60000, Typeflag := '4' }
    else if fm &&& ModeNamedPipe ≠ 0 then
      some { h with Mode := h.Mode ||| 0o10000, Typeflag := '6' }
    else if fm &&& ModeSocket ≠ 0 then
      some { h with Mode := h.Mode ||| 0o140000 }
    else none
  match typed with
  | none => .error (.tarUnknownMode fm)
  | some h =>
    .ok { h with Mode := h.Mode
            ||| (if fm &&& ModeSetuid ≠ 0 then 0o4000 else 0)
            ||| (if fm &&& ModeSetgid ≠ 0 then 0o2000 else 0)
            ||| (if fm &&& ModeSticky ≠ 0 then 0o1000 else 0) }

/-! ## `filepath.Walk` -/

/-- One record of a bucket: the metadata of a node and, for regular files,
the hash of its content. -/
structure Record where
  metadata : Header
  hash : Option (List Nat)
  deriving DecidableEq

/-- The state threaded through a walk: the machine, and the records the
bucket has received so far, oldest first. The repository's `MemoryBucket` is
not among the sources; only `Record` is called on it. -/
structure WalkState where
  world : World
  bucket : List Record
  deriving DecidableEq

/-- How a Go call ends: normally, with an error value, or by panicking. -/
inductive Status
  | ok
  | err (e : GoError)
  | panic (e : GoError)
  deriving DecidableEq

/-- The type of a `filepath.WalkFunc` acting on the walk state. -/
abbrev WalkFunc := String → Option FileInfo → Option GoError → WalkState → Status × WalkState

def FileInfo.IsDir (fi : FileInfo) : Bool := fi.mode &&& ModeDir ≠ 0

/-- The loop of `filepath.walk` over the sorted names of a directory; `rec`
is the recursive call of `walk`. -/
def walkNames (rec : String → FileInfo → WalkState → Option (Status × WalkState))
    (walkFn : WalkFunc) (path : String) : List String → WalkState → Option (Status × WalkState)
  | [], s => some (.ok, s)
  | name :: rest, s =>
    let filename := Join path name
    match Lstat s.world filename with
    | .error e =>
      match walkFn filename none (some e) s with
      | (.ok, s1) => walkNames rec walkFn path rest s1
      | (.err .skipDir, s1) => walkNames rec walkFn path rest s1
      | r => some r
    | .ok fileInfo =>
      match rec filename fileInfo s with
      | none => none
      | some (.ok, s1) => walkNames rec walkFn path rest s1
      | some (.err e, s1) =>
        if fileInfo.IsDir ∧ e = .skipDir then walkNames rec walkFn path rest s1
        else some (.err e, s1)
      | some r => some r

/-- Go `filepath.walk`: call `walkFn` on the node, then descend into a
directory in the order of its sorted names; the listing leaves the
directory accessed. `none` means the recursion budget `fuel` ran out. -/
def walk (walkFn : WalkFunc) : Nat → String → FileInfo → WalkState → Option (Status × WalkState)
  | 0, _, _, _ => none
  | fuel + 1, path, info, s =>
    match walkFn path (some info) none s with
    | (.err e, s1) => if info.IsDir ∧ e = .skipDir then some (.ok, s1) else some (.err e, s1)
    | (.panic e, s1) => some (.panic e, s1)
    | (.ok, s1) =>
      if !info.IsDir then some (.ok, s1)
      else
        match readDirNames s1.world path with
        | .error e => some (walkFn path (some info) (some e) s1)
        | .ok names =>
          walkNames (fun p fi st => walk walkFn fuel p fi st) walkFn path names
            { s1 with world := s1.world.accessed true path }

/-- Go `filepath.Walk(root, walkFn)`. -/
def Walk (fuel : Nat) (root : String) (walkFn : WalkFunc) (s : WalkState) : Option (Status × WalkState) :=
  match Lstat s.world root with
  | .error e => some (walkFn root none (some e) s)
  | .ok info => walk walkFn fuel root info s

/-! ## `fshash.FillBucket` (lib/fshash/walker.go) -/

/-- A `hash.Hash` fresh from `hasherFactory`, seen as the function from the
bytes written to it to the digest `Sum(nil)` returns. -/
abbrev Hasher := List Nat → List Nat

/-- The call `bucket.Record(metadata, hash)`: the record is appended. -/
def WalkState.Record (s : WalkState) (hdr : Header) (hash : Option (List Nat)) : WalkState :=
  { s with bucket := s.bucket ++ [⟨hdr, hash⟩] }

/-- The directory case of the walk function. -/
def fillDir (destPath : String) (path : String) (info : FileInfo) (s : WalkState) : Status × WalkState :=
  let mode := info.mode
  match FileInfoHeader info "" with
  | .error e => (.err e, s)
  | .ok hdr0 =>
    let hdr := { hdr0 with Name := path }
    if destPath ≠ "" then
      match Mkdir s.world (Join destPath path) (mode &&& ModePerm) with
      | .error e => (.err e, s)
      | .ok w1 =>
        match UtimesNano w1 (Join destPath path) hdr.AccessTime hdr.ModTime with
        | .error e => (.err e, { s with world := w1 })
        | .ok w2 => (.ok, ({ s with world := w2 } : WalkState).Record hdr none)
    else (.ok, s.Record hdr none)

/-- The symbolic-link case of the walk function. The arguments of
`os.Readlink` and `os.Symlink` are the ones the source passes; the link that
was read is left accessed. -/
def fillSymlink (destPath : String) (path : String) (info : FileInfo) (s : WalkState) : Status × WalkState :=
  match Readlink s.world path with
  | .error e => (.err e, s)
  | .ok link =>
    let s : WalkState := { s with world := s.world.accessed false path }
    match FileInfoHeader info link with
    | .error e => (.err e, s)
    | .ok hdr0 =>
      let hdr := { hdr0 with Name := path }
      if destPath ≠ "" then
        match Symlink s.world (Join destPath path) link with
        | .error e => (.err e, s)
        | .ok w1 =>
          match LUtimesNano w1 (Join destPath path) hdr.AccessTime hdr.ModTime with
          | .error e => (.err e, { s with world := w1 })
          | .ok w2 => (.ok, ({ s with world := w2 } : WalkState).Record hdr none)
      else (.ok, s.Record hdr none)

/-- The regular-file case of the walk function: copy the data into place
through a tee into the hasher, then record header and hash. The file that
was read is left accessed. -/
def fillRegular (srcPath destPath : String) (hasher : Hasher) (path : String) (info : FileInfo)
    (s : WalkState) : Status × WalkState :=
  let mode := info.mode
  match OpenFileRead s.world (Join srcPath path) with
  | .error e => (.err e, s)
  | .ok src =>
    let opened : Except GoError (World × Option (List String)) :=
      if destPath ≠ "" then
        match OpenFileCreateExcl s.world (Join destPath path) (mode &&& ModePerm) with
        | .error e => .error e
        | .ok (w1, dest) => .ok (w1, some dest)
      else .ok (s.world, none)
    match opened with
    | .error e => (.err e, s)
    | .ok (w1, dest) =>
      match readAll w1 (Join srcPath path) src with
      | .error e => (.err e, { s with world := w1 })
      | .ok data =>
        let w1 := w1.touchAtime src
        let w2 := match dest with
          | some key => writeAll w1 key data
          | none => w1
        match FileInfoHeader info "" with
        | .error e => (.err e, { s with world := w2 })
        | .ok hdr0 =>
          let hdr := { hdr0 with Name := path }
          let stamped : Except GoError World :=
            if destPath ≠ "" then UtimesNano w2 (Join destPath path) hdr.AccessTime hdr.ModTime
            else .ok w2
          match stamped with
          | .error e => (.err e, { s with world := w2 })
          | .ok w3 => (.ok, ({ s with world := w3 } : WalkState).Record hdr (some (hasher data)))

/-- The function `FillBucket` hands to `filepath.Walk`. -/
def fillWalkFn (srcPath destPath : String) (hasher : Hasher) : WalkFunc :=
  fun path0 info err s =>
    let path := "." ++ TrimPrefixStr path0 srcPath
    match err, info with
    | some e, _ => (.err e, s)
    | none, none => (.panic .nilDereference, s)
    | none, some info =>
      let mode := info.mode
      if mode &&& ModeDir = ModeDir then fillDir destPath path info s
      else if mode &&& ModeSymlink = ModeSymlink then fillSymlink destPath path info s
      else if mode &&& ModeNamedPipe = ModeNamedPipe then (.panic (.notImplemented "TODO"), s)
      else if mode &&& ModeSocket = ModeSocket then (.panic (.notImplemented "TODO"), s)
      else if mode &&& ModeDevice = ModeDevice then (.panic (.notImplemented "TODO"), s)
      else if mode &&& ModeCharDevice = ModeCharDevice then (.panic (.notImplemented "TODO"), s)
      else if mode &&& ModeType = 0 then fillRegular srcPath destPath hasher path info s
      else (.panic (.notImplementedMode mode), s)

/-- The function `fshash.FillBucket(srcPath, destPath, bucket, hasherFactory)`: the walk
of the source. The outcome carries the state of the machine and of the
bucket at the moment of return; `none` means `fuel` was too small. -/
def FillBucket (fuel : Nat) (srcPath destPath : String) (hasher : Hasher) (s : WalkState) :
    Option (Status × WalkState) :=
  Walk fuel srcPath (fillWalkFn srcPath destPath hasher) s

/-! ## `encoding/base64`, URL alphabet -/

/-- The alphabet of Go `base64.URLEncoding`. -/
def encodeURL : List Char :=
  "ABCDEFGHIJKLMNOPQRSTUVWXYZabcdefghijklmnopqrstuvwxyz0123456789-_".data

/-- The character for a 6-bit value. -/
def encChar (v : Nat) : Char := encodeURL.getD v 'A'

/-- The decode map: the 6-bit value of a character of the alphabet. -/
def decChar (c : Char) : Option Nat :=
  let i := encodeURL.indexOf c
  if i < 64 then some i else none

/-- Go `Encoding.Encode` on bytes: groups of three bytes become four
characters; a tail of one or two bytes is padded with `=`. -/
def b64Encode : List Nat → List Char
  | [] => []
  | [a] => [encChar (a / 4), encChar (a % 4 * 16), '=', '=']
  | [a, b] => [encChar (a / 4), encChar (a % 4 * 16 + b / 16), encChar (b % 16 * 4), '=']
  | a :: b :: c :: rest =>
    encChar (a / 4) :: encChar (a % 4 * 16 + b / 16) :: encChar (b % 16 * 4 + c / 64)
      :: encChar (c % 64) :: b64Encode rest

/-- Go `base64.URLEncoding.EncodeToString`. -/
def EncodeToString (bytes : List Nat) : String := ⟨b64Encode bytes⟩

/-- Go `Encoding.decode`, quantum by quantum: the bytes written to the
destination, and whether an error is returned with them. On corrupt input
the bytes of the quanta decoded before it are kept. The byte arithmetic is
that of `dbuf[0]<<2 | dbuf[1]>>4` and its siblings on 8-bit values (the
or-ed parts never overlap, so they are added here). -/
def b64Decode : List Char → List Nat × Bool
  | [] => ([], false)
  | [_] => ([], true)
  | [_, _] => ([], true)
  | [_, _, _] => ([], true)
  | c0 :: c1 :: c2 :: c3 :: rest =>
    match decChar c0, decChar c1 with
    | some d0, some d1 =>
      if c2 = '=' then
        if c3 = '=' then ([(d0 * 4 + d1 / 16) % 256], decide (rest ≠ []))
        else ([], true)
      else
        match decChar c2 with
        | none => ([], true)
        | some d2 =>
          if c3 = '=' then
            ([(d0 * 4 + d1 / 16) % 256, (d1 * 16 % 256 + d2 / 4) % 256], decide (rest ≠ []))
          else
            match decChar c3 with
            | none => ([], true)
            | some d3 =>
              ((d0 * 4 + d1 / 16) % 256 :: (d1 * 16 % 256 + d2 / 4) % 256
                :: (d2 * 64 % 256 + d3) % 256 :: (b64Decode rest).1, (b64Decode rest).2)
    | _, _ => ([], true)

/-- Go `base64.URLEncoding.DecodeString`: carriage returns and line feeds are
dropped before decoding; the decoded bytes come back even beside an error. -/
def DecodeString (s : String) : List Nat × Bool :=
  b64Decode (s.data.filter (fun c => c ≠ '\r' ∧ c ≠ '\n'))

/-! ## `dir.Input.Apply` (input/dir/dir_input.go) -/

/-- The fields of `def.Input` that the dir input reads. -/
structure InputSpec where
  Type_ : String
  Hash : String
  URI : String
  deriving DecidableEq

/-- The walker's tree digest `fshash.Hash(bucket, hasherFactory)` is not among
the sources; `Apply` takes it as the function `treeHash` from the recorded
bucket (and the hasher) to the digest bytes. -/
abbrev TreeHash := List Record → Hasher → List Nat

/-- The method `Input.Apply(destinationRoot)`: the value the caller receives from the
returned channel (`none` for a channel closed without a value, i.e. a nil
error), and the machine state when the goroutine is done. An error returned
by `FillBucket` is sent as it is; a panic is caught by `CatchAll` and sent;
otherwise the decoded `Hash` is compared with the tree hash. -/
def Apply (fuel : Nat) (spec : InputSpec) (hasher : Hasher) (treeHash : TreeHash)
    (destinationRoot : String) (w : World) : Option (Option GoError × World) :=
  match FillBucket fuel spec.URI destinationRoot hasher ⟨w, []⟩ with
  | none => none
  | some (.err e, s) => some (some e, s.world)
  | some (.panic e, s) => some (some e, s.world)
  | some (.ok, s) =>
    let actualTreeHash := treeHash s.bucket hasher
    let expectedTreeHash := (DecodeString spec.Hash).1
    if actualTreeHash ≠ expectedTreeHash then
      some (some (.inputHashMismatch spec.Hash (EncodeToString actualTreeHash)), s.world)
    else some (none, s.world)

/-! ## Concrete machines used to evaluate the code -/

/-- A node owned by `owner` (user and group) with the given times. -/
def exNode (k : Kind) (perm owner atime mtime : Nat) : Inode :=
  { kind := k, perm := perm, uid := owner, gid := owner, atime := atime, mtime := mtime, ctime := 900 }

/-- The tree of the first scenario of `dir_input_test.go` under `/tmp/src`:
`a/` and `b/` and the file `b/c` holding "zyx", all owned by 10000, with the
times the test sets. The process is root with an empty umask. -/
def fixtureWorld : World :=
  { nodes := [([], exNode .dir 0o755 0 0 0), (["tmp"], exNode .dir 0o777 0 0 0),
              (["tmp", "src"], exNode .dir 0o755 10000 1000000002 1000000002000),
              (["tmp", "src", "a"], exNode .dir 0o777 10000 3000000002 3000000002000),
              (["tmp", "src", "b"], exNode .dir 0o750 10000 5000000002 5000000002000),
              (["tmp", "src", "b", "c"],
                exNode (.file [122, 121, 120]) 0o664 10000 7000000002 7000000002000)],
    cwd := ["tmp"], euid := 0, egid := 0, umask := 0, clock := 9000000000000 }

/-- A source directory `/src` holding the files `a` ("zyx") and `.a` ("222");
the process runs inside it. -/
def dotWorld : World :=
  { nodes := [([], exNode .dir 0o755 0 0 0), (["src"], exNode .dir 0o755 0 0 0),
              (["src", "a"], exNode (.file [122, 121, 120]) 0o644 0 7 7),
              (["src", ".a"], exNode (.file [50, 50, 50]) 0o644 0 8 8)],
    cwd := ["src"], euid := 0, egid := 0, umask := 0, clock := 1000 }

/-- A source directory `/src` with the sticky bit (mode 01777) holding a
set-user-ID file `f` (mode 04755), everything owned by root. -/
def stickyWorld : World :=
  { nodes := [([], exNode .dir 0o755 0 0 0), (["src"], exNode .dir 0o1777 0 5 5),
              (["src", "f"], exNode (.file [1]) 0o4755 0 7 7)],
    cwd := [], euid := 0, egid := 0, umask := 0, clock := 1000 }

/-- A source directory `/src` holding a named pipe `p`. -/
def pipeWorld : World :=
  { nodes := [([], exNode .dir 0o755 0 0 0), (["src"], exNode .dir 0o755 0 5 5),
              (["src", "p"], exNode .fifo 0o644 0 7 7)],
    cwd := [], euid := 0, egid := 0, umask := 0, clock := 1000 }

/-- A hasher that tells all contents apart: the digest is the content. -/
def idHasher : Hasher := fun bytes => bytes

/-- A tree digest for evaluating `Apply`: the names and content hashes of the
records, fed to the hasher. -/
def nameTreeHash : TreeHash := fun bucket hasher =>
  hasher (bucket.foldr (fun r acc =>
    r.metadata.Name.data.map Char.toNat ++ 0 :: (r.hash.getD []) ++ 0 :: acc) [])

/-- The fields of a record that a copy is meant to preserve. -/
def Record.summary (r : Record) : String × Nat × Nat × Nat × Nat × Option (List Nat) :=
  (r.metadata.Name, r.metadata.Mode, r.metadata.Uid, r.metadata.Gid, r.metadata.ModTime, r.hash)

/-- Copy `src` to `dest`, then scan the copy: the summaries recorded by the
copying walk over the source and by the scan of the destination. -/
def copyThenScan (fuel : Nat) (src dest : String) (hasher : Hasher) (w : World) :
    Option (List (String × Nat × Nat × Nat × Nat × Option (List Nat)) ×
            List (String × Nat × Nat × Nat × Nat × Option (List Nat))) :=
  match FillBucket fuel src dest hasher ⟨w, []⟩ with
  | some (.ok, s1) =>
    match FillBucket fuel dest "" hasher ⟨s1.world, []⟩ with
    | some (.ok, s2) => some (s1.bucket.map Record.summary, s2.bucket.map Record.summary)
    | _ => none
  | _ => none

/-- The status of a copy and the node it leaves at `key`. -/
def copiedNode (fuel : Nat) (src dest : String) (hasher : Hasher) (w : World) (key : List String) :
    Option (Status × Option Inode) :=
  (FillBucket fuel src dest hasher ⟨w, []⟩).map (fun r => (r.1, r.2.world.node key))

/-! ## Predicates used in the statements and proofs -/

/-- A node that is neither directory, regular file nor symbolic link. -/
def Kind.isSpecial : Kind → Bool
  | .fifo | .socket | .blockDev | .charDev => true
  | _ => false

/-- A name a directory entry can have. -/
def validName (c : String) : Prop := c ≠ "" ∧ c ≠ "." ∧ c ≠ ".." ∧ '/' ∉ c.data

/-- The keys of all nodes. -/
def World.keys (w : World) : List (List String) := w.nodes.map Prod.fst

/-- The machine `w1` differs from `w` in access times at most: the same keys
in the same order, the same working directory, credentials, umask and clock,
and under every key the same node but for its access time. -/
def SameButAtime (w w1 : World) : Prop :=
  w1.keys = w.keys ∧ w1.cwd = w.cwd ∧ w1.euid = w.euid ∧ w1.egid = w.egid ∧
    w1.umask = w.umask ∧ w1.clock = w.clock ∧
    ∀ key, (w1.node key).map (fun n => { n with atime := 0 })
      = (w.node key).map (fun n => { n with atime := 0 })

/-- Where path resolution can end: at (a prefix of) a recorded key, or at a
valid new name directly inside a recorded node. -/
def KeyOK (w : World) (key : List String) : Prop :=
  (∃ k ∈ w.keys, key <+: k) ∨ (∃ d c, key = d ++ [c] ∧ d ∈ w.keys ∧ validName c)

/-- The changes the system calls make: a node is replaced under its key, a
node is added under a fresh key that path resolution can yield, the clock
advances. -/
inductive Step : World → World → Prop
  | refl (w : World) : Step w w
  | set (w : World) (key : List String) (n : Inode) : Step w (w.setNode key n)
  | add (w : World) (key : List String) (n : Inode) (hnone : key ∉ w.keys) (hok : KeyOK w key) :
      Step w (w.addNode key n)
  | tick (w : World) : Step w w.tick
  | trans {a b c : World} : Step a b → Step b c → Step a c

/-- An error a system call or the header construction reports: neither the
hash-mismatch error of `Apply` nor `filepath.SkipDir`. -/
def GoError.isPlain : GoError → Bool
  | .inputHashMismatch _ _ => false
  | .skipDir => false
  | _ => true

/-- A status that is `ok` or carries a plain error. -/
def Status.isPlain : Status → Bool
  | .ok => true
  | .err e => e.isPlain
  | .panic e => e.isPlain

/-- The effect of one call of the walk function that records under `name`:
the machine changes by system-call steps only (without a destination, in
access times at most), the status is plain, and the bucket gains exactly one
record named `name` on success and nothing otherwise. -/
def CallFacts (destPath name : String) (s : WalkState) (r : Status × WalkState) : Prop :=
  Step s.world r.2.world ∧ (destPath = "" → SameButAtime s.world r.2.world) ∧
    r.1.isPlain = true ∧
    (r.1 = .ok → ∃ rec, r.2.bucket = s.bucket ++ [rec] ∧ rec.metadata.Name = name) ∧
    (r.1 ≠ .ok → r.2.bucket = s.bucket)

/-- The effect of a walk, whatever its outcome: system-call steps only
(without a destination, a change of access times at most), a plain status,
records appended to the bucket. -/
def RunFacts (destPath : String) (s : WalkState) (r : Status × WalkState) : Prop :=
  Step s.world r.2.world ∧ (destPath = "" → SameButAtime s.world r.2.world) ∧
    r.1.isPlain = true ∧
    ∃ new, r.2.bucket = s.bucket ++ new

/-- The state after copying the test tree to `/tmp/dest`. -/
def fixtureCopied : WalkState :=
  ((FillBucket 4 "/tmp/src" "/tmp/dest" idHasher ⟨fixtureWorld, []⟩).map Prod.snd).getD
    ⟨fixtureWorld, []⟩

/-- The characters of `/a/b/c` for the components `a`, `b`, `c`. -/
def slashChars : List String → List Char
  | [] => []
  | c :: cs => '/' :: c.data ++ slashChars cs

/-- The path suffix `/a/b/c` for the components `a`, `b`, `c` (empty for no
components). -/
def slashPath (rel : List String) : String := ⟨slashChars rel⟩

/-- A file system whose keys are pairwise distinct lists of valid names. -/
def WF (w : World) : Prop := (∀ k ∈ w.keys, ∀ c ∈ k, validName c) ∧ w.keys.Nodup

/-- Byte-wise order on names. -/
def nameLt (a b : String) : Prop := bytesLt a.data b.data = true

/-- The path `filepath.walk` hands to the walk function for the node reached
from `src` through the directory entries `rel`: each step is
`filepath.Join(path, name)`. -/
def walkPath (src : String) (rel : List String) : String := rel.foldl Join src

/-- The name `FillBucket` records for the node reached through `rel`. -/
def recordedName (src : String) (rel : List String) : String :=
  "." ++ TrimPrefixStr (walkPath src rel) src

/-- The entry path `x` names a node that `lstat` found during the run that
started in state `s`: in a machine reached from the start by system-call
steps (the start itself when there is no destination). -/
def Found (destPath src : String) (s : WalkState) (x : List String) : Prop :=
  ∃ w1 fi, Step s.world w1 ∧ (destPath = "" → w1 = s.world) ∧
    Lstat w1 (walkPath src x) = .ok fi

/-- What a walk has added to the bucket: records named after the entry paths
`rels`, each made of valid names and found by `lstat`, in strictly ascending
lexicographic order of their components. -/
def Recorded (destPath src : String) (s : WalkState) (new : List Record)
    (rels : List (List String)) : Prop :=
  new.map (fun r => r.metadata.Name) = rels.map (recordedName src) ∧
    (∀ x ∈ rels, (∀ c ∈ x, validName c) ∧ Found destPath src s x) ∧
    rels.Pairwise (List.Lex nameLt)

/-- The entry path `x` names a node that `lstat` found during the run, and if
that node is a directory, the directory was listed right after its own
record was made and every name of the listing, appended to `x`, is among
`rels`. -/
def Listed (destPath src : String) (s : WalkState) (rels : List (List String))
    (x : List String) : Prop :=
  ∃ w1 w2 fi, Step s.world w1 ∧ Step w1 w2 ∧ (destPath = "" → w1 = s.world ∧ w2 = s.world) ∧
    Lstat w1 (walkPath src x) = .ok fi ∧
    (fi.IsDir = true → ∃ names, readDirNames w2 (walkPath src x) = .ok names ∧
      ∀ n ∈ names, (x ++ [n]) ∈ rels)

/-- The outcome of the walk of one node `rel`: system-call steps only, and
either no record or the node itself first and then nodes strictly below it;
on success every recorded directory has all its entries recorded. -/
def RecordedAt (destPath src : String) (rel : List String) (s : WalkState)
    (r : Status × WalkState) : Prop :=
  Step s.world r.2.world ∧ (destPath = "" → SameButAtime s.world r.2.world) ∧
    ∃ new rels, r.2.bucket = s.bucket ++ new ∧ Recorded destPath src s new rels ∧
      (rels = [] ∨ ∃ t, rels = rel :: t ∧ ∀ x ∈ t, ∃ n, (rel ++ [n]) <+: x) ∧
      (r.1 = .ok → rels ≠ [] ∧ ∀ x ∈ rels, Listed destPath src s rels x)

/-! ## Machines and predicates for the copy of links and of existing names -/

/-- A source directory `/src` holding the symbolic link `l` whose target is
the string `../dest/l`; the process runs inside the source directory. -/
def linkWorld : World :=
  { nodes := [([], exNode .dir 0o755 0 0 0), (["src"], exNode .dir 0o755 0 5 5),
              (["src", "l"], exNode (.symlink "../dest/l") 0o777 0 7 7)],
    cwd := ["src"], euid := 0, egid := 0, umask := 0, clock := 1000 }

/-- A source directory `/src` holding the symbolic link `l` whose target is
the string `x`; the process runs inside the source directory. -/
def strayWorld : World :=
  { nodes := [([], exNode .dir 0o755 0 0 0), (["src"], exNode .dir 0o755 0 5 5),
              (["src", "l"], exNode (.symlink "x") 0o777 0 7 7)],
    cwd := ["src"], euid := 0, egid := 0, umask := 0, clock := 1000 }

/-- The state after scanning the test tree (no destination). -/
def fixtureScanned : WalkState :=
  ((FillBucket 4 "/tmp/src" "" idHasher ⟨fixtureWorld, []⟩).map Prod.snd).getD
    ⟨fixtureWorld, []⟩

/-- Every node of `w` is still there in `w1` with the content it had (its
kind, and with it the bytes of a file and the target of a link), and with
its permissions and owner. Times may differ. -/
def ContentKept (w w1 : World) : Prop :=
  ∀ key n, w.node key = some n →
    ∃ n1, w1.node key = some n1 ∧ n1.kind = n.kind ∧ n1.perm = n.perm ∧ n1.uid = n.uid ∧
      n1.gid = n.gid

/-! ## `rio/contract.go`: configurers, filter options, assembly parts -/

/-- The modes of `def.Filters` that `ConvertFilterConfig` tells apart. The
type is not among the sources: a mode is `FilterKeep`, `FilterUse`, or some
other value (given by its number). -/
inductive FilterMode
  | FilterKeep
  | FilterUse
  | unhandled (value : Int)
  deriving DecidableEq

/-- Go `def.Filters` as far as `ConvertFilterConfig` reads it (the type is
not among the sources): for each of uid, gid and mtime a mode and the
constant to use. The time is in nanoseconds. -/
structure Filters where
  UidMode : FilterMode
  Uid : Int
  GidMode : FilterMode
  Gid : Int
  MtimeMode : FilterMode
  Mtime : Int
  deriving DecidableEq

/-- The filters of package `filter` that `ConvertFilterConfig` builds, each
with the constant it carries. -/
inductive Filter
  | UidFilter (uid : Int)
  | GidFilter (gid : Int)
  | MtimeFilter (mtime : Int)
  deriving DecidableEq

/-- A `rio.MaterializerConfigurer`. The Go values are closures; each is
given here by the function of `contract.go` that builds it and the value it
captures (`rep` stands for the channel). -/
inductive MaterializerConfigurer
  | ProgressReporter (rep : Nat)
  | AcceptHashMismatch
  | UseFilter (filt : Filter)
  deriving DecidableEq

/-- The error values the code of `rio` raises by panicking. -/
inductive RioError
  | ErrConfigValidation (Msg : String)
  | ErrWarehouseUnavailable (Msg : String) (During : String)
  | ErrInternal (Msg : String)
  | unhandledFilterMode (mode : FilterMode)
  | other (Msg : String)
  deriving DecidableEq

/-- How a call ends: it returns a value, or it panics with an error. -/
inductive Outcome (α : Type)
  | returned (a : α)
  | panicked (e : RioError)
  deriving DecidableEq

/-- One `switch` of `ConvertFilterConfig`: nothing for `FilterKeep`, the
filter appended for `FilterUse`, a panic
(`errors.ProgrammerError.New("unhandled filter mode %v", mode)`) otherwise. -/
def filterSwitch (mode : FilterMode) (f : Filter) (filterOptions : List MaterializerConfigurer) :
    Outcome (List MaterializerConfigurer) :=
  match mode with
  | .FilterKeep => .returned filterOptions
  | .FilterUse => .returned (filterOptions ++ [.UseFilter f])
  | .unhandled v => .panicked (.unhandledFilterMode (.unhandled v))

/-- Go `rio.ConvertFilterConfig(conf)`. -/
def ConvertFilterConfig (conf : Filters) : Outcome (List MaterializerConfigurer) :=
  match filterSwitch conf.UidMode (.UidFilter conf.Uid) [] with
  | .panicked e => .panicked e
  | .returned o1 =>
    match filterSwitch conf.GidMode (.GidFilter conf.Gid) o1 with
    | .panicked e => .panicked e
    | .returned o2 => filterSwitch conf.MtimeMode (.MtimeFilter conf.Mtime) o2

/-- The field a configurer filters, if it is a filter configurer. -/
def MaterializerConfigurer.field : MaterializerConfigurer → Option String
  | .UseFilter (.UidFilter _) => some "uid"
  | .UseFilter (.GidFilter _) => some "gid"
  | .UseFilter (.MtimeFilter _) => some "mtime"
  | _ => none

/-- Go `rio.AssemblyPart`. -/
structure AssemblyPart where
  TargetPath : String
  SourcePath : String
  Writable : Bool
  BareMount : Bool
  deriving DecidableEq

/-- Go `rio.AssemblyPartsByPath`, a slice of parts. -/
abbrev AssemblyPartsByPath := List AssemblyPart

/-- Go `AssemblyPartsByPath.Len`. -/
def AssemblyPartsByPath.Len (a : AssemblyPartsByPath) : Nat := a.length

/-- Go `AssemblyPartsByPath.Less(i, j)`: `a[i].TargetPath < a[j].TargetPath`,
the byte-wise order of strings. An index out of range (a run-time panic in
Go) is `none`. -/
def AssemblyPartsByPath.Less (a : AssemblyPartsByPath) (i j : Nat) : Option Bool :=
  match a[i]?, a[j]? with
  | some x, some y => some (bytesLt x.TargetPath.data y.TargetPath.data)
  | _, _ => none

/-- What `sort.Sort` establishes: no element is `Less` than one before it. -/
def AssemblyPartsByPath.sorted (a : AssemblyPartsByPath) : Prop :=
  ∀ i j, i < j → j < a.Len → a.Less j i = some false

/-- The mounts `/a` and `/a/b`, parent first. -/
def mountParts : AssemblyPartsByPath :=
  [⟨"/a", "/x", false, false⟩, ⟨"/a/b", "/y", true, false⟩]

/-- The string `p` is a proper prefix of `q`. -/
def properPrefixOf (p q : String) : Prop := p.data <+: q.data ∧ p ≠ q

/-! ## `def/action_serial.go`: the environment as a sorted slice -/

/-- Go `def.Env`, a `map[string]string`: its entries in the order a `range`
loop happens to visit them. The keys of a map are pairwise distinct
(`Env.valid`). -/
structure Env where
  entries : List (String × String)
  deriving DecidableEq

/-- The keys of a map are pairwise distinct. -/
def Env.valid (mp : Env) : Prop := (mp.entries.map Prod.fst).Nodup

/-- Go `mp[k]`: the value stored under `k`, the empty string for a missing key. -/
def Env.get (mp : Env) (k : String) : String := (mp.entries.lookup k).getD ""

/-- The second loop of `asMappySlice`: for each key in turn, `val[i] = k` and
`val[i+1] = mp[k]`. -/
def fillSlots (mp : Env) : List String → Nat → List String → List String
  | [], _, val => val
  | k :: keys, i, val => fillSlots mp keys (i + 2) ((val.set i k).set (i + 1) (mp.get k))

/-- Go `Env.asMappySlice`: the keys collected by ranging over the map, sorted
with `sort.Strings`, then written with their values into a slice of twice
the length of the map. -/
def Env.asMappySlice (mp : Env) : List String :=
  let keys := sortStrings (mp.entries.map Prod.fst)
  fillSlots mp keys 0 (List.replicate (mp.entries.length * 2) "")

/-! ## The git transmat (`rio/transmat/impl/git/git_transmat.go`) -/

/-- The kind of the git transmat, `rio.TransmatKind("git")` (`Kind` in the
source). -/
def GitKind : String := "git"

/-- Go `gitArena`. -/
structure gitArena where
  workDirPath : String
  hash : String
  deriving DecidableEq

def gitArena.Path (a : gitArena) : String := a.workDirPath

def gitArena.Hash (a : gitArena) : String := a.hash

/-- The directories of the transmat's work area, as `New` sets them up. -/
structure workArea where
  fullCheckouts : String
  nosubCheckouts : String
  gitDirs : String
  deriving DecidableEq

/-- Go `GitTransmat`. -/
structure GitTransmat where
  workArea : workArea
  deriving DecidableEq

/-- Modelled from the spec: the methods of `workArea` are not among the
sources. The final place of the full checkout of a commit is the directory
named after the commit under `full`. -/
def workArea.getFullchFinalPath (wa : workArea) (commitHash : String) : String :=
  Join wa.fullCheckouts commitHash

/-- Modelled from the spec: `mixins.MustBeType` is not among the sources. A
kind other than the transmat's own is rejected with a configuration error;
`none` means the check passed. -/
def MustBeType (expected actual : String) : Option RioError :=
  if actual ≠ expected then some (.ErrConfigValidation ("unsupported kind " ++ actual)) else none

/-- Modelled from the spec: `rio.TryPlanWhitelist` is not among the sources.
The named error kinds a caller branches on are raised again unchanged; any
other panic value is wrapped as an internal error. -/
def TryPlanWhitelist : RioError → RioError
  | .other m => .ErrInternal m
  | .unhandledFilterMode _ => .ErrInternal "unhandled filter mode"
  | e => e

/-- Go `os.Stat`: the attributes of the node a path names, a final symbolic
link followed. -/
def Stat (w : World) (path : String) : Except GoError FileInfo :=
  match resolve w true path with
  | .error e => .error (.pathError "stat" path e)
  | .ok key =>
    match w.node key with
    | none => .error (.pathError "stat" path .ENOENT)
    | some n => .ok n.info

/-- What `Materialize` does outside the process, in order: it runs
`git version`, pings a silo, or fetches a commit from a warehouse and checks
it out. -/
inductive GitEvent
  | gitVersion
  | ping (uri : String)
  | provision (uri : String) (commit : String)
  deriving DecidableEq

/-- The surroundings of one call of `Materialize`, for the helpers of the
package that are not among the sources. `Ping events uri` is the answer of
`NewWarehouse(uri).Ping()` after the events so far (`none` is Go's `nil`: the
warehouse responded; otherwise the reason). `provision` stands for the rest
of `Materialize` once a warehouse is chosen (fetch into the git directory,
checkout into a temporary path, submodules, ownership, move into the final
place, through `hasCommit`, `yank`, `checkout`, `listSubmodules`,
`moveOrShrug` and the like): it may change the disk and may panic. -/
structure GitEnv where
  gitVersion : String
  Ping : List GitEvent → String → Option String
  provision : World → workArea → String → String → World × Option RioError

/-- The machine and the events so far. -/
structure GitState where
  world : World
  events : List GitEvent
  deriving DecidableEq

/-- The loop over the silos in `Materialize`: each is pinged in turn until
one answers `nil`; that one is the warehouse. -/
def pingSilos (env : GitEnv) : List String → List GitEvent → Option String × List GitEvent
  | [], events => (none, events)
  | uri :: rest, events =>
    match env.Ping events uri with
    | none => (some uri, events ++ [.ping uri])
    | some _ => pingSilos env rest (events ++ [.ping uri])

/-- Go `GitTransmat.Materialize(kind, dataHash, siloURIs, log, options...)`.
The body runs under `meep.Try` with `rio.TryPlanWhitelist`; logging has no
effect on the outcome and is left out, and `options` is not read. -/
def GitTransmat.Materialize (t : GitTransmat) (env : GitEnv) (kind dataHash : String)
    (siloURIs : List String) (_options : List MaterializerConfigurer) (s : GitState) :
    GitState × Outcome gitArena :=
  match MustBeType GitKind kind with
  | some e => (s, .panicked (TryPlanWhitelist e))
  | none =>
    let finalPath := t.workArea.getFullchFinalPath dataHash
    match Stat s.world finalPath with
    | .ok _ => (s, .returned { workDirPath := finalPath, hash := dataHash })
    | .error _ =>
      let s1 : GitState := { s with events := s.events ++ [.gitVersion] }
      if siloURIs.length < 1 then
        (s1, .panicked (TryPlanWhitelist
          (.ErrWarehouseUnavailable "No warehouse coords configured!" "fetch")))
      else
        match pingSilos env siloURIs s1.events with
        | (none, events) =>
          ({ s1 with events := events }, .panicked (TryPlanWhitelist
            (.ErrWarehouseUnavailable "No warehouses responded!" "fetch")))
        | (some uri, events) =>
          match env.provision s1.world t.workArea uri dataHash with
          | (w1, some e) =>
            ({ world := w1, events := events ++ [.provision uri dataHash] },
              .panicked (TryPlanWhitelist e))
          | (w1, none) =>
            ({ world := w1, events := events ++ [.provision uri dataHash] },
              .returned { workDirPath := t.workArea.getFullchFinalPath dataHash, hash := dataHash })

/-- Go `GitTransmat.Scan(kind, subjectPath, siloURIs, log, options...)`: the
result would be a `rio.CommitID`. -/
def GitTransmat.Scan (_t : GitTransmat) (_kind _subjectPath : String) (_siloURIs : List String)
    (_options : List MaterializerConfigurer) : Outcome String :=
  .panicked (.ErrConfigValidation "saving with the git transmat is not supported")

/-- A machine with the work area `/work` of a git transmat in which the
commit `abc` is checked out in full. -/
def gitWorld : World :=
  { nodes := [([], exNode .dir 0o755 0 0 0), (["work"], exNode .dir 0o755 0 5 5),
              (["work", "full"], exNode .dir 0o755 0 5 5),
              (["work", "full", "abc"], exNode .dir 0o755 0 5 5)],
    cwd := [], euid := 0, egid := 0, umask := 0, clock := 1000 }

/-- The transmat `New("/work")` returns. -/
def gitTransmat : GitTransmat :=
  { workArea :=
      { fullCheckouts := "/work/full", nosubCheckouts := "/work/nosub", gitDirs := "/work/gits" } }

/-- Surroundings in which only the silo `good` answers a ping and fetching
and checking out do nothing. -/
def gitEnv : GitEnv :=
  { gitVersion := "git version 2",
    Ping := fun _ uri => if uri = "good" then none else some "unreachable",
    provision := fun w _ _ _ => (w, none) }

/-! ## `def/action_serial.go`: mount groups -/

/-- Go `def.Mount`, with the fields `action_serial.go` names (the type is not
among the sources). -/
structure Mount where
  TargetPath : String
  SourcePath : String
  Writable : Bool
  deriving DecidableEq

/-- Go `def.MountGroup`, a slice of mounts. -/
abbrev MountGroup := List Mount

/-- Modelled from the spec: the type `MountGroupByTargetPath` is not among the
sources. A mount group is "sorted by `TargetPath`": `Less(i, j)` compares the
target paths of two mounts byte-wise, as `AssemblyPartsByPath.Less` does. -/
def MountGroupByTargetPath.Less (x y : Mount) : Bool :=
  bytesLt x.TargetPath.data y.TargetPath.data

/-- The inner loop of Go's `insertionSort` (package `sort`): the element `x`
is swapped to the left while it is `less` than its left neighbour. `left`
holds the elements to the left of `x`, the nearest first. -/
def sinkLeft {α : Type} (less : α → α → Bool) (x : α) : List α → List α
  | [] => [x]
  | y :: ys => if less x y then y :: sinkLeft less x ys else x :: y :: ys

/-- Go `insertionSort(data, 0, n)`: the elements are taken from left to right
and each is sunk into the part already ordered. This is what `sort.Sort`
runs on a slice of fewer than eight elements. -/
def goInsertionSort {α : Type} (less : α → α → Bool) (l : List α) : List α :=
  (l.foldl (fun left x => sinkLeft less x left) []).reverse

/-- What `sort.Sort(MountGroupByTargetPath(mg))` guarantees, whatever the
length of the slice and the algorithm chosen for it: the slice is permuted
so that no mount is `Less` than one before it. The sort is not stable. -/
def SortsByTargetPath (sorter : MountGroup → MountGroup) : Prop :=
  ∀ mg, (sorter mg).Perm mg ∧
    (sorter mg).Pairwise (fun a b => MountGroupByTargetPath.Less b a = false)

/-- The loop of `CodecEncodeSelf`: for each mount in turn,
`val[i] = k.TargetPath` and `val[i+1] = k.SourcePath`. -/
def fillMounts : List Mount → Nat → List String → List String
  | [], _, val => val
  | k :: rest, i, val => fillMounts rest (i + 2) ((val.set i k.TargetPath).set (i + 1) k.SourcePath)

/-- Go `MountGroup.CodecEncodeSelf`: the group is sorted in place with
`sort.Sort` (the parameter `sorter`), then target and source path of each
mount are written in turn into a slice of twice the length of the group.
The result is the slice handed to the encoder. -/
def MountGroup.CodecEncodeSelf (sorter : MountGroup → MountGroup) (mg : MountGroup) : List String :=
  let sorted := sorter mg
  fillMounts sorted 0 (List.replicate (sorted.length * 2) "")

/-- The key–value pairs of an alternating sequence, in order. For keys that
are pairwise distinct these are the entries of the `map[string]interface{}`
the decoder builds from the sequence. -/
def pairsOf : List String → List (String × String)
  | k :: v :: rest => (k, v) :: pairsOf rest
  | _ => []

/-- Go `MountGroup.CodecDecodeSelf`: `raw` is the decoded map, its entries in
the order the `range` loop visits them (the values are strings); each entry
becomes a writable mount, appended to the group. -/
def MountGroup.CodecDecodeSelf (raw : List (String × String)) : MountGroup :=
  raw.foldl (fun tmp kv => tmp ++ [{ TargetPath := kv.1, SourcePath := kv.2, Writable := true }]) []

/-- Target and source path of a mount. -/
def Mount.paths (m : Mount) : String × String := (m.TargetPath, m.SourcePath)

/-- Two mounts on the same target path with different sources. -/
def twinMounts : MountGroup := [⟨"/a", "/x", true⟩, ⟨"/a", "/y", true⟩]

/-- A group of three mounts, out of order, one of them read-only. -/
def sampleMounts : MountGroup := [⟨"/b", "/y", true⟩, ⟨"/a", "/x", false⟩, ⟨"/a/c", "/z", true⟩]

/-! ## `input/dir/dir_input.go`: `New` -/

/-- The constant `Type` of package `dir`. -/
def dirType : String := "dir"

/-- The error classes `New` raises: `errors.ProgrammerError` and
`def.ValidationError`. -/
inductive ErrorClass
  | ProgrammerError
  | ValidationError
  deriving DecidableEq

/-- Go `dir.Input`: the spec and the factory of the hasher. -/
structure Input where
  spec : InputSpec
  hasherFactory : Hasher

/-- How `New` ends: it returns the input, or it panics with an error of a
class, made from a format string and its arguments. -/
inductive NewOutcome
  | returned (i : Input)
  | panicked (cls : ErrorClass) (format : String) (args : List String)

/-- Go `os.IsNotExist(err)`: the error under a path or link error is
`ENOENT`; `none` is Go's `nil`. -/
def IsNotExist : Option GoError → Bool
  | some (.pathError _ _ .ENOENT) => true
  | some (.linkError _ _ _ .ENOENT) => true
  | _ => false

/-- Go `dir.New(spec)`. The hasher factory `sha512.New384` is the parameter
`New384`. -/
def New (New384 : Hasher) (w : World) (spec : InputSpec) : NewOutcome :=
  if spec.Type_ ≠ dirType then
    .panicked .ProgrammerError
      "This input implementation supports definitions of type %q, not %q" [dirType, spec.Type_]
  else
    let err : Option GoError :=
      match Stat w spec.URI with
      | .ok _ => none
      | .error e => some e
    if IsNotExist err then
      .panicked .ValidationError "Input URI %q must be a directory" [spec.URI]
    else .returned { spec := spec, hasherFactory := New384 }

/-! ## `executor/chroot/chroot_executor.go`: waiting for the job -/

/-- Go `syscall.WaitStatus` on Linux: the status word `wait4` fills in. -/
structure WaitStatus where
  word : Nat
  deriving DecidableEq

/-- Go `WaitStatus.Exited`: `w&mask == exited`, with `mask = 0x7F`. -/
def WaitStatus.Exited (w : WaitStatus) : Bool := w.word &&& 0x7F == 0

/-- Go `WaitStatus.Signaled`: `w&mask != stopped && w&mask != exited`. -/
def WaitStatus.Signaled (w : WaitStatus) : Bool := w.word &&& 0x7F != 0x7F && w.word &&& 0x7F != 0

/-- Go `WaitStatus.Stopped`: `w&0xFF == stopped`, with `stopped = 0x7F`. -/
def WaitStatus.Stopped (w : WaitStatus) : Bool := w.word &&& 0xFF == 0x7F

/-- Go `WaitStatus.Continued`: `w == 0xFFFF`. -/
def WaitStatus.Continued (w : WaitStatus) : Bool := w.word == 0xFFFF

/-- Go `WaitStatus.ExitStatus`: `int(w>>shift) & 0xFF`, or -1 if not exited. -/
def WaitStatus.ExitStatus (w : WaitStatus) : Int :=
  if !w.Exited then -1 else (((w.word >>> 8) &&& 0xFF : Nat) : Int)

/-- Go `WaitStatus.Signal`: `Signal(w & mask)`, or -1 if not signaled. -/
def WaitStatus.Signal (w : WaitStatus) : Int :=
  if !w.Signaled then -1 else ((w.word &&& 0x7F : Nat) : Int)

/-- A status word of one of the four kinds `wait4` reports. -/
def WaitStatus.valid (w : WaitStatus) : Prop :=
  w.Exited = true ∨ w.Signaled = true ∨ w.Stopped = true ∨ w.Continued = true

/-- What one call of `cmd.Process.Wait()` gives: an error, or a process state
whose `Sys()` is a `syscall.WaitStatus` (`some`) or a value of another type
(`none`). -/
inductive WaitResult
  | failed (err : String)
  | state (sys : Option WaitStatus)
  deriving DecidableEq

/-- How `waitTry` ends: it returns `(int, error)` or it panics. -/
inductive TryResult
  | ret (exitCode : Int) (err : Option String)
  | panic (e : GoError)
  deriving DecidableEq

/-- Go `waitTry(cmd)`, given what `cmd.Process.Wait()` returns. -/
def waitTry (res : WaitResult) : TryResult :=
  match res with
  | .failed err => .ret (-1) (some err)
  | .state (some waitStatus) =>
    if waitStatus.Exited then .ret waitStatus.ExitStatus none
    else if waitStatus.Signaled then .ret (waitStatus.Signal + 128) none
    else .ret (-1) none
  | .state none =>
    .panic (.notImplemented "repeatr only works systems with posix-style process semantics.")

/-- Go `job`, as far as `waitAndHandleExit` touches it. -/
structure job where
  exitCode : Int
  deriving DecidableEq

/-- The loop `for err == nil && exitCode == -1` of `waitAndHandleExit`.
`waits n` is what the `n`-th call of `cmd.Process.Wait()` returns, `next`
counts the calls made. The result is the exit code when the loop ends, or the
panic of `waitTry`; `none` means `fuel` was too small. -/
def waitLoop (waits : Nat → WaitResult) :
    Nat → Nat → Int → Option String → Option (Except GoError Int)
  | 0, _, _, _ => none
  | fuel + 1, next, exitCode, err =>
    if err = none ∧ exitCode = -1 then
      match waitTry (waits next) with
      | .panic e => some (.error e)
      | .ret exitCode1 err1 => waitLoop waits fuel (next + 1) exitCode1 err1
    else some (.ok exitCode)

/-- Go `job.waitAndHandleExit(cmd)`: the job with the exit code stored. The
last `cmd.Wait()`, whose result is dropped, is left out. -/
def job.waitAndHandleExit (j : job) (waits : Nat → WaitResult) (fuel : Nat) :
    Option (Except GoError job) :=
  match waitLoop waits fuel 0 (-1) none with
  | none => none
  | some (.error e) => some (.error e)
  | some (.ok exitCode) => some (.ok { j with exitCode := exitCode })

/-- A child that is first reported stopped (by signal 19) and then exits
with status 14. -/
def stoppedThenExit14 : Nat → WaitResult :=
  fun n => if n = 0 then .state (some ⟨0x137F⟩) else .state (some ⟨0x0E00⟩)

/-! ## A machine for the links read by the walker -/

/-- A source directory `/src` holding the link `l` with target `right`, and
a directory `/other` holding a link `l` with target `wrong`; the process
runs in `/other`. -/
def cwdLinkWorld : World :=
  { nodes := [([], exNode .dir 0o755 0 0 0), (["src"], exNode .dir 0o755 0 5 5),
              (["src", "l"], exNode (.symlink "right") 0o777 0 7 7),
              (["other"], exNode .dir 0o755 0 5 5),
              (["other", "l"], exNode (.symlink "wrong") 0o777 0 8 8)],
    cwd := ["other"], euid := 0, egid := 0, umask := 0, clock := 1000 }

/-! ## The walk with a log of what it does -/

/-- What `filepath.Walk` does, step by step: it calls `lstat` on a path, it
lists a directory, it calls the walk function. -/
inductive WalkEvent
  | lstat (path : String)
  | readdir (path : String)
  | call (path : String) (info : Option FileInfo) (err : Option GoError)
  deriving DecidableEq

/-- The loop of `filepath.walk` over the names of a directory, as `walkNames`,
writing down each step at the end of `log`. -/
def walkNamesLog
    (rec : String → FileInfo → WalkState → List WalkEvent →
      Option ((Status × WalkState) × List WalkEvent))
    (walkFn : WalkFunc) (path : String) :
    List String → WalkState → List WalkEvent → Option ((Status × WalkState) × List WalkEvent)
  | [], s, log => some ((.ok, s), log)
  | name :: rest, s, log =>
    let filename := Join path name
    let log1 := log ++ [.lstat filename]
    match Lstat s.world filename with
    | .error e =>
      let log2 := log1 ++ [.call filename none (some e)]
      match walkFn filename none (some e) s with
      | (.ok, s1) => walkNamesLog rec walkFn path rest s1 log2
      | (.err .skipDir, s1) => walkNamesLog rec walkFn path rest s1 log2
      | r => some (r, log2)
    | .ok fileInfo =>
      match rec filename fileInfo s log1 with
      | none => none
      | some ((.ok, s1), log2) => walkNamesLog rec walkFn path rest s1 log2
      | some ((.err e, s1), log2) =>
        if fileInfo.IsDir ∧ e = .skipDir then walkNamesLog rec walkFn path rest s1 log2
        else some ((.err e, s1), log2)
      | some r => some r

/-- Go `filepath.walk`, as `walk`, writing down each step at the end of `log`. -/
def walkLog (walkFn : WalkFunc) :
    Nat → String → FileInfo → WalkState → List WalkEvent →
      Option ((Status × WalkState) × List WalkEvent)
  | 0, _, _, _, _ => none
  | fuel + 1, path, info, s, log =>
    let log1 := log ++ [.call path (some info) none]
    match walkFn path (some info) none s with
    | (.err e, s1) =>
      if info.IsDir ∧ e = .skipDir then some ((.ok, s1), log1) else some ((.err e, s1), log1)
    | (.panic e, s1) => some ((.panic e, s1), log1)
    | (.ok, s1) =>
      if !info.IsDir then some ((.ok, s1), log1)
      else
        let log2 := log1 ++ [.readdir path]
        match readDirNames s1.world path with
        | .error e =>
          some (walkFn path (some info) (some e) s1, log2 ++ [.call path (some info) (some e)])
        | .ok names =>
          walkNamesLog (fun p fi st lg => walkLog walkFn fuel p fi st lg) walkFn path names
            { s1 with world := s1.world.accessed true path } log2

/-- Go `filepath.Walk(root, walkFn)`, as `Walk`, with the log of its steps. -/
def WalkLog (fuel : Nat) (root : String) (walkFn : WalkFunc) (s : WalkState) :
    Option ((Status × WalkState) × List WalkEvent) :=
  match Lstat s.world root with
  | .error e => some (walkFn root none (some e) s, [.lstat root, .call root none (some e)])
  | .ok info => walkLog walkFn fuel root info s [.lstat root]

/-- The function `fshash.FillBucket`, as `FillBucket`, with the log of the steps of the
walk. -/
def FillBucketLog (fuel : Nat) (srcPath destPath : String) (hasher : Hasher) (s : WalkState) :
    Option ((Status × WalkState) × List WalkEvent) :=
  WalkLog fuel srcPath (fillWalkFn srcPath destPath hasher) s

/-- The calls of the walk function among the steps, in order. -/
def callsOf : List WalkEvent → List (String × Option FileInfo × Option GoError)
  | [] => []
  | .call p i e :: evs => (p, i, e) :: callsOf evs
  | _ :: evs => callsOf evs

/-- The steps made one after the other, each from the state the one before
left, up to the first call of the walk function that does not return `nil`:
a call does what the walk function does, a listing leaves the directory
accessed when it succeeds, an `lstat` changes nothing. -/
def runSteps (fn : WalkFunc) : List WalkEvent → WalkState → Status × WalkState
  | [], s => (.ok, s)
  | .lstat _ :: evs, s => runSteps fn evs s
  | .readdir p :: evs, s => runSteps fn evs { s with world := s.world.listed p }
  | .call p i e :: evs, s =>
    match fn p i e s with
    | (.ok, s1) => runSteps fn evs s1
    | r => r

/-- An error value that carries the path of the failed operation:
`*os.PathError` or `*os.LinkError`. -/
def GoError.hasPath : GoError → Bool
  | .pathError _ _ _ => true
  | .linkError _ _ _ _ => true
  | _ => false

/-- The three ways `filepath.Walk` calls the walk function, for the call
`(path, info, err)` that comes after the steps `before`: the first call for
a node, with its attributes and no error; the call for a name whose `lstat`
failed, with that error and no attributes; and the second call for a
directory, with the error of its listing, right after the first call for the
same directory and the attempt to list it. -/
def CallShape (before : List WalkEvent) (path : String) (info : Option FileInfo)
    (err : Option GoError) : Prop :=
  (∃ fi, info = some fi ∧ err = none)
  ∨ (∃ e0, info = none ∧ err = some e0 ∧ e0.hasPath = true)
  ∨ (∃ fi e0 pre, info = some fi ∧ err = some e0 ∧ e0.hasPath = true ∧
      before = pre ++ [.call path (some fi) none, .readdir path])

/-- The steps `evs` end with a call of the walk function that returned `r`;
all calls before it returned `nil`. The last call has one of the three
shapes of `CallShape`. -/
def FailsAtLast (fn : WalkFunc) (s : WalkState) (evs : List WalkEvent)
    (r : Status × WalkState) : Prop :=
  ∃ (before : List WalkEvent) (path : String) (info : Option FileInfo) (err : Option GoError)
    (s1 : WalkState),
    evs = before ++ [.call path info err] ∧ runSteps fn before s = (.ok, s1) ∧
    fn path info err s1 = r ∧ CallShape before path info err

/-- What the steps `evs` of a walk that ended with `r` look like: after
success every call returned `nil` and `r` holds the state the last step
left; after an error the failing call is the last step. -/
def LoggedRun (fn : WalkFunc) (s : WalkState) (evs : List WalkEvent)
    (r : Status × WalkState) : Prop :=
  (r.1 = .ok → runSteps fn evs s = (.ok, r.2)) ∧
    (∀ e, r.1 = .err e → FailsAtLast fn s evs r)

/-- A source directory `/src` holding the directory `a` with mode 0 and,
inside it, the file `f`; everything belongs to user 1000, and the process
runs as that user: it cannot list `a`. -/
def lockedWorld : World :=
  { nodes := [([], exNode .dir 0o755 0 0 0), (["src"], exNode .dir 0o755 1000 5 5),
              (["src", "a"], exNode .dir 0 1000 6 6),
              (["src", "a", "f"], exNode (.file [1]) 0o644 1000 7 7)],
    cwd := [], euid := 1000, egid := 1000, umask := 0, clock := 1000 }

/-- The outcome of scanning the tree of `lockedWorld`. -/
def lockedScanned : Status × WalkState :=
  (FillBucket 3 "/src" "" idHasher ⟨lockedWorld, []⟩).getD (.ok, ⟨lockedWorld, []⟩)

/-! # Theorems -/

/-! ## The walker evaluated on concrete trees -/

/-- C1: on the tree of the repository's own test, copied by root, the copy
succeeds, yet the scan of the copy does not record what the walk over the
source recorded: owner and group are 0 instead of 10000, and the two
directories that received children carry the time of the copy as their
modification time. -/
theorem fixture_copy_rescan_differs :
    copyThenScan 4 "/tmp/src" "/tmp/dest" idHasher fixtureWorld = some
      ([(".", 0o40755, 10000, 10000, 1000000002000, none),
        ("./a", 0o40777, 10000, 10000, 3000000002000, none),
        ("./b", 0o40750, 10000, 10000, 5000000002000, none),
        ("./b/c", 0o100664, 10000, 10000, 7000000002000, some [122, 121, 120])],
       [(".", 0o40755, 0, 0, 9000000000004, none),
        ("./a", 0o40777, 0, 0, 3000000002000, none),
        ("./b", 0o40750, 0, 0, 9000000000006, none),
        ("./b/c", 0o100664, 0, 0, 7000000002000, some [122, 121, 120])]) := by
  rfl

/-- C3: scanning the directory `.` that holds `a` ("zyx") and `.a` ("222")
succeeds and records, for the regular file `a` (the record with modification
time 7), the digest of the bytes of `.a`: the file is reopened under the name
`"." ++ "a"`. -/
theorem dot_source_hashes_other_file :
    (FillBucket 2 "." "" idHasher ⟨dotWorld, []⟩).map
        (fun r => (r.1, r.2.bucket.map (fun x => (x.metadata.Name, x.metadata.ModTime, x.hash))))
      = some (.ok, [(".", 0, none), (".a", 8, some [50, 50, 50]), (".a", 7, some [50, 50, 50])])
    ∧ (dotWorld.node ["src", "a"]).map Inode.kind = some (.file [122, 121, 120]) := by
  constructor <;> rfl

/-- C8: after the successful copy of the test tree, the destination directory
`b` (which has the child `c`) does not have the modification time of the
source directory `b`, but the time at which `c` was created. -/
theorem fixture_copy_dir_mtime_perturbed :
    (copiedNode 4 "/tmp/src" "/tmp/dest" idHasher fixtureWorld ["tmp", "dest", "b"]).map
        (fun r => (r.1, r.2.map Inode.mtime)) = some (.ok, some 9000000000006)
    ∧ (fixtureWorld.node ["tmp", "src", "b"]).map Inode.mtime = some 5000000002000 := by
  constructor <;> rfl

/-- C9: after the successful copy of the test tree by root, the destination
file `b/c` belongs to user and group 0, the source file to 10000. -/
theorem fixture_copy_owner_not_kept :
    (copiedNode 4 "/tmp/src" "/tmp/dest" idHasher fixtureWorld ["tmp", "dest", "b", "c"]).map
        (fun r => (r.1, r.2.map (fun n => (n.uid, n.gid)))) = some (.ok, some (0, 0))
    ∧ (fixtureWorld.node ["tmp", "src", "b", "c"]).map (fun n => (n.uid, n.gid))
        = some (10000, 10000) := by
  constructor <;> rfl

/-- C10: a source directory of mode 01777 is materialized with mode 0777, and
a set-user-ID file of mode 04755 inside it with mode 0755, under an empty
umask. -/
theorem sticky_copy_drops_special_bits :
    (copiedNode 2 "/src" "/dest" idHasher stickyWorld ["dest"]).map
        (fun r => (r.1, r.2.map Inode.perm)) = some (.ok, some 0o777)
    ∧ (stickyWorld.node ["src"]).map Inode.perm = some 0o1777
    ∧ (copiedNode 2 "/src" "/dest" idHasher stickyWorld ["dest", "f"]).map
        (fun r => (r.1, r.2.map Inode.perm)) = some (.ok, some 0o755)
    ∧ (stickyWorld.node ["src", "f"]).map Inode.perm = some 0o4755 := by
  refine ⟨?_, ?_, ?_, ?_⟩ <;> rfl

/-! ## Mode bits -/

theorem and_two_pow_eq_iff (x i : Nat) : x &&& 2 ^ i = 2 ^ i ↔ x.testBit i = true := by
  constructor
  · intro h
    have h1 := congrArg (fun y => y.testBit i) h
    simpa [Nat.testBit_and, Nat.testBit_two_pow_self] using h1
  · intro h
    apply Nat.eq_of_testBit_eq
    intro j
    rw [Nat.testBit_and, Nat.testBit_two_pow]
    by_cases hij : i = j
    · subst hij; simp [h]
    · simp [hij]

/-- The type bits of a mode read back from `lstat` are those of the kind of
the node: permission and set-id bits lie elsewhere. -/
theorem fileMode_testBit (n : Inode) (i : Nat)
    (hi : i = 31 ∨ i = 27 ∨ i = 26 ∨ i = 25 ∨ i = 24 ∨ i = 21) :
    n.fileMode.testBit i = (typeBits n.kind).testBit i := by
  have h511 : Nat.testBit 511 i = false := by
    rcases hi with h | h | h | h | h | h <;> subst h <;> decide
  have h23 : Nat.testBit 8388608 i = false := by
    rcases hi with h | h | h | h | h | h <;> subst h <;> decide
  have h22 : Nat.testBit 4194304 i = false := by
    rcases hi with h | h | h | h | h | h <;> subst h <;> decide
  have h20 : Nat.testBit 1048576 i = false := by
    rcases hi with h | h | h | h | h | h <;> subst h <;> decide
  unfold Inode.fileMode ModeSetuid ModeSetgid ModeSticky
  simp only [Nat.testBit_or, Nat.testBit_and]
  split_ifs <;> simp [h511, h23, h22, h20]

theorem fillWalkFn_special (srcPath destPath : String) (hasher : Hasher) (path : String)
    (n : Inode) (hk : n.kind.isSpecial = true) (s : WalkState) :
    fillWalkFn srcPath destPath hasher path (some n.info) none s
      = (.panic (.notImplemented "TODO"), s) := by
  have hb := fun i hi => fileMode_testBit n i hi
  have h31 := hb 31 (by simp)
  have h27 := hb 27 (by simp)
  have h26 := hb 26 (by simp)
  have h25 := hb 25 (by simp)
  have h24 := hb 24 (by simp)
  simp only [fillWalkFn, Inode.info, ModeDir, ModeSymlink, ModeNamedPipe, ModeSocket, ModeDevice,
    ModeCharDevice, and_two_pow_eq_iff, h31, h27, h26, h25, h24]
  cases hkind : n.kind <;> simp [hkind, Kind.isSpecial] at hk <;>
    simp only [typeBits, ModeDir, ModeSymlink, ModeNamedPipe, ModeSocket, ModeDevice,
      ModeCharDevice, Nat.testBit_or, Nat.testBit_two_pow] <;> simp

/-! ## Path components -/

theorem splitSlash_ne_nil (l : List Char) : splitSlash l ≠ [] := by
  cases l with
  | nil => simp [splitSlash]
  | cons c cs =>
    unfold splitSlash
    split
    · simp
    · split <;> simp

theorem splitSlash_noSlash (l : List Char) : ∀ x ∈ splitSlash l, '/' ∉ x := by
  induction l with
  | nil => simp [splitSlash]
  | cons c cs ih =>
    unfold splitSlash
    split
    · simp
    · rename_i hd tl heq
      rw [heq] at ih
      split
      · intro x hx
        simp only [List.mem_cons] at hx
        rcases hx with rfl | rfl | hx
        · simp
        · exact ih _ (by simp)
        · exact ih _ (by simp [hx])
      · rename_i hc
        intro x hx
        simp only [List.mem_cons] at hx
        rcases hx with rfl | hx
        · have := ih hd (by simp)
          simp only [List.mem_cons, not_or]
          exact ⟨fun h => hc h.symm, this⟩
        · exact ih _ (by simp [hx])

theorem pathComps_ne_nil (p : String) : pathComps p ≠ [] := by
  simp [pathComps, splitSlash_ne_nil]

theorem pathComps_noSlash (p : String) : ∀ c ∈ pathComps p, '/' ∉ c.data := by
  intro c hc
  simp only [pathComps, List.mem_map] at hc
  obtain ⟨x, hx, rfl⟩ := hc
  exact splitSlash_noSlash _ x hx

theorem lookup_isSome_mem {α β : Type} [BEq α] [LawfulBEq α] (k : α) (l : List (α × β)) (v : β)
    (h : l.lookup k = some v) : (k, v) ∈ l := by
  induction l with
  | nil => simp at h
  | cons kv rest ih =>
    obtain ⟨k1, v1⟩ := kv
    simp only [List.lookup] at h
    split at h
    · rename_i heq
      simp only [beq_iff_eq] at heq
      simp only [Option.some.injEq] at h
      subst heq; subst h; simp
    · exact List.mem_cons_of_mem _ (ih h)

theorem lookup_none_not_mem {α β : Type} [BEq α] [LawfulBEq α] (k : α) (l : List (α × β))
    (h : l.lookup k = none) : k ∉ l.map Prod.fst := by
  induction l with
  | nil => simp
  | cons kv rest ih =>
    obtain ⟨k1, v1⟩ := kv
    simp only [List.lookup] at h
    split at h
    · simp at h
    · rename_i hne
      simp only [List.map_cons, List.mem_cons, not_or]
      refine ⟨?_, ih h⟩
      intro hk
      subst hk
      simp at hne

theorem node_some_mem_keys (w : World) (key : List String) (n : Inode) (h : w.node key = some n) :
    key ∈ w.keys :=
  List.mem_map.mpr ⟨(key, n), lookup_isSome_mem _ _ _ h, rfl⟩

theorem node_none_iff (w : World) (key : List String) : w.node key = none ↔ key ∉ w.keys := by
  constructor
  · exact lookup_none_not_mem key w.nodes
  · intro h
    cases hn : w.node key with
    | none => rfl
    | some n => exact absurd (node_some_mem_keys w key n hn) h

theorem node_prefix_mem (w : World) (key : List String) (n : Inode) (h : w.node key = some n) :
    ∃ k ∈ w.keys, key <+: k :=
  ⟨key, node_some_mem_keys w key n h, List.prefix_refl _⟩

theorem walkComps_done (w : World) (follow : Bool) :
    ∀ (todo cur key : List String), (∀ c ∈ todo, '/' ∉ c.data) →
      (todo ≠ [] ∨ ∃ k ∈ w.keys, cur <+: k) →
      walkComps w follow cur todo = .done key → KeyOK w key := by
  intro todo
  induction todo with
  | nil =>
    intro cur key _ hcur h
    simp only [walkComps, NameiStep.done.injEq] at h
    subst h
    rcases hcur with h | h
    · exact absurd rfl h
    · exact Or.inl h
  | cons c rest ih =>
    intro cur key hns _ h
    have hrest : ∀ c ∈ rest, '/' ∉ c.data := fun c hc => hns c (List.mem_cons_of_mem _ hc)
    unfold walkComps at h
    split at h
    · simp at h
    · rename_i d hd
      have hcurP := node_prefix_mem w cur d hd
      split at h
      · simp at h
      · split at h
        · exact ih cur key hrest (Or.inr hcurP) h
        · rename_i hc1
          split at h
          · refine ih _ key hrest (Or.inr ?_) h
            obtain ⟨kv, hkv, hp⟩ := hcurP
            exact ⟨kv, hkv, (List.dropLast_prefix cur).trans hp⟩
          · rename_i hc2
            split at h
            · split at h
              · simp only [NameiStep.done.injEq] at h
                subst h
                refine Or.inr ⟨cur, c, rfl, node_some_mem_keys w cur d hd, ?_⟩
                simp only [not_or] at hc1
                exact ⟨hc1.1, hc1.2, hc2, hns c (by simp)⟩
              · simp at h
            · rename_i n hn
              split at h
              · split at h
                · simp only [NameiStep.done.injEq] at h
                  subst h
                  exact Or.inl (node_prefix_mem w _ n hn)
                · simp at h
              · exact ih _ key hrest (Or.inr (node_prefix_mem w _ n hn)) h

theorem walkComps_link (w : World) (follow : Bool) :
    ∀ (todo cur dir : List String) (t : String) (rest : List String),
      walkComps w follow cur todo = .link dir t rest → ∀ c ∈ rest, c ∈ todo := by
  intro todo
  induction todo with
  | nil => intro cur dir t rest h; simp [walkComps] at h
  | cons c tl ih =>
    intro cur dir t rest h
    have step : ∀ cur1, walkComps w follow cur1 tl = .link dir t rest → ∀ c1 ∈ rest, c1 ∈ c :: tl :=
      fun cur1 h1 c1 hc1 => List.mem_cons_of_mem _ (ih cur1 dir t rest h1 c1 hc1)
    unfold walkComps at h
    split at h
    · simp at h
    · split at h
      · simp at h
      · split at h
        · exact step _ h
        · split at h
          · exact step _ h
          · split at h
            · split at h <;> simp at h
            · split at h
              · split at h
                · simp at h
                · simp only [NameiStep.link.injEq] at h
                  obtain ⟨_, _, h3⟩ := h
                  subst h3
                  intro c1 hc1
                  exact List.mem_cons_of_mem _ hc1
              · exact step _ h

theorem namei_ok (w : World) (follow : Bool) :
    ∀ (fuel : Nat) (cur todo key : List String), (∀ c ∈ todo, '/' ∉ c.data) → todo ≠ [] →
      namei w follow fuel cur todo = .ok key → KeyOK w key := by
  intro fuel
  induction fuel with
  | zero => intro cur todo key _ _ h; simp [namei] at h
  | succ fuel ih =>
    intro cur todo key hns hne h
    unfold namei at h
    split at h
    · rename_i k hk
      simp only [Except.ok.injEq] at h
      subst h
      exact walkComps_done w follow todo cur _ hns (Or.inl hne) hk
    · simp at h
    · rename_i dir t rest hl
      split at h
      · simp at h
      · refine ih _ _ key ?_ ?_ h
        · intro c hc
          rcases List.mem_append.mp hc with hc | hc
          · exact pathComps_noSlash t c hc
          · exact hns c (walkComps_link w follow todo cur dir t rest hl c hc)
        · simp [pathComps_ne_nil]

theorem resolve_ok (w : World) (follow : Bool) (p : String) (key : List String)
    (h : resolve w follow p = .ok key) : KeyOK w key := by
  unfold resolve at h
  split at h
  · simp at h
  · exact namei_ok w follow _ _ _ key (pathComps_noSlash p) (pathComps_ne_nil p) h

/-! ## How the walker changes the machine -/

theorem setNode_keys (w : World) (key : List String) (n : Inode) :
    (w.setNode key n).keys = w.keys := by
  simp only [World.keys, World.setNode, List.map_map]
  apply List.map_congr_left
  intro kv _
  simp only [Function.comp]
  split <;> rfl

theorem touchParent_keys (w : World) (key : List String) : (w.touchParent key).keys = w.keys := by
  unfold World.touchParent
  split
  · rfl
  · exact setNode_keys _ _ _

theorem touchParent_step (w : World) (key : List String) : Step w (w.touchParent key) := by
  unfold World.touchParent
  split
  · exact Step.refl w
  · exact Step.set _ _ _

theorem create_step (w : World) (key : List String) (kind : Kind) (perm : Nat)
    (hnone : w.node key = none) (hok : KeyOK w key) : Step w (w.create key kind perm) := by
  unfold World.create
  refine Step.trans (touchParent_step w key) (Step.trans (Step.add _ key _ ?_ ?_) (Step.tick _))
  · rw [touchParent_keys]; exact (node_none_iff w key).mp hnone
  · simpa [KeyOK, touchParent_keys] using hok

theorem Mkdir_step {w w1 : World} {path : String} {perm : Nat}
    (h : Mkdir w path perm = .ok w1) : Step w w1 := by
  unfold Mkdir at h
  split at h
  · simp at h
  · rename_i key hkey
    split at h
    · simp at h
    · rename_i hnone
      simp only [Except.ok.injEq] at h
      subst h
      exact create_step w key _ _ hnone (resolve_ok w false path key hkey)

theorem OpenFileCreateExcl_step {w w1 : World} {path : String} {perm : Nat} {k : List String}
    (h : OpenFileCreateExcl w path perm = .ok (w1, k)) : Step w w1 := by
  unfold OpenFileCreateExcl at h
  split at h
  · simp at h
  · rename_i key hkey
    split at h
    · simp at h
    · rename_i hnone
      simp only [Except.ok.injEq, Prod.mk.injEq] at h
      obtain ⟨h, _⟩ := h
      subst h
      exact create_step w key _ _ hnone (resolve_ok w false path key hkey)

theorem Symlink_step {w w1 : World} {old new : String}
    (h : Symlink w old new = .ok w1) : Step w w1 := by
  unfold Symlink at h
  split at h
  · simp at h
  · rename_i key hkey
    split at h
    · simp at h
    · rename_i hnone
      simp only [Except.ok.injEq] at h
      subst h
      exact create_step w key _ _ hnone (resolve_ok w false new key hkey)

theorem utimesAt_step {w w1 : World} {follow : Bool} {path : String} {a m : Nat}
    (h : utimesAt w follow path a m = .ok w1) : Step w w1 := by
  unfold utimesAt at h
  split at h
  · simp at h
  · split at h
    · simp at h
    · simp only [Except.ok.injEq] at h
      subst h
      exact Step.trans (Step.set _ _ _) (Step.tick _)

theorem writeAll_step (w : World) (key : List String) (data : List Nat) :
    Step w (writeAll w key data) := by
  unfold writeAll
  split
  · exact Step.refl w
  · split
    · exact Step.refl w
    · exact Step.trans (Step.set _ _ _) (Step.tick _)

theorem touchAtime_step (w : World) (key : List String) : Step w (w.touchAtime key) := by
  unfold World.touchAtime
  split
  · exact Step.refl w
  · split
    · exact Step.set _ _ _
    · exact Step.refl w

theorem accessed_step (w : World) (follow : Bool) (path : String) :
    Step w (w.accessed follow path) := by
  unfold World.accessed
  split
  · exact touchAtime_step _ _
  · exact Step.refl w

/-! ## Errors of the system calls -/

theorem Lstat_error {w : World} {path : String} {e : GoError} (h : Lstat w path = .error e) :
    e.isPlain = true := by
  unfold Lstat at h
  split at h
  · simp only [Except.error.injEq] at h; subst h; rfl
  · split at h
    · simp only [Except.error.injEq] at h; subst h; rfl
    · simp at h

theorem Mkdir_error {w : World} {path : String} {perm : Nat} {e : GoError}
    (h : Mkdir w path perm = .error e) : e.isPlain = true := by
  unfold Mkdir at h
  split at h
  · simp only [Except.error.injEq] at h; subst h; rfl
  · split at h
    · simp only [Except.error.injEq] at h; subst h; rfl
    · simp at h

theorem OpenFileCreateExcl_error {w : World} {path : String} {perm : Nat} {e : GoError}
    (h : OpenFileCreateExcl w path perm = .error e) : e.isPlain = true := by
  unfold OpenFileCreateExcl at h
  split at h
  · simp only [Except.error.injEq] at h; subst h; rfl
  · split at h
    · simp only [Except.error.injEq] at h; subst h; rfl
    · simp at h

theorem OpenFileRead_error {w : World} {path : String} {e : GoError}
    (h : OpenFileRead w path = .error e) : e.isPlain = true := by
  unfold OpenFileRead at h
  split at h
  · simp only [Except.error.injEq] at h; subst h; rfl
  · split at h
    · simp only [Except.error.injEq] at h; subst h; rfl
    · split at h
      · simp only [Except.error.injEq] at h; subst h; rfl
      · split at h
        · simp only [Except.error.injEq] at h; subst h; rfl
        · simp at h

theorem readAll_error {w : World} {path : String} {key : List String} {e : GoError}
    (h : readAll w path key = .error e) : e.isPlain = true := by
  unfold readAll at h
  split at h
  · simp at h
  · split at h
    · simp at h
    · simp only [Except.error.injEq] at h; subst h; rfl
    · simp at h

theorem Readlink_error {w : World} {path : String} {e : GoError}
    (h : Readlink w path = .error e) : e.isPlain = true := by
  unfold Readlink at h
  split at h
  · simp only [Except.error.injEq] at h; subst h; rfl
  · split at h
    · simp only [Except.error.injEq] at h; subst h; rfl
    · split at h
      · simp at h
      · simp only [Except.error.injEq] at h; subst h; rfl

theorem Symlink_error {w : World} {old new : String} {e : GoError}
    (h : Symlink w old new = .error e) : e.isPlain = true := by
  unfold Symlink at h
  split at h
  · simp only [Except.error.injEq] at h; subst h; rfl
  · split at h
    · simp only [Except.error.injEq] at h; subst h; rfl
    · simp at h

theorem utimesAt_error {w : World} {follow : Bool} {path : String} {a m : Nat} {e : GoError}
    (h : utimesAt w follow path a m = .error e) : e.isPlain = true := by
  unfold utimesAt at h
  split at h
  · simp only [Except.error.injEq] at h; subst h; rfl
  · split at h
    · simp only [Except.error.injEq] at h; subst h; rfl
    · simp at h

theorem readDirNames_hasPath {w : World} {path : String} {e : GoError}
    (h : readDirNames w path = .error e) : e.hasPath = true := by
  unfold readDirNames at h
  split at h
  · simp only [Except.error.injEq] at h; subst h; rfl
  · split at h
    · simp only [Except.error.injEq] at h; subst h; rfl
    · split at h
      · simp only [Except.error.injEq] at h; subst h; rfl
      · split at h
        · simp only [Except.error.injEq] at h; subst h; rfl
        · simp at h

theorem hasPath_isPlain {e : GoError} (h : e.hasPath = true) : e.isPlain = true := by
  cases e <;> first | rfl | cases h

theorem readDirNames_error {w : World} {path : String} {e : GoError}
    (h : readDirNames w path = .error e) : e.isPlain = true :=
  hasPath_isPlain (readDirNames_hasPath h)

theorem FileInfoHeader_error {fi : FileInfo} {link : String} {e : GoError}
    (h : FileInfoHeader fi link = .error e) : e.isPlain = true := by
  unfold FileInfoHeader at h
  simp only at h
  split at h
  · simp only [Except.error.injEq] at h; subst h; rfl
  · simp at h

/-! ## What stays on disk -/

theorem ContentKept.same (w : World) : ContentKept w w :=
  fun _ n h => ⟨n, h, rfl, rfl, rfl, rfl⟩

theorem ContentKept.chain {a b c : World} (h1 : ContentKept a b) (h2 : ContentKept b c) :
    ContentKept a c := by
  intro key n h
  obtain ⟨n1, g1, k1, p1, u1, q1⟩ := h1 key n h
  obtain ⟨n2, g2, k2, p2, u2, q2⟩ := h2 key n1 g1
  exact ⟨n2, g2, k2.trans k1, p2.trans p1, u2.trans u1, q2.trans q1⟩

theorem lookup_set_ne (l : List (List String × Inode)) (key k : List String) (n : Inode)
    (hne : k ≠ key) :
    (l.map (fun kv => if kv.1 = key then (kv.1, n) else kv)).lookup k = l.lookup k := by
  induction l with
  | nil => rfl
  | cons kv rest ih =>
    obtain ⟨k1, v1⟩ := kv
    simp only [List.map_cons, List.lookup_cons]
    by_cases h1 : k1 = key
    · have h2 : (k == key) = false := by simpa using hne
      simp only [h1, if_true, List.lookup_cons, h2, ih]
    · simp only [h1, if_false, List.lookup_cons, ih]

theorem lookup_set_self (l : List (List String × Inode)) (key : List String) (n old : Inode)
    (h : l.lookup key = some old) :
    (l.map (fun kv => if kv.1 = key then (kv.1, n) else kv)).lookup key = some n := by
  induction l with
  | nil => simp at h
  | cons kv rest ih =>
    obtain ⟨k1, v1⟩ := kv
    simp only [List.map_cons, List.lookup_cons] at h ⊢
    by_cases h1 : k1 = key
    · simp [h1]
    · have h2 : (key == k1) = false := by simpa using fun h => h1 h.symm
      simp only [h1, if_false, h2, List.lookup_cons] at h ⊢
      exact ih h

theorem lookup_append_some (l : List (List String × Inode)) (k : List String) (x : Inode)
    (extra : List (List String × Inode)) (h : l.lookup k = some x) :
    (l ++ extra).lookup k = some x := by
  induction l with
  | nil => simp at h
  | cons kv rest ih =>
    obtain ⟨k1, v1⟩ := kv
    simp only [List.cons_append, List.lookup_cons] at h ⊢
    cases hk : (k == k1)
    · rw [hk] at h
      exact ih h
    · rw [hk] at h
      exact h

theorem node_setNode_ne (w : World) (key k : List String) (n : Inode) (hne : k ≠ key) :
    (w.setNode key n).node k = w.node k :=
  lookup_set_ne w.nodes key k n hne

theorem node_setNode_self (w : World) (key : List String) (n old : Inode)
    (h : w.node key = some old) : (w.setNode key n).node key = some n :=
  lookup_set_self w.nodes key n old h

theorem node_addNode_some (w : World) (key k : List String) (n x : Inode)
    (h : w.node k = some x) : (w.addNode key n).node k = some x :=
  lookup_append_some w.nodes k x _ h

theorem node_tick (w : World) (k : List String) : w.tick.node k = w.node k := rfl

theorem setNode_kept (w : World) (key : List String) (old n : Inode)
    (hold : w.node key = some old)
    (hk : n.kind = old.kind) (hp : n.perm = old.perm) (hu : n.uid = old.uid)
    (hg : n.gid = old.gid) : ContentKept w (w.setNode key n) := by
  intro k x hx
  by_cases hkk : k = key
  · subst hkk
    rw [hold] at hx
    cases hx
    exact ⟨n, node_setNode_self w k n old hold, hk, hp, hu, hg⟩
  · exact ⟨x, by rw [node_setNode_ne w key k n hkk]; exact hx, rfl, rfl, rfl, rfl⟩

theorem touchParent_kept (w : World) (key : List String) : ContentKept w (w.touchParent key) := by
  unfold World.touchParent
  split
  · exact ContentKept.same w
  · rename_i d hd
    exact setNode_kept w _ d _ hd rfl rfl rfl rfl

theorem addNode_kept (w : World) (key : List String) (n : Inode) :
    ContentKept w (w.addNode key n) :=
  fun k x hx => ⟨x, node_addNode_some w key k n x hx, rfl, rfl, rfl, rfl⟩

theorem tick_kept (w : World) : ContentKept w w.tick := fun _ x hx => ⟨x, hx, rfl, rfl, rfl, rfl⟩

theorem create_kept (w : World) (key : List String) (kind : Kind) (perm : Nat) :
    ContentKept w (w.create key kind perm) := by
  unfold World.create
  exact (touchParent_kept w key).chain ((addNode_kept _ _ _).chain (tick_kept _))

theorem utimesAt_kept {w w1 : World} {follow : Bool} {path : String} {a m : Nat}
    (h : utimesAt w follow path a m = .ok w1) : ContentKept w w1 := by
  unfold utimesAt at h
  split at h
  · simp at h
  · split at h
    · simp at h
    · rename_i key _ _ n hn
      simp only [Except.ok.injEq] at h
      subst h
      exact (setNode_kept w _ n { n with atime := a, mtime := m, ctime := w.clock } hn
        rfl rfl rfl rfl).chain (tick_kept _)

theorem touchAtime_kept (w : World) (key : List String) : ContentKept w (w.touchAtime key) := by
  unfold World.touchAtime
  split
  · exact ContentKept.same w
  · rename_i n hn
    split
    · exact setNode_kept w _ n _ hn rfl rfl rfl rfl
    · exact ContentKept.same w

theorem accessed_kept (w : World) (follow : Bool) (path : String) :
    ContentKept w (w.accessed follow path) := by
  unfold World.accessed
  split
  · exact touchAtime_kept _ _
  · exact ContentKept.same w

theorem writeAll_node_ne (w : World) (key k : List String) (data : List Nat) (hne : k ≠ key) :
    (writeAll w key data).node k = w.node k := by
  unfold writeAll
  split
  · rfl
  · split
    · rfl
    · rw [node_tick, node_setNode_ne _ _ _ _ hne]

/-- Writing into a file that was just created keeps what was there before
the creation. -/
theorem create_writeAll_kept (w : World) (key : List String) (kind : Kind) (perm : Nat)
    (data : List Nat) (hnone : w.node key = none) :
    ContentKept w (writeAll (w.create key kind perm) key data) := by
  intro k x hx
  have hne : k ≠ key := by
    intro h
    subst h
    rw [hnone] at hx
    cases hx
  obtain ⟨n1, g1, r1⟩ := create_kept w key kind perm k x hx
  exact ⟨n1, by rw [writeAll_node_ne _ _ _ _ hne]; exact g1, r1⟩

/-- The same when the file that is read was accessed in between. -/
theorem touch_writeAll_kept (w w1 : World) (src key : List String) (data : List Nat)
    (hnone : w.node key = none) (h1 : ContentKept w w1) :
    ContentKept w (writeAll (w1.touchAtime src) key data) := by
  intro k x hx
  have hne : k ≠ key := by
    intro h
    subst h
    rw [hnone] at hx
    cases hx
  obtain ⟨n1, g1, r1⟩ := (h1.chain (touchAtime_kept w1 src)) k x hx
  exact ⟨n1, by rw [writeAll_node_ne _ _ _ _ hne]; exact g1, r1⟩

theorem Mkdir_kept {w w1 : World} {path : String} {perm : Nat}
    (h : Mkdir w path perm = .ok w1) : ContentKept w w1 := by
  unfold Mkdir at h
  split at h
  · simp at h
  · split at h
    · simp at h
    · simp only [Except.ok.injEq] at h
      subst h
      exact create_kept _ _ _ _

theorem Symlink_kept {w w1 : World} {old new : String}
    (h : Symlink w old new = .ok w1) : ContentKept w w1 := by
  unfold Symlink at h
  split at h
  · simp at h
  · split at h
    · simp at h
    · simp only [Except.ok.injEq] at h
      subst h
      exact create_kept _ _ _ _

theorem fillDir_kept (destPath path : String) (info : FileInfo) (s : WalkState) :
    ContentKept s.world (fillDir destPath path info s).2.world := by
  unfold fillDir
  simp only
  split
  · exact ContentKept.same _
  · split
    · split
      · exact ContentKept.same _
      · rename_i w1 h1
        split
        · exact Mkdir_kept h1
        · rename_i w2 h2
          exact (Mkdir_kept h1).chain (utimesAt_kept h2)
    · exact ContentKept.same _

theorem fillSymlink_kept (destPath path : String) (info : FileInfo) (s : WalkState) :
    ContentKept s.world (fillSymlink destPath path info s).2.world := by
  have h0 : ContentKept s.world (s.world.accessed false path) := accessed_kept _ _ _
  unfold fillSymlink
  split
  · exact ContentKept.same _
  · split
    · exact h0
    · simp only
      split
      · split
        · exact h0
        · rename_i w1 h1
          split
          · exact h0.chain (Symlink_kept h1)
          · rename_i w2 h2
            exact h0.chain ((Symlink_kept h1).chain (utimesAt_kept h2))
      · exact h0

theorem OpenFileCreateExcl_fresh {w w1 : World} {path : String} {perm : Nat} {k : List String}
    (h : OpenFileCreateExcl w path perm = .ok (w1, k)) :
    w.node k = none ∧ w1 = w.create k (.file []) (applyUmask (syscallMode perm) w.umask) := by
  unfold OpenFileCreateExcl at h
  split at h
  · simp at h
  · split at h
    · simp at h
    · rename_i hnone
      simp only [Except.ok.injEq, Prod.mk.injEq] at h
      obtain ⟨h1, h2⟩ := h
      subst h1 h2
      exact ⟨hnone, rfl⟩

theorem fillRegular_kept (srcPath destPath : String) (hasher : Hasher) (path : String)
    (info : FileInfo) (s : WalkState) :
    ContentKept s.world (fillRegular srcPath destPath hasher path info s).2.world := by
  unfold fillRegular
  simp only
  split
  · exact ContentKept.same _
  · rename_i src _
    by_cases hd : destPath = ""
    · simp only [hd, ne_eq, not_true_eq_false, ↓reduceIte]
      split
      · exact ContentKept.same _
      · split
        · exact touchAtime_kept _ _
        · exact touchAtime_kept _ _
    · simp only [ne_eq, hd, not_false_eq_true, ↓reduceIte]
      cases hopen : OpenFileCreateExcl s.world (Join destPath path) (info.mode &&& ModePerm) with
      | error e => exact ContentKept.same _
      | ok res =>
        obtain ⟨w1, dest⟩ := res
        obtain ⟨hnone, hw1⟩ := OpenFileCreateExcl_fresh hopen
        have h1 : ContentKept s.world w1 := hw1 ▸ create_kept _ _ _ _
        simp only
        split
        · exact h1
        · rename_i data _
          have h2 : ContentKept s.world (writeAll (w1.touchAtime src) dest data) :=
            touch_writeAll_kept _ _ _ _ _ hnone h1
          split
          · exact h2
          · split
            · exact h2
            · rename_i w3 hw3
              exact h2.chain (utimesAt_kept hw3)

/-- Every call of the walk function keeps what was on disk before it. -/
theorem fillWalkFn_kept (srcPath destPath : String) (hasher : Hasher) (path0 : String)
    (info : Option FileInfo) (err : Option GoError) (s : WalkState) :
    ContentKept s.world (fillWalkFn srcPath destPath hasher path0 info err s).2.world := by
  unfold fillWalkFn
  cases err with
  | some e => exact ContentKept.same _
  | none =>
  cases info with
  | none => exact ContentKept.same _
  | some info =>
  simp only
  split
  · exact fillDir_kept _ _ _ _
  · split
    · exact fillSymlink_kept _ _ _ _
    · split
      · exact ContentKept.same _
      · split
        · exact ContentKept.same _
        · split
          · exact ContentKept.same _
          · split
            · exact ContentKept.same _
            · split
              · exact fillRegular_kept _ _ _ _ _ _
              · exact ContentKept.same _

/-- A reflexive and transitive relation between machines that every call of
the walk function (and every access) respects holds between the start and the end of the loop
over a directory. -/
theorem walkNames_rel (R : World → World → Prop) (hrefl : ∀ w, R w w)
    (htrans : ∀ a b c, R a b → R b c → R a c) (fn : WalkFunc)
    (hfn : ∀ p i e s, R s.world (fn p i e s).2.world)
    (rec : String → FileInfo → WalkState → Option (Status × WalkState))
    (hrec : ∀ p fi s r, rec p fi s = some r → R s.world r.2.world) (path : String) :
    ∀ (names : List String) (s : WalkState) (r : Status × WalkState),
      walkNames rec fn path names s = some r → R s.world r.2.world := by
  intro names
  induction names with
  | nil =>
    intro s r h
    simp only [walkNames, Option.some.injEq] at h
    subst h
    exact hrefl _
  | cons name rest ih =>
    intro s r h
    unfold walkNames at h
    simp only at h
    split at h
    · rename_i e he
      have hf := hfn (Join path name) none (some e) s
      split at h
      · rename_i s1 heq
        rw [heq] at hf
        exact htrans _ _ _ hf (ih s1 r h)
      · rename_i s1 heq
        rw [heq] at hf
        exact htrans _ _ _ hf (ih s1 r h)
      · simp only [Option.some.injEq] at h
        subst h
        exact hf
    · rename_i fileInfo _
      split at h
      · simp at h
      · rename_i s1 heq
        exact htrans _ _ _ (hrec _ _ _ _ heq) (ih s1 r h)
      · rename_i e s1 heq
        have hf := hrec _ _ _ _ heq
        split at h
        · exact htrans _ _ _ hf (ih s1 r h)
        · simp only [Option.some.injEq] at h
          subst h
          exact hf
      · rename_i r1 _ _ heq
        simp only [Option.some.injEq] at h
        subst h
        exact hrec _ _ _ _ heq

/-- The same for the walk of one node. -/
theorem walk_rel (R : World → World → Prop) (hrefl : ∀ w, R w w)
    (htrans : ∀ a b c, R a b → R b c → R a c) (hacc : ∀ w p, R w (w.accessed true p))
    (fn : WalkFunc) (hfn : ∀ p i e s, R s.world (fn p i e s).2.world) :
    ∀ (fuel : Nat) (path : String) (info : FileInfo) (s : WalkState) (r : Status × WalkState),
      walk fn fuel path info s = some r → R s.world r.2.world := by
  intro fuel
  induction fuel with
  | zero => intro path info s r h; simp [walk] at h
  | succ fuel ih =>
    intro path info s r h
    unfold walk at h
    have hf := hfn path (some info) none s
    split at h
    · rename_i e s1 heq
      rw [heq] at hf
      split at h
      · simp only [Option.some.injEq] at h
        subst h
        exact hf
      · simp only [Option.some.injEq] at h
        subst h
        exact hf
    · rename_i e s1 heq
      rw [heq] at hf
      simp only [Option.some.injEq] at h
      subst h
      exact hf
    · rename_i s1 heq
      rw [heq] at hf
      split at h
      · simp only [Option.some.injEq] at h
        subst h
        exact hf
      · split at h
        · rename_i e he
          simp only [Option.some.injEq] at h
          subst h
          exact htrans _ _ _ hf (hfn path (some info) (some e) s1)
        · rename_i names _
          exact htrans _ _ _ hf (htrans _ _ _ (hacc s1.world path)
            (walkNames_rel R hrefl htrans fn hfn _ (fun p fi st r1 h1 => ih p fi st r1 h1)
              path names _ r h))

/-- Whatever `FillBucket` returns, every node that was on disk before is
still there with the content, permissions and owner it had. -/
theorem FillBucket_kept (fuel : Nat) (srcPath destPath : String) (hasher : Hasher)
    (s : WalkState) (r : Status × WalkState)
    (h : FillBucket fuel srcPath destPath hasher s = some r) : ContentKept s.world r.2.world := by
  unfold FillBucket Walk at h
  split at h
  · simp only [Option.some.injEq] at h
    subst h
    exact fillWalkFn_kept _ _ _ _ _ _ _
  · exact walk_rel ContentKept ContentKept.same (fun _ _ _ => ContentKept.chain)
      (fun w p => accessed_kept w true p) _
      (fillWalkFn_kept srcPath destPath hasher) fuel srcPath _ s r h

/-! ## Path resolution after the machine has changed -/

theorem walkComps_cons_dot (v : World) (follow : Bool) (cur : List String) (c : String)
    (rest : List String) (x : Inode) (hx : v.node cur = some x) (hxk : x.kind = .dir)
    (hc1 : c = "" ∨ c = ".") :
    walkComps v follow cur (c :: rest) = walkComps v follow cur rest := by
  rw [walkComps]
  simp [hx, hxk, hc1]

theorem walkComps_cons_up (v : World) (follow : Bool) (cur : List String) (c : String)
    (rest : List String) (x : Inode) (hx : v.node cur = some x) (hxk : x.kind = .dir)
    (hc2 : c = "..") :
    walkComps v follow cur (c :: rest) = walkComps v follow cur.dropLast rest := by
  rw [walkComps]
  simp [hx, hxk, hc2]

theorem walkComps_cons_missing (v : World) (follow : Bool) (cur : List String) (c : String)
    (rest : List String) (x : Inode) (hx : v.node cur = some x) (hxk : x.kind = .dir)
    (hc1 : ¬ (c = "" ∨ c = ".")) (hc2 : ¬ c = "..") (hn : v.node (cur ++ [c]) = none) :
    walkComps v follow cur (c :: rest)
      = if rest = [] then .done (cur ++ [c]) else .fail .ENOENT := by
  rw [walkComps]
  simp [hx, hxk, hc1, hc2, hn]

theorem walkComps_cons_symlink (v : World) (follow : Bool) (cur : List String) (c : String)
    (rest : List String) (x : Inode) (hx : v.node cur = some x) (hxk : x.kind = .dir)
    (hc1 : ¬ (c = "" ∨ c = ".")) (hc2 : ¬ c = "..") (n : Inode) (t : String)
    (hn : v.node (cur ++ [c]) = some n) (hnk : n.kind = .symlink t) :
    walkComps v follow cur (c :: rest)
      = if rest = [] ∧ follow = false then .done (cur ++ [c]) else .link cur t rest := by
  rw [walkComps]
  simp [hx, hxk, hc1, hc2, hn, hnk]

theorem walkComps_cons_enter (v : World) (follow : Bool) (cur : List String) (c : String)
    (rest : List String) (x : Inode) (hx : v.node cur = some x) (hxk : x.kind = .dir)
    (hc1 : ¬ (c = "" ∨ c = ".")) (hc2 : ¬ c = "..") (n : Inode)
    (hn : v.node (cur ++ [c]) = some n) (hnk : ∀ t, n.kind ≠ .symlink t) :
    walkComps v follow cur (c :: rest) = walkComps v follow (cur ++ [c]) rest := by
  rw [walkComps]
  simp only [hx, hxk, hc1, hc2, hn, ne_eq, not_true_eq_false, if_false]

theorem walkComps_cons_fail (v : World) (follow : Bool) (cur : List String) (c : String)
    (rest : List String)
    (h : v.node cur = none ∨ ∃ x, v.node cur = some x ∧ x.kind ≠ .dir) :
    ∃ e, walkComps v follow cur (c :: rest) = .fail e := by
  rw [walkComps]
  rcases h with h | ⟨x, hx, hxk⟩
  · exact ⟨.ENOENT, by simp [h]⟩
  · exact ⟨.ENOTDIR, by simp [hx, hxk]⟩

/-- Path resolution that ends at an existing node, or at a link to follow,
goes the same way on a machine that has kept all the nodes. -/
theorem walkComps_kept {w w1 : World} (hk : ContentKept w w1) (follow : Bool) :
    ∀ (todo cur : List String),
      (∀ key n, walkComps w follow cur todo = .done key → w.node key = some n →
        walkComps w1 follow cur todo = .done key)
      ∧ (∀ dir t rest, walkComps w follow cur todo = .link dir t rest →
        walkComps w1 follow cur todo = .link dir t rest) := by
  intro todo
  induction todo with
  | nil =>
    intro cur
    refine ⟨fun key n h _ => ?_, fun dir t rest h => ?_⟩
    · simpa [walkComps] using h
    · simp [walkComps] at h
  | cons c rest ih =>
    intro cur
    have hfail : (w.node cur = none ∨ ∃ x, w.node cur = some x ∧ x.kind ≠ .dir) →
        (∀ key n, walkComps w follow cur (c :: rest) = .done key → w.node key = some n →
          walkComps w1 follow cur (c :: rest) = .done key)
        ∧ (∀ dir t rest1, walkComps w follow cur (c :: rest) = .link dir t rest1 →
          walkComps w1 follow cur (c :: rest) = .link dir t rest1) := by
      intro h
      obtain ⟨e, he⟩ := walkComps_cons_fail w follow cur c rest h
      rw [he]
      exact ⟨fun _ _ h1 _ => (by cases h1), fun _ _ _ h1 => (by cases h1)⟩
    cases hcur : w.node cur with
    | none => exact hfail (Or.inl hcur)
    | some d =>
      obtain ⟨d1, hd1, hkind, _⟩ := hk cur d hcur
      by_cases hdir : d.kind = .dir
      · have hdir1 : d1.kind = .dir := hkind.trans hdir
        by_cases hc1 : c = "" ∨ c = "."
        · rw [walkComps_cons_dot w follow cur c rest d hcur hdir hc1,
            walkComps_cons_dot w1 follow cur c rest d1 hd1 hdir1 hc1]
          exact ih cur
        · by_cases hc2 : c = ".."
          · rw [walkComps_cons_up w follow cur c rest d hcur hdir hc2,
              walkComps_cons_up w1 follow cur c rest d1 hd1 hdir1 hc2]
            exact ih cur.dropLast
          · cases hn : w.node (cur ++ [c]) with
            | none =>
              rw [walkComps_cons_missing w follow cur c rest d hcur hdir hc1 hc2 hn]
              refine ⟨fun key n h hkey => ?_, fun dir t rest1 h => ?_⟩
              · split at h
                · simp only [NameiStep.done.injEq] at h
                  subst h
                  rw [hn] at hkey
                  cases hkey
                · cases h
              · split at h <;> cases h
            | some n =>
              obtain ⟨n1, hn1, hkind1, _⟩ := hk _ n hn
              by_cases hsym : ∃ t, n.kind = .symlink t
              · obtain ⟨t, ht⟩ := hsym
                rw [walkComps_cons_symlink w follow cur c rest d hcur hdir hc1 hc2 n t hn ht,
                  walkComps_cons_symlink w1 follow cur c rest d1 hd1 hdir1 hc1 hc2 n1 t hn1
                    (hkind1.trans ht)]
                exact ⟨fun _ _ h _ => h, fun _ _ _ h => h⟩
              · have hns : ∀ t, n.kind ≠ .symlink t := fun t ht => hsym ⟨t, ht⟩
                rw [walkComps_cons_enter w follow cur c rest d hcur hdir hc1 hc2 n hn hns,
                  walkComps_cons_enter w1 follow cur c rest d1 hd1 hdir1 hc1 hc2 n1 hn1
                    (fun t ht => hns t (hkind1.symm.trans ht))]
                exact ih (cur ++ [c])
      · exact hfail (Or.inr ⟨d, hcur, hdir⟩)

theorem namei_kept {w w1 : World} (hk : ContentKept w w1) (follow : Bool) :
    ∀ (fuel : Nat) (cur todo key : List String) (n : Inode),
      namei w follow fuel cur todo = .ok key → w.node key = some n →
      namei w1 follow fuel cur todo = .ok key := by
  intro fuel
  induction fuel with
  | zero => intro cur todo key n h; simp [namei] at h
  | succ fuel ih =>
    intro cur todo key n h hkey
    obtain ⟨hdone, hlink⟩ := walkComps_kept hk follow todo cur
    rw [namei] at h ⊢
    cases hwc : walkComps w follow cur todo with
    | done k =>
      rw [hwc] at h
      simp only [Except.ok.injEq] at h
      subst h
      rw [hdone k n hwc hkey]
    | fail e =>
      rw [hwc] at h
      cases h
    | link dir t rest =>
      rw [hwc] at h
      rw [hlink dir t rest hwc]
      simp only at h ⊢
      split at h
      · cases h
      · rename_i ht
        rw [if_neg ht]
        exact ih _ _ key n h hkey

/-- A path that names an existing node names the same node once the machine
has changed, if all nodes were kept and the working directory is the same. -/
theorem resolve_kept {w w1 : World} (hk : ContentKept w w1) (hcwd : w1.cwd = w.cwd)
    (follow : Bool) (p : String) (key : List String) (n : Inode)
    (h : resolve w follow p = .ok key) (hkey : w.node key = some n) :
    resolve w1 follow p = .ok key := by
  unfold resolve at h ⊢
  split at h
  · cases h
  · rename_i hp
    rw [if_neg hp, hcwd]
    exact namei_kept hk follow _ _ _ key n h hkey

/-- Towards a node that is not a symbolic link it makes no difference whether
a final link would be followed. -/
theorem walkComps_follow (w : World) :
    ∀ (todo cur : List String),
      (∀ key n, walkComps w false cur todo = .done key → w.node key = some n →
        (∀ t, n.kind ≠ .symlink t) → walkComps w true cur todo = .done key)
      ∧ (∀ dir t rest, walkComps w false cur todo = .link dir t rest →
        walkComps w true cur todo = .link dir t rest) := by
  intro todo
  induction todo with
  | nil =>
    intro cur
    refine ⟨fun key n h _ _ => ?_, fun dir t rest h => ?_⟩
    · simpa [walkComps] using h
    · simp [walkComps] at h
  | cons c rest ih =>
    intro cur
    have hfail : (w.node cur = none ∨ ∃ x, w.node cur = some x ∧ x.kind ≠ .dir) →
        (∀ key n, walkComps w false cur (c :: rest) = .done key → w.node key = some n →
          (∀ t, n.kind ≠ .symlink t) → walkComps w true cur (c :: rest) = .done key)
        ∧ (∀ dir t rest1, walkComps w false cur (c :: rest) = .link dir t rest1 →
          walkComps w true cur (c :: rest) = .link dir t rest1) := by
      intro h
      obtain ⟨e, he⟩ := walkComps_cons_fail w false cur c rest h
      rw [he]
      exact ⟨fun _ _ h1 _ _ => (by cases h1), fun _ _ _ h1 => (by cases h1)⟩
    cases hcur : w.node cur with
    | none => exact hfail (Or.inl hcur)
    | some d =>
      by_cases hdir : d.kind = .dir
      · by_cases hc1 : c = "" ∨ c = "."
        · rw [walkComps_cons_dot w false cur c rest d hcur hdir hc1,
            walkComps_cons_dot w true cur c rest d hcur hdir hc1]
          exact ih cur
        · by_cases hc2 : c = ".."
          · rw [walkComps_cons_up w false cur c rest d hcur hdir hc2,
              walkComps_cons_up w true cur c rest d hcur hdir hc2]
            exact ih cur.dropLast
          · cases hn : w.node (cur ++ [c]) with
            | none =>
              rw [walkComps_cons_missing w false cur c rest d hcur hdir hc1 hc2 hn,
                walkComps_cons_missing w true cur c rest d hcur hdir hc1 hc2 hn]
              exact ⟨fun _ _ h _ _ => h, fun _ _ _ h => h⟩
            | some n =>
              by_cases hsym : ∃ t, n.kind = .symlink t
              · obtain ⟨t, ht⟩ := hsym
                rw [walkComps_cons_symlink w false cur c rest d hcur hdir hc1 hc2 n t hn ht,
                  walkComps_cons_symlink w true cur c rest d hcur hdir hc1 hc2 n t hn ht]
                refine ⟨fun key n0 h hkey hns => ?_, fun dir t1 rest1 h => ?_⟩
                · split at h
                  · simp only [NameiStep.done.injEq] at h
                    subst h
                    rw [hn] at hkey
                    cases hkey
                    exact absurd ht (hns t)
                  · cases h
                · split at h
                  · cases h
                  · simpa using h
              · have hns : ∀ t, n.kind ≠ .symlink t := fun t ht => hsym ⟨t, ht⟩
                rw [walkComps_cons_enter w false cur c rest d hcur hdir hc1 hc2 n hn hns,
                  walkComps_cons_enter w true cur c rest d hcur hdir hc1 hc2 n hn hns]
                exact ih (cur ++ [c])
      · exact hfail (Or.inr ⟨d, hcur, hdir⟩)

theorem namei_follow (w : World) :
    ∀ (fuel : Nat) (cur todo key : List String) (n : Inode),
      namei w false fuel cur todo = .ok key → w.node key = some n →
      (∀ t, n.kind ≠ .symlink t) → namei w true fuel cur todo = .ok key := by
  intro fuel
  induction fuel with
  | zero => intro cur todo key n h; simp [namei] at h
  | succ fuel ih =>
    intro cur todo key n h hkey hns
    obtain ⟨hdone, hlink⟩ := walkComps_follow w todo cur
    rw [namei] at h ⊢
    cases hwc : walkComps w false cur todo with
    | done k =>
      rw [hwc] at h
      simp only [Except.ok.injEq] at h
      subst h
      rw [hdone k n hwc hkey hns]
    | fail e =>
      rw [hwc] at h
      cases h
    | link dir t rest =>
      rw [hwc] at h
      rw [hlink dir t rest hwc]
      simp only at h ⊢
      split at h
      · cases h
      · rename_i ht
        rw [if_neg ht]
        exact ih _ _ key n h hkey hns

theorem resolve_follow (w : World) (p : String) (key : List String) (n : Inode)
    (h : resolve w false p = .ok key) (hkey : w.node key = some n)
    (hns : ∀ t, n.kind ≠ .symlink t) : resolve w true p = .ok key := by
  unfold resolve at h ⊢
  split at h
  · cases h
  · rename_i hp
    rw [if_neg hp]
    exact namei_follow w _ _ _ key n h hkey hns

theorem Step.cwd {w w1 : World} (h : Step w w1) : w1.cwd = w.cwd := by
  induction h with
  | refl => rfl
  | set => rfl
  | add => rfl
  | tick => rfl
  | trans _ _ ih1 ih2 => exact ih2.trans ih1

/-! ## Machines that differ in access times only -/

theorem sameButAtime_refl (w : World) : SameButAtime w w :=
  ⟨rfl, rfl, rfl, rfl, rfl, rfl, fun _ => rfl⟩

theorem sameButAtime_trans {a b c : World} (h1 : SameButAtime a b) (h2 : SameButAtime b c) :
    SameButAtime a c := by
  obtain ⟨a1, a2, a3, a4, a5, a6, a7⟩ := h1
  obtain ⟨b1, b2, b3, b4, b5, b6, b7⟩ := h2
  exact ⟨b1.trans a1, b2.trans a2, b3.trans a3, b4.trans a4, b5.trans a5, b6.trans a6,
    fun k => (b7 k).trans (a7 k)⟩

theorem sameButAtime_symm {a b : World} (h : SameButAtime a b) : SameButAtime b a := by
  obtain ⟨a1, a2, a3, a4, a5, a6, a7⟩ := h
  exact ⟨a1.symm, a2.symm, a3.symm, a4.symm, a5.symm, a6.symm, fun k => (a7 k).symm⟩

/-- An access changes the access time of a node and nothing else. -/
theorem touchAtime_same (w : World) (key : List String) : SameButAtime w (w.touchAtime key) := by
  unfold World.touchAtime
  split
  · exact sameButAtime_refl w
  · rename_i n hn
    split
    · refine ⟨setNode_keys _ _ _, rfl, rfl, rfl, rfl, rfl, fun k => ?_⟩
      by_cases hk : k = key
      · subst hk
        rw [node_setNode_self w k _ n hn, hn]
        rfl
      · rw [node_setNode_ne w key k _ hk]
    · exact sameButAtime_refl w

theorem accessed_same (w : World) (follow : Bool) (path : String) :
    SameButAtime w (w.accessed follow path) := by
  unfold World.accessed
  split
  · exact touchAtime_same _ _
  · exact sameButAtime_refl w

/-- Machines that differ in access times only hold the same nodes with the
same content, permissions and owners. -/
theorem sameButAtime_kept {w w1 : World} (h : SameButAtime w w1) : ContentKept w w1 := by
  intro key n hn
  have h7 := h.2.2.2.2.2.2 key
  rw [hn] at h7
  cases hn1 : w1.node key with
  | none =>
    rw [hn1] at h7
    cases h7
  | some n1 =>
    rw [hn1] at h7
    simp only [Option.map_some', Option.some.injEq, Inode.mk.injEq] at h7
    exact ⟨n1, rfl, h7.1, h7.2.1, h7.2.2.1, h7.2.2.2.1⟩

/-- What `lstat` finds on one machine it finds on a machine that differs in
access times only, and a directory is a directory on both. -/
theorem Lstat_same {w w1 : World} (h : SameButAtime w w1) {path : String} {fi : FileInfo}
    (hl : Lstat w path = .ok fi) : ∃ fi1, Lstat w1 path = .ok fi1 ∧ fi1.IsDir = fi.IsDir := by
  unfold Lstat at hl
  split at hl
  · cases hl
  · rename_i key hres
    split at hl
    · cases hl
    · rename_i n hn
      simp only [Except.ok.injEq] at hl
      subst hl
      have hres1 := resolve_kept (sameButAtime_kept h) h.2.1 false path key n hres hn
      obtain ⟨n1, hn1, hk, hp, _⟩ := sameButAtime_kept h key n hn
      refine ⟨n1.info, by simp only [Lstat, hres1, hn1], ?_⟩
      simp only [FileInfo.IsDir, Inode.info, Inode.fileMode, hk, hp]

theorem nodes_filterMap_keys (w : World) (g : List String → Option String) :
    w.nodes.filterMap (fun kv => g kv.1) = w.keys.filterMap g := by
  simp only [World.keys, List.filterMap_map]
  rfl

/-- A listing that succeeds on one machine gives the same names on a machine
that differs in access times only. -/
theorem readDirNames_same {w w1 : World} (h : SameButAtime w w1) {path : String}
    {names : List String} (hl : readDirNames w path = .ok names) :
    readDirNames w1 path = .ok names := by
  unfold readDirNames at hl
  split at hl
  · cases hl
  · rename_i key hres
    split at hl
    · cases hl
    · rename_i n hn
      split at hl
      · cases hl
      · rename_i hread
        split at hl
        · cases hl
        · rename_i hdir
          have hres1 := resolve_kept (sameButAtime_kept h) h.2.1 true path key n hres hn
          obtain ⟨n1, hn1, hk, hp, hu, hg⟩ := sameButAtime_kept h key n hn
          have hread1 : w1.mayRead n1 = w.mayRead n := by
            simp only [World.mayRead, h.2.2.1, h.2.2.2.1, hp, hu, hg]
          have hnodes := nodes_filterMap_keys w
            (fun k => if k ≠ [] ∧ k.dropLast = key then k.getLast? else none)
          have hnodes1 := nodes_filterMap_keys w1
            (fun k => if k ≠ [] ∧ k.dropLast = key then k.getLast? else none)
          simp only at hnodes hnodes1
          rw [hnodes] at hl
          unfold readDirNames
          simp only [hres1, hn1, hread1, hread, hk]
          rw [if_neg hdir, hnodes1, h.1]
          exact hl

/-! ## What one call of the walk function does -/

theorem facts_err (destPath name : String) (s : WalkState) (e : GoError) (w1 : World)
    (he : e.isPlain = true) (hstep : Step s.world w1)
    (hscan : destPath = "" → SameButAtime s.world w1) :
    CallFacts destPath name s (.err e, { s with world := w1 }) :=
  ⟨hstep, hscan, he, fun h => by simp at h, fun _ => rfl⟩

theorem facts_ok (destPath name : String) (s : WalkState) (w1 : World) (hdr : Header)
    (hash : Option (List Nat)) (hname : hdr.Name = name)
    (hstep : Step s.world w1) (hscan : destPath = "" → SameButAtime s.world w1) :
    CallFacts destPath name s (.ok, ({ s with world := w1 } : WalkState).Record hdr hash) :=
  ⟨hstep, hscan, rfl, fun _ => ⟨⟨hdr, hash⟩, rfl, hname⟩, fun h => absurd rfl h⟩

theorem fillDir_facts (destPath path : String) (info : FileInfo) (s : WalkState) :
    CallFacts destPath path s (fillDir destPath path info s) := by
  unfold fillDir
  simp only
  split
  · rename_i e he
    exact facts_err destPath path s e s.world (FileInfoHeader_error he) (Step.refl _) (fun _ => sameButAtime_refl _)
  · rename_i hdr0 _
    split
    · rename_i hd
      split
      · rename_i e he
        exact facts_err destPath path s e s.world (Mkdir_error he) (Step.refl _) (fun _ => sameButAtime_refl _)
      · rename_i w1 hw1
        split
        · rename_i e he
          exact facts_err destPath path s e w1 (utimesAt_error he) (Mkdir_step hw1)
            (fun h => absurd h hd)
        · rename_i w2 hw2
          exact facts_ok destPath path s w2 _ none rfl
            (Step.trans (Mkdir_step hw1) (utimesAt_step hw2)) (fun h => absurd h hd)
    · exact facts_ok destPath path s s.world _ none rfl (Step.refl _) (fun _ => sameButAtime_refl _)

theorem fillSymlink_facts (destPath path : String) (info : FileInfo) (s : WalkState) :
    CallFacts destPath path s (fillSymlink destPath path info s) := by
  have h0 : Step s.world (s.world.accessed false path) := accessed_step _ _ _
  have c0 : destPath = "" → SameButAtime s.world (s.world.accessed false path) :=
    fun _ => accessed_same _ _ _
  unfold fillSymlink
  split
  · rename_i e he
    exact facts_err destPath path s e s.world (Readlink_error he) (Step.refl _)
      (fun _ => sameButAtime_refl _)
  · rename_i link _
    split
    · rename_i e he
      exact facts_err destPath path s e _ (FileInfoHeader_error he) h0 c0
    · rename_i hdr0 _
      simp only
      split
      · rename_i hd
        split
        · rename_i e he
          exact facts_err destPath path s e _ (Symlink_error he) h0 c0
        · rename_i w1 hw1
          split
          · rename_i e he
            exact facts_err destPath path s e w1 (utimesAt_error he)
              (Step.trans h0 (Symlink_step hw1)) (fun h => absurd h hd)
          · rename_i w2 hw2
            exact facts_ok destPath path s w2 _ none rfl
              (Step.trans h0 (Step.trans (Symlink_step hw1) (utimesAt_step hw2)))
              (fun h => absurd h hd)
      · exact facts_ok destPath path s _ _ none rfl h0 c0

theorem fillRegular_facts (srcPath destPath : String) (hasher : Hasher) (path : String)
    (info : FileInfo) (s : WalkState) :
    CallFacts destPath path s (fillRegular srcPath destPath hasher path info s) := by
  unfold fillRegular
  simp only
  split
  · rename_i e he
    exact facts_err destPath path s e s.world (OpenFileRead_error he) (Step.refl _) (fun _ => sameButAtime_refl _)
  · rename_i src _
    by_cases hd : destPath = ""
    · simp only [hd, ne_eq, not_true_eq_false, ↓reduceIte]
      split
      · rename_i e he
        exact facts_err "" path s e s.world (readAll_error he) (Step.refl _)
          (fun _ => sameButAtime_refl _)
      · split
        · rename_i e he
          exact facts_err "" path s e _ (FileInfoHeader_error he) (touchAtime_step _ _)
            (fun _ => touchAtime_same _ _)
        · exact facts_ok "" path s _ _ _ rfl (touchAtime_step _ _) (fun _ => touchAtime_same _ _)
    · simp only [ne_eq, hd, not_false_eq_true, ↓reduceIte]
      cases hopen : OpenFileCreateExcl s.world (Join destPath path) (info.mode &&& ModePerm) with
      | error e =>
        exact facts_err destPath path s e s.world (OpenFileCreateExcl_error hopen) (Step.refl _)
          (fun _ => sameButAtime_refl _)
      | ok res =>
        obtain ⟨w1, dest⟩ := res
        have h1 : Step s.world w1 := OpenFileCreateExcl_step hopen
        simp only
        split
        · rename_i e he
          exact facts_err destPath path s e w1 (readAll_error he) h1 (fun h => absurd h hd)
        · rename_i data _
          have h2 : Step s.world (writeAll (w1.touchAtime src) dest data) :=
            Step.trans h1 (Step.trans (touchAtime_step _ _) (writeAll_step _ _ _))
          split
          · rename_i e he
            exact facts_err destPath path s e _ (FileInfoHeader_error he) h2 (fun h => absurd h hd)
          · split
            · rename_i e he
              exact facts_err destPath path s e _ (utimesAt_error he) h2 (fun h => absurd h hd)
            · rename_i w3 hw3
              exact facts_ok destPath path s w3 _ _ rfl (Step.trans h2 (utimesAt_step hw3))
                (fun h => absurd h hd)

theorem facts_panic (destPath name : String) (s : WalkState) (e : GoError)
    (he : e.isPlain = true) : CallFacts destPath name s (.panic e, s) :=
  ⟨Step.refl _, fun _ => sameButAtime_refl _, he, fun h => by simp at h, fun _ => rfl⟩

/-- Every call of the walk function of `FillBucket` with a plain error
argument (or none) has the effect described by `CallFacts`, recording under
the rewritten path. -/
theorem fillWalkFn_facts (srcPath destPath : String) (hasher : Hasher) (path0 : String)
    (info : Option FileInfo) (err : Option GoError) (s : WalkState)
    (herr : ∀ e, err = some e → e.isPlain = true) :
    CallFacts destPath ("." ++ TrimPrefixStr path0 srcPath) s
      (fillWalkFn srcPath destPath hasher path0 info err s) := by
  unfold fillWalkFn
  cases err with
  | some e => exact facts_err destPath _ s e s.world (herr e rfl) (Step.refl _) (fun _ => sameButAtime_refl _)
  | none =>
  cases info with
  | none => exact facts_panic destPath _ s _ rfl
  | some info =>
  simp only
  split
  · exact fillDir_facts _ _ _ _
  · split
    · exact fillSymlink_facts _ _ _ _
    · split
      · exact facts_panic destPath _ s _ rfl
      · split
        · exact facts_panic destPath _ s _ rfl
        · split
          · exact facts_panic destPath _ s _ rfl
          · split
            · exact facts_panic destPath _ s _ rfl
            · split
              · exact fillRegular_facts _ _ _ _ _ _
              · exact facts_panic destPath _ s _ rfl

/-! ## What a whole walk does -/

theorem RunFacts.of_call {destPath name : String} {s : WalkState} {r : Status × WalkState}
    (h : CallFacts destPath name s r) : RunFacts destPath s r := by
  obtain ⟨h1, h2, h3, h4, h5⟩ := h
  refine ⟨h1, h2, h3, ?_⟩
  by_cases hok : r.1 = .ok
  · obtain ⟨rec, hrec, _⟩ := h4 hok
    exact ⟨[rec], hrec⟩
  · exact ⟨[], by simp [h5 hok]⟩

theorem RunFacts.trans {destPath : String} {s s1 : WalkState} {st : Status}
    {r : Status × WalkState} (h1 : RunFacts destPath s (st, s1)) (h2 : RunFacts destPath s1 r) :
    RunFacts destPath s r := by
  obtain ⟨a1, a2, _, n1, a4⟩ := h1
  obtain ⟨b1, b2, b3, n2, b4⟩ := h2
  refine ⟨Step.trans a1 b1, fun h => sameButAtime_trans (a2 h) (b2 h), b3, n1 ++ n2, ?_⟩
  simp only at a4
  rw [b4, a4, List.append_assoc]

theorem RunFacts.restatus {destPath : String} {s s1 : WalkState} {st st1 : Status}
    (h1 : RunFacts destPath s (st, s1)) (hst : st1.isPlain = true) :
    RunFacts destPath s (st1, s1) := by
  obtain ⟨a1, a2, _, a4⟩ := h1
  exact ⟨a1, a2, hst, a4⟩

theorem walkNames_runFacts (srcPath destPath : String) (hasher : Hasher)
    (rec : String → FileInfo → WalkState → Option (Status × WalkState))
    (hrec : ∀ p fi s r, rec p fi s = some r → RunFacts destPath s r) (path : String) :
    ∀ (names : List String) (s : WalkState) (r : Status × WalkState),
      walkNames rec (fillWalkFn srcPath destPath hasher) path names s = some r →
      RunFacts destPath s r := by
  intro names
  induction names with
  | nil =>
    intro s r h
    simp only [walkNames, Option.some.injEq] at h
    subst h
    exact ⟨Step.refl _, fun _ => sameButAtime_refl _, rfl, [], by simp⟩
  | cons name rest ih =>
    intro s r h
    unfold walkNames at h
    simp only at h
    split at h
    · rename_i e he
      have hf := RunFacts.of_call (fillWalkFn_facts srcPath destPath hasher (Join path name) none
        (some e) s (fun e1 h1 => by cases h1; exact Lstat_error he))
      split at h
      · rename_i s1 heq
        rw [heq] at hf
        exact RunFacts.trans hf (ih s1 r h)
      · rename_i s1 heq
        rw [heq] at hf
        exact RunFacts.trans hf (ih s1 r h)
      · simp only [Option.some.injEq] at h
        subst h
        exact hf
    · rename_i fileInfo _
      split at h
      · simp at h
      · rename_i s1 heq
        exact RunFacts.trans (hrec _ _ _ _ heq) (ih s1 r h)
      · rename_i e s1 heq
        have hf := hrec _ _ _ _ heq
        split at h
        · exact RunFacts.trans hf (ih s1 r h)
        · simp only [Option.some.injEq] at h
          subst h
          exact hf
      · rename_i r1 _ _ heq
        simp only [Option.some.injEq] at h
        subst h
        exact hrec _ _ _ _ heq

theorem walk_runFacts (srcPath destPath : String) (hasher : Hasher) :
    ∀ (fuel : Nat) (path : String) (info : FileInfo) (s : WalkState) (r : Status × WalkState),
      walk (fillWalkFn srcPath destPath hasher) fuel path info s = some r →
      RunFacts destPath s r := by
  intro fuel
  induction fuel with
  | zero => intro path info s r h; simp [walk] at h
  | succ fuel ih =>
    intro path info s r h
    unfold walk at h
    have hf := RunFacts.of_call (fillWalkFn_facts srcPath destPath hasher path (some info) none s
      (fun e1 h1 => by cases h1))
    split at h
    · rename_i e s1 heq
      rw [heq] at hf
      split at h
      · simp only [Option.some.injEq] at h
        subst h
        exact RunFacts.restatus hf rfl
      · simp only [Option.some.injEq] at h
        subst h
        exact hf
    · rename_i e s1 heq
      rw [heq] at hf
      simp only [Option.some.injEq] at h
      subst h
      exact hf
    · rename_i s1 heq
      rw [heq] at hf
      split at h
      · simp only [Option.some.injEq] at h
        subst h
        exact hf
      · split at h
        · rename_i e he
          simp only [Option.some.injEq] at h
          subst h
          exact RunFacts.trans hf (RunFacts.of_call (fillWalkFn_facts srcPath destPath hasher path
            (some info) (some e) s1 (fun e1 h1 => by cases h1; exact readDirNames_error he)))
        · rename_i names _
          have hacc : RunFacts destPath s1
              (.ok, ({ s1 with world := s1.world.accessed true path } : WalkState)) :=
            ⟨accessed_step _ _ _, fun _ => accessed_same _ _ _, rfl, [], by simp⟩
          exact RunFacts.trans hf (RunFacts.trans hacc
            (walkNames_runFacts srcPath destPath hasher _ (fun p fi st r1 h1 => ih p fi st r1 h1)
              path names _ r h))

/-- Whatever `FillBucket` returns, it got there by system-call steps only
(when scanning, by accesses only), with a plain status, appending to the
bucket. -/
theorem FillBucket_runFacts (fuel : Nat) (srcPath destPath : String) (hasher : Hasher)
    (s : WalkState) (r : Status × WalkState)
    (h : FillBucket fuel srcPath destPath hasher s = some r) : RunFacts destPath s r := by
  unfold FillBucket Walk at h
  split at h
  · rename_i e he
    simp only [Option.some.injEq] at h
    subst h
    exact RunFacts.of_call (fillWalkFn_facts srcPath destPath hasher srcPath none (some e) s
      (fun e1 h1 => by cases h1; exact Lstat_error he))
  · exact walk_runFacts srcPath destPath hasher fuel srcPath _ s r h


/-! ## Claims about unsupported nodes and about `Apply` -/

/-- C7 (as stated, refuted): scanning a directory that holds a named pipe
does not end with an error result naming the pipe: the walk panics with
`NotImplementedError("TODO")`. -/
theorem pipe_tree_panics_with_todo :
    (FillBucket 2 "/src" "" idHasher ⟨pipeWorld, []⟩).map Prod.fst
      = some (.panic (.notImplemented "TODO")) := by
  rfl

/-- C7 (amended): wherever the walk meets a named pipe, a socket or a device
— as the walked node, as `srcPath` itself, or as the entry of a directory
that the loop of the walk reaches — the outcome is a panic with
`NotImplementedError("TODO")`; the state is the one before the node (nothing
recorded, nothing written) and the remaining entries are not visited. -/
theorem special_node_panics (srcPath destPath : String) (hasher : Hasher) (n : Inode)
    (hk : n.kind.isSpecial = true) :
    (∀ fuel path s, walk (fillWalkFn srcPath destPath hasher) (fuel + 1) path n.info s
        = some (.panic (.notImplemented "TODO"), s))
    ∧ (∀ fuel s, Lstat s.world srcPath = .ok n.info →
        FillBucket (fuel + 1) srcPath destPath hasher s = some (.panic (.notImplemented "TODO"), s))
    ∧ (∀ fuel dir name rest s, Lstat s.world (Join dir name) = .ok n.info →
        walkNames (fun p fi st => walk (fillWalkFn srcPath destPath hasher) (fuel + 1) p fi st)
          (fillWalkFn srcPath destPath hasher) dir (name :: rest) s
          = some (.panic (.notImplemented "TODO"), s)) := by
  have hw : ∀ fuel path s, walk (fillWalkFn srcPath destPath hasher) (fuel + 1) path n.info s
      = some (.panic (.notImplemented "TODO"), s) := by
    intro fuel path s
    simp only [walk, fillWalkFn_special srcPath destPath hasher path n hk s]
  refine ⟨hw, ?_, ?_⟩
  · intro fuel s hl
    simp only [FillBucket, Walk, hl, hw]
  · intro fuel dir name rest s hl
    simp only [walkNames, hl, hw]

/-- Witness for `special_node_panics`: the named pipe of `pipeWorld`, met as
the first entry of `/src`. -/
theorem special_node_panics_witness :
    (exNode .fifo 0o644 0 7 7).kind.isSpecial = true ∧
      walkNames (fun p fi st => walk (fillWalkFn "/src" "" idHasher) 1 p fi st)
        (fillWalkFn "/src" "" idHasher) "/src" ["p"] ⟨pipeWorld, []⟩
        = some (.panic (.notImplemented "TODO"), ⟨pipeWorld, []⟩) :=
  ⟨rfl, (special_node_panics "/src" "" idHasher (exNode .fifo 0o644 0 7 7) rfl).2.2
    0 "/src" "p" [] ⟨pipeWorld, []⟩ rfl⟩

/-- C6 (as stated, refuted): applying the test tree with the hash "abcd" ends
with the hash-mismatch error, and the destination directory and the copied
file `b/c` are on disk afterwards. -/
theorem fixture_mismatch_leaves_dest :
    (Apply 4 ⟨"dir", "abcd", "/tmp/src"⟩ idHasher nameTreeHash "/tmp/dest" fixtureWorld).map
        (fun r => (r.1, (r.2.node ["tmp", "dest"]).map Inode.kind,
          (r.2.node ["tmp", "dest", "b", "c"]).map Inode.kind))
      = some (some (.inputHashMismatch "abcd" "LgAALi9hAAAuL2IAAC4vYi9jAHp5eAA="),
          some .dir, some (.file [122, 121, 120])) := by
  rfl

/-- The keys of the nodes only grow along system-call steps. -/
theorem Step.keys_subset {w w1 : World} (h : Step w w1) : ∀ key ∈ w.keys, key ∈ w1.keys := by
  induction h with
  | refl w => exact fun _ hk => hk
  | set w key n => intro k hk; rw [setNode_keys]; exact hk
  | add w key n _ _ =>
    intro k hk
    simp only [World.keys, World.addNode, List.map_append, List.mem_append]
    exact Or.inl hk
  | tick w => exact fun _ hk => hk
  | trans _ _ ih1 ih2 => exact fun k hk => ih2 k (ih1 k hk)

/-- C6 (amended): when `Apply` ends with the hash-mismatch error, the walk
had succeeded and the machine is left exactly as `FillBucket` left it:
`Apply` removes nothing, and no node that was on disk before is gone. -/
theorem Apply_mismatch_keeps_walk_result (fuel : Nat) (spec : InputSpec) (hasher : Hasher)
    (treeHash : TreeHash) (destinationRoot : String) (w w1 : World) (expected got : String)
    (h : Apply fuel spec hasher treeHash destinationRoot w
      = some (some (.inputHashMismatch expected got), w1)) :
    ∃ bucket, FillBucket fuel spec.URI destinationRoot hasher ⟨w, []⟩ = some (.ok, ⟨w1, bucket⟩)
      ∧ treeHash bucket hasher ≠ (DecodeString spec.Hash).1
      ∧ ∀ key ∈ w.keys, key ∈ w1.keys := by
  unfold Apply at h
  split at h
  · simp at h
  · rename_i e s hf
    have hp := (FillBucket_runFacts _ _ _ _ _ _ hf).2.2.1
    simp only [Option.some.injEq, Prod.mk.injEq] at h
    obtain ⟨h1, _⟩ := h
    subst h1
    simp [Status.isPlain, GoError.isPlain] at hp
  · rename_i e s hf
    have hp := (FillBucket_runFacts _ _ _ _ _ _ hf).2.2.1
    simp only [Option.some.injEq, Prod.mk.injEq] at h
    obtain ⟨h1, _⟩ := h
    subst h1
    simp [Status.isPlain, GoError.isPlain] at hp
  · rename_i s hf
    have hstep := (FillBucket_runFacts _ _ _ _ _ _ hf).1
    simp only at h
    split at h
    · rename_i hne
      simp only [Option.some.injEq, Prod.mk.injEq] at h
      obtain ⟨_, h2⟩ := h
      subst h2
      exact ⟨s.bucket, hf, hne, hstep.keys_subset⟩
    · simp at h

/-- Witness for `Apply_mismatch_keeps_walk_result`: the test tree applied with
the hash "abcd". -/
theorem Apply_mismatch_keeps_walk_result_witness :
    Apply 4 ⟨"dir", "abcd", "/tmp/src"⟩ idHasher nameTreeHash "/tmp/dest" fixtureWorld
      = some (some (.inputHashMismatch "abcd" "LgAALi9hAAAuL2IAAC4vYi9jAHp5eAA="),
          fixtureCopied.world)
    ∧ ∃ bucket,
      FillBucket 4 "/tmp/src" "/tmp/dest" idHasher ⟨fixtureWorld, []⟩
        = some (.ok, ⟨fixtureCopied.world, bucket⟩)
      ∧ nameTreeHash bucket idHasher ≠ (DecodeString "abcd").1
      ∧ ∀ key ∈ fixtureWorld.keys, key ∈ fixtureCopied.world.keys :=
  ⟨rfl, Apply_mismatch_keeps_walk_result 4 ⟨"dir", "abcd", "/tmp/src"⟩ idHasher nameTreeHash
    "/tmp/dest" fixtureWorld fixtureCopied.world "abcd" "LgAALi9hAAAuL2IAAC4vYi9jAHp5eAA=" rfl⟩

/-! ## Base64 -/

theorem decChar_encChar : ∀ v, v < 64 → decChar (encChar v) = some v := by
  decide

theorem encodeURL_plain : ∀ c ∈ encodeURL, c ≠ '=' ∧ c ≠ '\r' ∧ c ≠ '\n' := by
  decide

theorem encChar_mem (v : Nat) : encChar v ∈ encodeURL := by
  unfold encChar
  by_cases h : v < encodeURL.length
  · rw [List.getD_eq_getElem _ _ h]
    exact List.getElem_mem _
  · rw [List.getD_eq_default _ _ (by omega)]
    decide

theorem encChar_ne_pad (v : Nat) : encChar v ≠ '=' := (encodeURL_plain _ (encChar_mem v)).1

theorem b64Encode_plain (bytes : List Nat) : ∀ c ∈ b64Encode bytes, c ≠ '\r' ∧ c ≠ '\n' := by
  induction bytes using b64Encode.induct with
  | case1 => simp [b64Encode]
  | case2 a =>
    intro c hc
    simp only [b64Encode, List.mem_cons, List.mem_singleton] at hc
    rcases hc with rfl | rfl | rfl | rfl | hc
    · exact (encodeURL_plain _ (encChar_mem _)).2
    · exact (encodeURL_plain _ (encChar_mem _)).2
    · decide
    · decide
    · simp at hc
  | case3 a b =>
    intro c hc
    simp only [b64Encode, List.mem_cons, List.mem_singleton] at hc
    rcases hc with rfl | rfl | rfl | rfl | hc
    · exact (encodeURL_plain _ (encChar_mem _)).2
    · exact (encodeURL_plain _ (encChar_mem _)).2
    · exact (encodeURL_plain _ (encChar_mem _)).2
    · decide
    · simp at hc
  | case4 a b c rest ih =>
    intro x hx
    simp only [b64Encode, List.mem_cons] at hx
    rcases hx with rfl | rfl | rfl | rfl | hx
    · exact (encodeURL_plain _ (encChar_mem _)).2
    · exact (encodeURL_plain _ (encChar_mem _)).2
    · exact (encodeURL_plain _ (encChar_mem _)).2
    · exact (encodeURL_plain _ (encChar_mem _)).2
    · exact ih x hx

/-- Decoding an encoding gives the bytes back, without error. -/
theorem b64Decode_b64Encode (bytes : List Nat) (hb : ∀ b ∈ bytes, b < 256) :
    b64Decode (b64Encode bytes) = (bytes, false) := by
  induction bytes using b64Encode.induct with
  | case1 => simp [b64Encode, b64Decode]
  | case2 a =>
    have ha : a < 256 := hb a (by simp)
    simp only [b64Encode, b64Decode, decChar_encChar (a / 4) (by omega),
      decChar_encChar (a % 4 * 16) (by omega)]
    simp
    omega
  | case3 a b =>
    have ha : a < 256 := hb a (by simp)
    have hb1 : b < 256 := hb b (by simp)
    simp only [b64Encode, b64Decode, decChar_encChar (a / 4) (by omega),
      decChar_encChar (a % 4 * 16 + b / 16) (by omega), decChar_encChar (b % 16 * 4) (by omega),
      encChar_ne_pad]
    simp
    omega
  | case4 a b c rest ih =>
    have ha : a < 256 := hb a (by simp)
    have hb1 : b < 256 := hb b (by simp)
    have hc : c < 256 := hb c (by simp)
    have ih1 := ih (fun x hx => hb x (by simp [hx]))
    simp only [b64Encode, b64Decode, decChar_encChar (a / 4) (by omega),
      decChar_encChar (a % 4 * 16 + b / 16) (by omega),
      decChar_encChar (b % 16 * 4 + c / 64) (by omega), decChar_encChar (c % 64) (by omega),
      encChar_ne_pad, ih1]
    simp
    omega

/-- Decoding with `DecodeString` undoes `EncodeToString`. -/
theorem DecodeString_EncodeToString (bytes : List Nat) (hb : ∀ b ∈ bytes, b < 256) :
    DecodeString (EncodeToString bytes) = (bytes, false) := by
  unfold DecodeString EncodeToString
  have hf : (b64Encode bytes).filter (fun c => decide (c ≠ '\r' ∧ c ≠ '\n')) = b64Encode bytes := by
    rw [List.filter_eq_self]
    intro c hc
    simpa using b64Encode_plain bytes c hc
  simp only [hf]
  exact b64Decode_b64Encode bytes hb

/-- C2 (as stated, refuted): on the test tree, the string made of the
base64url encoding of the tree hash followed by a line feed is not that
encoding, yet `Apply` delivers no error for it. -/
theorem newline_hash_accepted :
    (Apply 4 ⟨"dir", "LgAALi9hAAAuL2IAAC4vYi9jAHp5eAA=\n", "/tmp/src"⟩ idHasher nameTreeHash
        "/tmp/dest" fixtureWorld).map Prod.fst = some none
    ∧ (FillBucket 4 "/tmp/src" "/tmp/dest" idHasher ⟨fixtureWorld, []⟩).map
        (fun r => EncodeToString (nameTreeHash r.2.bucket idHasher))
        = some "LgAALi9hAAAuL2IAAC4vYi9jAHp5eAA="
    ∧ "LgAALi9hAAAuL2IAAC4vYi9jAHp5eAA=\n" ≠ "LgAALi9hAAAuL2IAAC4vYi9jAHp5eAA=" := by
  refine ⟨by rfl, by rfl, by decide⟩

/-- C2 (amended): after a successful walk, `Apply` delivers no error when the
`Hash` string is the base64url encoding of the tree hash, or that encoding
with carriage returns and line feeds inserted anywhere; it delivers the
hash-mismatch error (quoting the string and the encoding of the tree hash)
whenever the bytes `DecodeString` yields for the string differ from the tree
hash. -/
theorem Apply_compares_decoded_bytes (fuel : Nat) (spec : InputSpec) (hasher : Hasher)
    (treeHash : TreeHash) (destinationRoot : String) (w : World) (s : WalkState)
    (hfill : FillBucket fuel spec.URI destinationRoot hasher ⟨w, []⟩ = some (.ok, s))
    (hbytes : ∀ b ∈ treeHash s.bucket hasher, b < 256) :
    (spec.Hash = EncodeToString (treeHash s.bucket hasher) →
        Apply fuel spec hasher treeHash destinationRoot w = some (none, s.world))
    ∧ (spec.Hash.data.filter (fun c => c ≠ '\r' ∧ c ≠ '\n')
          = (EncodeToString (treeHash s.bucket hasher)).data →
        Apply fuel spec hasher treeHash destinationRoot w = some (none, s.world))
    ∧ ((DecodeString spec.Hash).1 ≠ treeHash s.bucket hasher →
        Apply fuel spec hasher treeHash destinationRoot w
          = some (some (.inputHashMismatch spec.Hash (EncodeToString (treeHash s.bucket hasher))),
              s.world)) := by
  have heq : (DecodeString spec.Hash).1 = treeHash s.bucket hasher →
      Apply fuel spec hasher treeHash destinationRoot w = some (none, s.world) := by
    intro h
    simp only [Apply, hfill, h, ne_eq, not_true_eq_false, ↓reduceIte]
  refine ⟨?_, ?_, ?_⟩
  · intro h
    apply heq
    rw [h, DecodeString_EncodeToString _ hbytes]
  · intro h
    apply heq
    unfold DecodeString
    rw [h]
    show (b64Decode (b64Encode (treeHash s.bucket hasher))).1 = _
    rw [b64Decode_b64Encode _ hbytes]
  · intro h
    have h1 : treeHash s.bucket hasher ≠ (DecodeString spec.Hash).1 := fun h2 => h h2.symm
    simp only [Apply, hfill, ne_eq, h1, not_false_eq_true, ↓reduceIte]

/-- Witness for `Apply_compares_decoded_bytes`: the test tree, applied with
the encoding of its tree hash. -/
theorem Apply_compares_decoded_bytes_witness :
    FillBucket 4 "/tmp/src" "/tmp/dest" idHasher ⟨fixtureWorld, []⟩ = some (.ok, fixtureCopied)
    ∧ (∀ b ∈ nameTreeHash fixtureCopied.bucket idHasher, b < 256)
    ∧ Apply 4 ⟨"dir", "LgAALi9hAAAuL2IAAC4vYi9jAHp5eAA=", "/tmp/src"⟩ idHasher nameTreeHash
        "/tmp/dest" fixtureWorld = some (none, fixtureCopied.world) :=
  have hb : ∀ b ∈ nameTreeHash fixtureCopied.bucket idHasher, b < 256 := by decide
  ⟨rfl, hb, (Apply_compares_decoded_bytes 4 ⟨"dir", "LgAALi9hAAAuL2IAAC4vYi9jAHp5eAA=", "/tmp/src"⟩
    idHasher nameTreeHash "/tmp/dest" fixtureWorld fixtureCopied rfl hb).1 rfl⟩

/-! ## Lexical path lemmas -/

theorem splitSlash_append_slash (a b : List Char) :
    splitSlash (a ++ '/' :: b) = splitSlash a ++ splitSlash b := by
  induction a with
  | nil =>
    simp only [List.nil_append]
    rw [splitSlash]
    cases hb : splitSlash b with
    | nil => exact absurd hb (splitSlash_ne_nil b)
    | cons hd tl => simp [splitSlash, hb]
  | cons c a ih =>
    simp only [List.cons_append]
    rw [splitSlash, ih]
    cases ha : splitSlash a with
    | nil => exact absurd ha (splitSlash_ne_nil a)
    | cons hd tl =>
      rw [splitSlash, ha]
      simp only [List.cons_append]
      split <;> rfl

theorem splitSlash_noSlash_eq (x : List Char) (hx : '/' ∉ x) : splitSlash x = [x] := by
  induction x with
  | nil => rfl
  | cons c x ih =>
    simp only [List.mem_cons, not_or] at hx
    rw [splitSlash, ih hx.2]
    simp only
    rw [if_neg (fun h => hx.1 h.symm)]

theorem splitSlash_append_slashChars (a : List Char) (rel : List String)
    (hrel : ∀ c ∈ rel, '/' ∉ c.data) :
    splitSlash (a ++ slashChars rel) = splitSlash a ++ rel.map String.data := by
  induction rel generalizing a with
  | nil => simp [slashChars]
  | cons c cs ih =>
    have h1 : a ++ slashChars (c :: cs) = (a ++ '/' :: c.data) ++ slashChars cs := by
      simp [slashChars]
    rw [h1, ih _ (fun x hx => hrel x (List.mem_cons_of_mem _ hx)), splitSlash_append_slash,
      splitSlash_noSlash_eq _ (hrel c (by simp))]
    simp

theorem slashChars_append (xs ys : List String) :
    slashChars (xs ++ ys) = slashChars xs ++ slashChars ys := by
  induction xs with
  | nil => rfl
  | cons c cs ih => simp [slashChars, ih]

theorem validName_data {c : String} (h : validName c) :
    c.data ≠ [] ∧ c.data ≠ ['.'] ∧ c.data ≠ ['.', '.'] ∧ '/' ∉ c.data := by
  obtain ⟨h1, h2, h3, h4⟩ := h
  refine ⟨?_, ?_, ?_, h4⟩
  · intro h; exact h1 (String.ext h)
  · intro h; exact h2 (String.ext h)
  · intro h; exact h3 (String.ext h)

theorem foldl_cleanStep_valid (rooted : Bool) (rel : List String) (hrel : ∀ c ∈ rel, validName c)
    (stack : List (List Char)) :
    (rel.map String.data).foldl (cleanStep rooted) stack = stack ++ rel.map String.data := by
  induction rel generalizing stack with
  | nil => simp
  | cons c cs ih =>
    obtain ⟨h1, h2, h3, _⟩ := validName_data (hrel c (by simp))
    simp only [List.map_cons, List.foldl_cons]
    rw [show cleanStep rooted stack c.data = stack ++ [c.data] by simp [cleanStep, h1, h2, h3]]
    rw [ih (fun x hx => hrel x (List.mem_cons_of_mem _ hx))]
    simp

theorem joinSlash_cons_cons (x y : List Char) (rest : List (List Char)) :
    joinSlash (x :: y :: rest) = x ++ '/' :: joinSlash (y :: rest) := rfl

theorem joinSlash_snoc (xs : List (List Char)) (hxs : xs ≠ []) (c : List Char) :
    joinSlash (xs ++ [c]) = joinSlash xs ++ '/' :: c := by
  induction xs with
  | nil => exact absurd rfl hxs
  | cons x xs ihx =>
    cases xs with
    | nil => simp [joinSlash]
    | cons y ys =>
      have h := ihx (by simp)
      rw [List.cons_append, List.cons_append, joinSlash_cons_cons, joinSlash_cons_cons,
        ← List.cons_append, h]
      simp

theorem joinSlash_append (xs : List (List Char)) (hxs : xs ≠ []) (rel : List String) :
    joinSlash (xs ++ rel.map String.data) = joinSlash xs ++ slashChars rel := by
  induction rel generalizing xs with
  | nil => simp [slashChars]
  | cons c cs ih =>
    have h1 : xs ++ (c :: cs).map String.data = (xs ++ [c.data]) ++ cs.map String.data := by simp
    rw [h1, ih _ (by simp), joinSlash_snoc xs hxs]
    simp [slashChars]

theorem slashPath_data (rel : List String) : (slashPath rel).data = slashChars rel := rfl

theorem Clean_ne_empty_of_fixed (src : String) (hc : Clean src = src) : src.data ≠ [] := by
  intro h
  have hs : src = "" := String.ext h
  subst hs
  revert hc
  decide

/-- A clean path other than `/` and `.` stays clean, character for character,
when valid names are appended with slashes. -/
theorem Clean_append_slashPath (src : String) (hc : Clean src = src) (h1 : src ≠ "/")
    (h2 : src ≠ ".") (rel : List String) (hrel : ∀ c ∈ rel, validName c) :
    Clean (src ++ slashPath rel) = src ++ slashPath rel := by
  have hne := Clean_ne_empty_of_fixed src hc
  have hhead : (src.data ++ slashChars rel).head? = src.data.head? := by
    cases hd : src.data with
    | nil => exact absurd hd hne
    | cons c cs => rfl
  have hsplit := splitSlash_append_slashChars src.data rel (fun c hc => (hrel c hc).2.2.2)
  unfold Clean at hc ⊢
  simp only [String.data_append, slashPath_data, hhead, hsplit, List.foldl_append,
    foldl_cleanStep_valid _ rel hrel] at hc ⊢
  generalize List.foldl (cleanStep (decide (src.data.head? = some '/'))) [] (splitSlash src.data)
    = comps0 at hc ⊢
  split at hc
  · rename_i hr
    rw [if_pos hr]
    have hcomps : comps0 ≠ [] := by
      intro h0
      rw [h0] at hc
      exact h1 hc.symm
    rw [joinSlash_append _ hcomps]
    subst hc
    apply String.ext
    simp [slashPath_data]
  · rename_i hr
    rw [if_neg hr]
    split at hc
    · exact absurd hc.symm h2
    · rename_i hcomps
      have hne2 : comps0 ++ rel.map String.data ≠ [] := by simp [hcomps]
      rw [if_neg hne2, joinSlash_append _ hcomps]
      subst hc
      apply String.ext
      simp [slashPath_data]

theorem slashPath_snoc (rel : List String) (name : String) :
    slashPath rel ++ "/" ++ name = slashPath (rel ++ [name]) := by
  apply String.ext
  simp [slashPath_data, slashChars_append, slashChars]

/-- The path `filepath.walk` builds for an entry `name` of the directory it
walks at `src/rel` is `src/rel/name`, character for character. -/
theorem Join_walk (src : String) (hc : Clean src = src) (h1 : src ≠ "/") (h2 : src ≠ ".")
    (rel : List String) (name : String) (hrel : ∀ c ∈ rel ++ [name], validName c) :
    Join (src ++ slashPath rel) name = src ++ slashPath (rel ++ [name]) := by
  have hne : src ++ slashPath rel ≠ "" := by
    intro h
    have := congrArg String.data h
    simp only [String.data_append] at this
    exact Clean_ne_empty_of_fixed src hc (List.append_eq_nil.mp this).1
  unfold Join
  rw [if_neg hne, String.append_assoc, String.append_assoc, ← String.append_assoc (slashPath rel),
    slashPath_snoc]
  exact Clean_append_slashPath src hc h1 h2 _ hrel

theorem TrimPrefixStr_append (src x : String) : TrimPrefixStr (src ++ x) src = x := by
  unfold TrimPrefixStr
  have hp : src.data.isPrefixOf (src ++ x).data = true := by
    rw [String.data_append, List.isPrefixOf_iff_prefix]
    exact List.prefix_append _ _
  rw [if_pos hp]
  apply String.ext
  simp

theorem addNode_keys (w : World) (key : List String) (n : Inode) :
    (w.addNode key n).keys = w.keys ++ [key] := by
  simp [World.keys, World.addNode]

theorem KeyOK.valid {w : World} {key : List String} (hw : WF w) (h : KeyOK w key) :
    ∀ c ∈ key, validName c := by
  rcases h with ⟨k, hk, hp⟩ | ⟨d, c, rfl, hd, hc⟩
  · exact fun c hc => hw.1 k hk c (hp.subset hc)
  · intro x hx
    rcases List.mem_append.mp hx with hx | hx
    · exact hw.1 d hd x hx
    · simp only [List.mem_singleton] at hx
      exact hx ▸ hc

/-- System-call steps keep the file system well formed. -/
theorem Step.wf {w w1 : World} (h : Step w w1) : WF w → WF w1 := by
  induction h with
  | refl w => exact id
  | set w key n => intro hw; unfold WF; rw [setNode_keys]; exact hw
  | add w key n hnone hok =>
    intro hw
    unfold WF
    rw [addNode_keys]
    constructor
    · intro k hk
      rcases List.mem_append.mp hk with hk | hk
      · exact hw.1 k hk
      · simp only [List.mem_singleton] at hk
        subst hk
        exact hok.valid hw
    · rw [List.nodup_append]
      refine ⟨hw.2, List.nodup_singleton _, ?_⟩
      intro a ha hb
      simp only [List.mem_singleton] at hb
      subst hb
      exact hnone ha
  | tick w => exact id
  | trans _ _ ih1 ih2 => exact fun hw => ih2 (ih1 hw)

/-! ## The order of names -/

theorem bytesLt_irrefl (a : List Char) : bytesLt a a = false := by
  induction a with
  | nil => rfl
  | cons c cs ih => simp [bytesLt, ih]

theorem bytesLt_trans : ∀ (a b c : List Char), bytesLt a b = true → bytesLt b c = true →
    bytesLt a c = true := by
  intro a
  induction a with
  | nil =>
    intro b c hab hbc
    cases b with
    | nil => simp [bytesLt] at hab
    | cons y ys =>
      cases c with
      | nil => simp [bytesLt] at hbc
      | cons z zs => rfl
  | cons x xs ih =>
    intro b c hab hbc
    cases b with
    | nil => simp [bytesLt] at hab
    | cons y ys =>
      cases c with
      | nil => simp [bytesLt] at hbc
      | cons z zs =>
        simp only [bytesLt, Bool.or_eq_true, decide_eq_true_eq, Bool.and_eq_true] at hab hbc ⊢
        rcases hab with h1 | ⟨h1, h1'⟩ <;> rcases hbc with h2 | ⟨h2, h2'⟩
        · left; omega
        · left; omega
        · left; omega
        · right; exact ⟨by omega, ih ys zs h1' h2'⟩

theorem bytesLt_trichotomy : ∀ (a b : List Char), bytesLt a b = true ∨ a = b ∨ bytesLt b a = true := by
  intro a
  induction a with
  | nil =>
    intro b
    cases b with
    | nil => right; left; rfl
    | cons y ys => left; rfl
  | cons x xs ih =>
    intro b
    cases b with
    | nil => right; right; rfl
    | cons y ys =>
      simp only [bytesLt, Bool.or_eq_true, decide_eq_true_eq, Bool.and_eq_true, List.cons.injEq]
      rcases Nat.lt_trichotomy x.toNat y.toNat with h | h | h
      · left; left; exact h
      · have hxy : x = y := by
          rw [← Char.ofNat_toNat x, ← Char.ofNat_toNat y, h]
        rcases ih ys with h1 | h1 | h1
        · left; right; exact ⟨h, h1⟩
        · right; left; exact ⟨hxy, h1⟩
        · right; right; right; exact ⟨h.symm, h1⟩
      · right; right; left; exact h

theorem bytesLt_asymm (a b : List Char) (h : bytesLt a b = true) : bytesLt b a = false := by
  cases hba : bytesLt b a with
  | false => rfl
  | true =>
    have := bytesLt_trans a b a h hba
    rw [bytesLt_irrefl] at this
    exact absurd this (by simp)

theorem bytesLe_total : IsTotal String (fun a b => bytesLe a.data b.data = true) where
  total a b := by
    simp only [bytesLe, Bool.not_eq_true']
    cases h : bytesLt b.data a.data with
    | false => left; rfl
    | true => right; exact bytesLt_asymm _ _ h

theorem bytesLe_trans : IsTrans String (fun a b => bytesLe a.data b.data = true) where
  trans a b c := by
    simp only [bytesLe, Bool.not_eq_true']
    intro h1 h2
    cases h : bytesLt c.data a.data with
    | false => rfl
    | true =>
      rcases bytesLt_trichotomy a.data b.data with h3 | h3 | h3
      · rw [bytesLt_trans _ _ _ h h3] at h2; exact absurd h2 (by simp)
      · rw [← h3, h] at h2; exact absurd h2 (by simp)
      · rw [h3] at h1; exact absurd h1 (by simp)

/-- Sorting pairwise distinct names with `sort.Strings` yields a strictly ascending
list with the same members. -/
theorem sortStrings_strict (names : List String) (hnd : names.Nodup) :
    (sortStrings names).Pairwise nameLt ∧ ∀ n, n ∈ sortStrings names ↔ n ∈ names := by
  haveI := bytesLe_total
  haveI := bytesLe_trans
  have hperm : (sortStrings names).Perm names := List.perm_insertionSort _ names
  have hsorted : (sortStrings names).Sorted (fun a b => bytesLe a.data b.data = true) :=
    List.sorted_insertionSort _ names
  have hnd' : (sortStrings names).Nodup := hperm.nodup_iff.mpr hnd
  refine ⟨?_, fun n => hperm.mem_iff⟩
  have h2 : (sortStrings names).Pairwise (fun a b => bytesLe a.data b.data = true ∧ a ≠ b) :=
    List.Pairwise.and hsorted hnd'
  refine h2.imp ?_
  intro a b ⟨hle, hne⟩
  simp only [bytesLe, Bool.not_eq_true'] at hle
  rcases bytesLt_trichotomy a.data b.data with h | h | h
  · exact h
  · exact absurd (String.ext h) hne
  · rw [h] at hle; exact absurd hle (by simp)

/-- In a well-formed file system a directory listing is strictly ascending
and made of valid names. -/
theorem readDirNames_sorted (w : World) (hw : WF w) (path : String) (names : List String)
    (h : readDirNames w path = .ok names) :
    names.Pairwise nameLt ∧ ∀ n ∈ names, validName n := by
  unfold readDirNames at h
  split at h
  · simp at h
  · rename_i key _
    split at h
    · simp at h
    · split at h
      · simp at h
      · split at h
        · simp at h
        · simp only [Except.ok.injEq] at h
          have hL : w.nodes.filterMap (fun kv =>
              if kv.1 ≠ [] ∧ kv.1.dropLast = key then kv.1.getLast? else none)
              = w.keys.filterMap (fun k => if k ≠ [] ∧ k.dropLast = key then k.getLast? else none) := by
            simp only [World.keys, List.filterMap_map]
            rfl
          rw [hL] at h
          have hnd : (w.keys.filterMap
              (fun k => if k ≠ [] ∧ k.dropLast = key then k.getLast? else none)).Nodup := by
            refine List.Nodup.filterMap ?_ hw.2
            intro a a' b hb hb'
            simp only [Option.mem_def] at hb hb'
            split at hb
            · rename_i ha
              split at hb'
              · rename_i ha'
                have e1 := List.dropLast_append_getLast? b (by simpa using hb)
                have e2 := List.dropLast_append_getLast? b (by simpa using hb')
                rw [← e1, ← e2, ha.2, ha'.2]
              · simp at hb'
            · simp at hb
          obtain ⟨h1, h2⟩ := sortStrings_strict _ hnd
          rw [h] at h1 h2
          refine ⟨h1, ?_⟩
          intro n hn
          rw [h2] at hn
          simp only [List.mem_filterMap] at hn
          obtain ⟨k, hk, hkn⟩ := hn
          split at hkn
          · exact hw.1 k hk n (List.mem_of_getLast?_eq_some hkn)
          · simp at hkn

theorem walkPath_snoc (src : String) (rel : List String) (name : String) :
    Join (walkPath src rel) name = walkPath src (rel ++ [name]) := by
  simp [walkPath, List.foldl_append]

theorem lex_of_prefix_snoc (r : String → String → Prop) (rel : List String) (n : String)
    (x : List String) (h : (rel ++ [n]) <+: x) : List.Lex r rel x := by
  obtain ⟨t, rfl⟩ := h
  induction rel with
  | nil => exact List.Lex.nil
  | cons a rel ih => exact List.Lex.cons ih

theorem lex_of_siblings (r : String → String → Prop) (rel : List String) (n1 n2 : String)
    (x y : List String) (hx : (rel ++ [n1]) <+: x) (hy : (rel ++ [n2]) <+: y) (h : r n1 n2) :
    List.Lex r x y := by
  obtain ⟨t, rfl⟩ := hx
  obtain ⟨u, rfl⟩ := hy
  induction rel with
  | nil => exact List.Lex.rel h
  | cons a rel ih => exact List.Lex.cons ih

/-! ## The order of the records (C4) -/

theorem fillWalkFn_err (srcPath destPath : String) (hasher : Hasher) (path : String)
    (info : Option FileInfo) (e : GoError) (s : WalkState) :
    fillWalkFn srcPath destPath hasher path info (some e) s = (.err e, s) := by
  cases info <;> rfl

theorem Found.liftFound {destPath src : String} {s s1 : WalkState} {x : List String}
    (hstep : Step s.world s1.world) (hscan : destPath = "" → SameButAtime s.world s1.world)
    (h : Found destPath src s1 x) : Found destPath src s x := by
  obtain ⟨w1, fi, h1, h2, h3⟩ := h
  by_cases hd : destPath = ""
  · have hw : w1 = s1.world := h2 hd
    subst hw
    obtain ⟨fi1, hl, _⟩ := Lstat_same (sameButAtime_symm (hscan hd)) h3
    exact ⟨s.world, fi1, Step.refl _, fun _ => rfl, hl⟩
  · exact ⟨w1, fi, Step.trans hstep h1, fun h => absurd h hd, h3⟩

theorem Listed.liftListed {destPath src : String} {s s1 : WalkState} {rels : List (List String)}
    {x : List String} (hstep : Step s.world s1.world)
    (hscan : destPath = "" → SameButAtime s.world s1.world) (h : Listed destPath src s1 rels x) :
    Listed destPath src s rels x := by
  obtain ⟨w1, w2, fi, h1, h2, h3, h4, h5⟩ := h
  by_cases hd : destPath = ""
  · obtain ⟨e1, e2⟩ := h3 hd
    subst e1
    subst e2
    have hsym := sameButAtime_symm (hscan hd)
    obtain ⟨fi1, hl, hdir⟩ := Lstat_same hsym h4
    refine ⟨s.world, s.world, fi1, Step.refl _, Step.refl _, fun _ => ⟨rfl, rfl⟩, hl,
      fun hd1 => ?_⟩
    obtain ⟨names, hn, hall⟩ := h5 (by rw [← hdir]; exact hd1)
    exact ⟨names, readDirNames_same hsym hn, hall⟩
  · exact ⟨w1, w2, fi, Step.trans hstep h1, h2, fun h => absurd h hd, h4, h5⟩

theorem Listed.mono {destPath src : String} {s : WalkState} {rels rels1 : List (List String)}
    {x : List String} (hsub : ∀ y ∈ rels, y ∈ rels1) (h : Listed destPath src s rels x) :
    Listed destPath src s rels1 x := by
  obtain ⟨w1, w2, fi, h1, h2, h3, h4, h5⟩ := h
  refine ⟨w1, w2, fi, h1, h2, h3, h4, fun hd => ?_⟩
  obtain ⟨names, hn, hall⟩ := h5 hd
  exact ⟨names, hn, fun n hnm => hsub _ (hall n hnm)⟩

theorem Recorded.nil (destPath src : String) (s : WalkState) : Recorded destPath src s [] [] :=
  ⟨rfl, by simp, List.Pairwise.nil⟩

theorem below_of_head {rel : List String} {rels : List (List String)}
    (hhead : rels = [] ∨ ∃ t, rels = rel :: t ∧ ∀ x ∈ t, ∃ n, (rel ++ [n]) <+: x) :
    ∀ x ∈ rels, rel <+: x := by
  intro x hx
  rcases hhead with h0 | ⟨t, ht, hbt⟩
  · rw [h0] at hx; simp at hx
  · rw [ht] at hx
    rcases List.mem_cons.mp hx with hx | hx
    · rw [hx]
    · obtain ⟨n, hn⟩ := hbt x hx
      exact (List.prefix_append _ _).trans hn

theorem walkNames_recorded (srcPath destPath : String) (hasher : Hasher)
    (rec : String → FileInfo → WalkState → Option (Status × WalkState)) (rel : List String)
    (hrec : ∀ name fi s r, validName name → WF s.world →
      Lstat s.world (walkPath srcPath (rel ++ [name])) = .ok fi →
      rec (walkPath srcPath (rel ++ [name])) fi s = some r →
      RecordedAt destPath srcPath (rel ++ [name]) s r ∧ r.1.isPlain = true) :
    ∀ (names : List String) (s : WalkState) (r : Status × WalkState),
      WF s.world → names.Pairwise nameLt → (∀ n ∈ names, validName n) →
      walkNames rec (fillWalkFn srcPath destPath hasher) (walkPath srcPath rel) names s = some r →
      Step s.world r.2.world ∧ (destPath = "" → SameButAtime s.world r.2.world) ∧
        ∃ new rels, r.2.bucket = s.bucket ++ new ∧ Recorded destPath srcPath s new rels ∧
          (∀ x ∈ rels, ∃ n ∈ names, (rel ++ [n]) <+: x) ∧
          (r.1 = .ok → (∀ n ∈ names, (rel ++ [n]) ∈ rels) ∧
            ∀ x ∈ rels, Listed destPath srcPath s rels x) := by
  intro names
  induction names with
  | nil =>
    intro s r _ _ _ h
    simp only [walkNames, Option.some.injEq] at h
    subst h
    exact ⟨Step.refl _, fun _ => sameButAtime_refl _, [], [], by simp, Recorded.nil _ _ _,
      by simp, fun _ => by simp⟩
  | cons name rest ih =>
    intro s r hw hsorted hvalid h
    have hsorted' : rest.Pairwise nameLt := (List.pairwise_cons.mp hsorted).2
    have hlt : ∀ n ∈ rest, nameLt name n := (List.pairwise_cons.mp hsorted).1
    have hvalid' : ∀ n ∈ rest, validName n := fun n hn => hvalid n (List.mem_cons_of_mem _ hn)
    unfold walkNames at h
    simp only [walkPath_snoc] at h
    split at h
    · rename_i e he
      rw [fillWalkFn_err] at h
      have hne : e ≠ .skipDir := by
        intro h0
        have := Lstat_error he
        rw [h0] at this
        exact absurd this (by simp [GoError.isPlain])
      split at h
      · rename_i s1 heq
        simp only [Prod.mk.injEq] at heq
        exact absurd heq.1 (by simp)
      · rename_i s1 heq
        simp only [Prod.mk.injEq, Status.err.injEq] at heq
        exact absurd heq.1 hne
      · simp only [Option.some.injEq] at h
        subst h
        exact ⟨Step.refl _, fun _ => sameButAtime_refl _, [], [], by simp, Recorded.nil _ _ _,
          by simp, fun h0 => by simp at h0⟩
    · rename_i fileInfo hstat
      have combine : ∀ (s1 : WalkState),
          rec (walkPath srcPath (rel ++ [name])) fileInfo s = some (.ok, s1) →
          walkNames rec (fillWalkFn srcPath destPath hasher) (walkPath srcPath rel) rest s1 = some r →
          Step s.world r.2.world ∧ (destPath = "" → SameButAtime s.world r.2.world) ∧
            ∃ new rels, r.2.bucket = s.bucket ++ new ∧ Recorded destPath srcPath s new rels ∧
              (∀ x ∈ rels, ∃ n ∈ name :: rest, (rel ++ [n]) <+: x) ∧
              (r.1 = .ok → (∀ n ∈ name :: rest, (rel ++ [n]) ∈ rels) ∧
                ∀ x ∈ rels, Listed destPath srcPath s rels x) := by
        intro s1 h1 h2
        obtain ⟨⟨hs1, hc1, new1, rels1, hb1, ⟨hn1, hv1, hp1⟩, hhead1, hok1⟩, _⟩ :=
          hrec name fileInfo s (.ok, s1) (hvalid name (by simp)) hw hstat h1
        simp only at hs1 hc1 hb1
        obtain ⟨hs2, hc2, new2, rels2, hb2, ⟨hn2, hv2, hp2⟩, hbelow2, hok2⟩ :=
          ih s1 r (hs1.wf hw) hsorted' hvalid' h2
        have hbelow1 := below_of_head hhead1
        refine ⟨Step.trans hs1 hs2, fun hd => sameButAtime_trans (hc1 hd) (hc2 hd), new1 ++ new2,
          rels1 ++ rels2, ?_, ⟨?_, ?_, ?_⟩, ?_, ?_⟩
        · rw [hb2, hb1, List.append_assoc]
        · simp [hn1, hn2]
        · intro x hx
          rcases List.mem_append.mp hx with hx | hx
          · exact hv1 x hx
          · exact ⟨(hv2 x hx).1, (hv2 x hx).2.liftFound hs1 hc1⟩
        · rw [List.pairwise_append]
          refine ⟨hp1, hp2, ?_⟩
          intro x hx y hy
          obtain ⟨n, hn, hpy⟩ := hbelow2 y hy
          exact lex_of_siblings nameLt rel name n x y (hbelow1 x hx) hpy (hlt n hn)
        · intro x hx
          rcases List.mem_append.mp hx with hx | hx
          · exact ⟨name, by simp, hbelow1 x hx⟩
          · obtain ⟨n, hn, hp⟩ := hbelow2 x hx
            exact ⟨n, List.mem_cons_of_mem _ hn, hp⟩
        · intro hr
          obtain ⟨hne1, hl1⟩ := hok1 rfl
          obtain ⟨hall2, hl2⟩ := hok2 hr
          constructor
          · intro n hn
            rcases List.mem_cons.mp hn with hn | hn
            · subst hn
              rcases hhead1 with h0 | ⟨t, ht, _⟩
              · exact absurd h0 hne1
              · rw [ht]; simp
            · exact List.mem_append_right _ (hall2 n hn)
          · intro x hx
            rcases List.mem_append.mp hx with hx | hx
            · exact (hl1 x hx).mono (fun y hy => List.mem_append_left _ hy)
            · exact ((hl2 x hx).mono (fun y hy => List.mem_append_right _ hy)).liftListed hs1 hc1
      have stop : ∀ (r1 : Status × WalkState), r1.1 ≠ .ok →
          rec (walkPath srcPath (rel ++ [name])) fileInfo s = some r1 →
          Step s.world r1.2.world ∧ (destPath = "" → SameButAtime s.world r1.2.world) ∧
            ∃ new rels, r1.2.bucket = s.bucket ++ new ∧ Recorded destPath srcPath s new rels ∧
              (∀ x ∈ rels, ∃ n ∈ name :: rest, (rel ++ [n]) <+: x) ∧
              (r1.1 = .ok → (∀ n ∈ name :: rest, (rel ++ [n]) ∈ rels) ∧
                ∀ x ∈ rels, Listed destPath srcPath s rels x) := by
        intro r1 hne1 h1
        obtain ⟨⟨hs1, hc1, new1, rels1, hb1, hrec1, hhead1, _⟩, _⟩ :=
          hrec name fileInfo s r1 (hvalid name (by simp)) hw hstat h1
        exact ⟨hs1, hc1, new1, rels1, hb1, hrec1,
          fun x hx => ⟨name, by simp, below_of_head hhead1 x hx⟩, fun h0 => absurd h0 hne1⟩
      split at h
      · simp at h
      · rename_i s1 heq
        exact combine s1 heq h
      · rename_i e s1 heq
        split at h
        · rename_i hdir
          have hp := (hrec name fileInfo s _ (hvalid name (by simp)) hw hstat heq).2
          rw [hdir.2] at hp
          simp [Status.isPlain, GoError.isPlain] at hp
        · simp only [Option.some.injEq] at h
          subst h
          exact stop _ (by simp) heq
      · rename_i r1 hnok _ heq
        simp only [Option.some.injEq] at h
        subst h
        refine stop _ ?_ heq
        intro h0
        exact hnok r1.2 (Prod.ext h0 rfl)

theorem recordedAt_fail (destPath src : String) (rel : List String) (s : WalkState) (st : Status)
    (s1 : WalkState) (hstep : Step s.world s1.world)
    (hscan : destPath = "" → SameButAtime s.world s1.world)
    (hb : s1.bucket = s.bucket) (hst : st ≠ .ok) :
    RecordedAt destPath src rel s (st, s1) :=
  ⟨hstep, hscan, [], [], by simp [hb], Recorded.nil _ _ _, Or.inl rfl, fun h => absurd h hst⟩

theorem walk_recorded (srcPath destPath : String) (hasher : Hasher) :
    ∀ (fuel : Nat) (rel : List String) (info : FileInfo) (s : WalkState) (r : Status × WalkState),
      (∀ c ∈ rel, validName c) → WF s.world →
      Lstat s.world (walkPath srcPath rel) = .ok info →
      walk (fillWalkFn srcPath destPath hasher) fuel (walkPath srcPath rel) info s = some r →
      RecordedAt destPath srcPath rel s r := by
  intro fuel
  induction fuel with
  | zero => intro rel info s r _ _ _ h; simp [walk] at h
  | succ fuel ih =>
    intro rel info s r hrel hw hstat h
    unfold walk at h
    have hfound : Found destPath srcPath s rel := ⟨s.world, info, Step.refl _, fun _ => rfl, hstat⟩
    obtain ⟨hstep, hscan, hplain, hok, hfail⟩ := fillWalkFn_facts srcPath destPath hasher
      (walkPath srcPath rel) (some info) none s (fun e1 h1 => by cases h1)
    split at h
    · rename_i e s1 heq
      rw [heq] at hstep hfail hscan hplain
      have hb := hfail (by simp)
      split at h
      · rename_i hdir
        rw [hdir.2] at hplain
        simp [Status.isPlain, GoError.isPlain] at hplain
      · simp only [Option.some.injEq] at h
        subst h
        exact recordedAt_fail destPath srcPath rel s _ s1 hstep hscan hb (by simp)
    · rename_i e s1 heq
      rw [heq] at hstep hfail hscan
      simp only [Option.some.injEq] at h
      subst h
      exact recordedAt_fail destPath srcPath rel s _ s1 hstep hscan (hfail (by simp)) (by simp)
    · rename_i s1 heq
      rw [heq] at hstep hok hscan
      obtain ⟨rec, hb, hname⟩ := hok rfl
      have hw1 : WF s1.world := hstep.wf hw
      simp only at hb hw1 hstep hscan
      have hrecd : Recorded destPath srcPath s [rec] [rel] := by
        refine ⟨by simp [hname, recordedName], ?_, List.pairwise_singleton _ _⟩
        intro x hx
        simp only [List.mem_singleton] at hx
        subst hx
        exact ⟨hrel, hfound⟩
      split at h
      · rename_i hnd
        simp only [Option.some.injEq] at h
        subst h
        refine ⟨hstep, hscan, [rec], [rel], hb, hrecd, Or.inr ⟨[], rfl, by simp⟩,
          fun _ => ⟨by simp, ?_⟩⟩
        intro x hx
        simp only [List.mem_singleton] at hx
        subst hx
        refine ⟨s.world, s.world, info, Step.refl _, Step.refl _, fun _ => ⟨rfl, rfl⟩, hstat, ?_⟩
        intro hd
        rw [hd] at hnd
        simp at hnd
      · split at h
        · rename_i e he
          rw [fillWalkFn_err] at h
          simp only [Option.some.injEq] at h
          subst h
          exact ⟨hstep, hscan, [rec], [rel], hb, hrecd, Or.inr ⟨[], rfl, by simp⟩,
            fun h0 => by simp at h0⟩
        · rename_i names hnames
          obtain ⟨hsorted, hvalid⟩ := readDirNames_sorted s1.world hw1 _ names hnames
          have hrec : ∀ name fi s2 r2, validName name → WF s2.world →
              Lstat s2.world (walkPath srcPath (rel ++ [name])) = .ok fi →
              (fun p fi st => walk (fillWalkFn srcPath destPath hasher) fuel p fi st)
                (walkPath srcPath (rel ++ [name])) fi s2 = some r2 →
              RecordedAt destPath srcPath (rel ++ [name]) s2 r2 ∧ r2.1.isPlain = true := by
            intro name fi s2 r2 hn hw2 hst2 h2
            refine ⟨ih (rel ++ [name]) fi s2 r2 ?_ hw2 hst2 h2,
              (walk_runFacts srcPath destPath hasher fuel _ fi s2 r2 h2).2.2.1⟩
            intro c hc
            rcases List.mem_append.mp hc with hc | hc
            · exact hrel c hc
            · simp only [List.mem_singleton] at hc
              exact hc ▸ hn
          have hstepA : Step s.world (s1.world.accessed true (walkPath srcPath rel)) :=
            Step.trans hstep (accessed_step _ _ _)
          have hscanA : destPath = "" →
              SameButAtime s.world (s1.world.accessed true (walkPath srcPath rel)) :=
            fun hd => sameButAtime_trans (hscan hd) (accessed_same _ _ _)
          obtain ⟨hs2, hc2, new2, rels2, hb2, ⟨hn2, hv2, hp2⟩, hbelow, hok2⟩ :=
            walkNames_recorded srcPath destPath hasher _ rel hrec names
              { s1 with world := s1.world.accessed true (walkPath srcPath rel) } r
              ((accessed_step _ _ _).wf hw1) hsorted hvalid h
          simp only at hs2 hc2 hb2
          refine ⟨Step.trans hstepA hs2, fun hd => sameButAtime_trans (hscanA hd) (hc2 hd),
            rec :: new2, rel :: rels2, ?_, ⟨?_, ?_, ?_⟩, Or.inr ⟨rels2, rfl, ?_⟩,
            fun hr => ⟨by simp, ?_⟩⟩
          · rw [hb2, hb]; simp
          · simp [hname, hn2, recordedName]
          · intro x hx
            rcases List.mem_cons.mp hx with hx | hx
            · subst hx
              exact ⟨hrel, hfound⟩
            · exact ⟨(hv2 x hx).1, (hv2 x hx).2.liftFound hstepA hscanA⟩
          · rw [List.pairwise_cons]
            refine ⟨?_, hp2⟩
            intro x hx
            obtain ⟨n, _, hp⟩ := hbelow x hx
            exact lex_of_prefix_snoc nameLt rel n x hp
          · intro x hx
            obtain ⟨n, _, hp⟩ := hbelow x hx
            exact ⟨n, hp⟩
          · obtain ⟨hall, hl2⟩ := hok2 hr
            intro x hx
            rcases List.mem_cons.mp hx with hx | hx
            · subst hx
              by_cases hd : destPath = ""
              · exact ⟨s.world, s.world, info, Step.refl _, Step.refl _, fun _ => ⟨rfl, rfl⟩,
                  hstat, fun _ => ⟨names, readDirNames_same (sameButAtime_symm (hscan hd)) hnames,
                    fun n hn => List.mem_cons_of_mem _ (hall n hn)⟩⟩
              · exact ⟨s.world, s1.world, info, Step.refl _, hstep, fun h0 => absurd h0 hd,
                  hstat, fun _ => ⟨names, hnames, fun n hn => List.mem_cons_of_mem _ (hall n hn)⟩⟩
            · exact ((hl2 x hx).mono (fun y hy => List.mem_cons_of_mem _ hy)).liftListed
                hstepA hscanA

/-- The records a run of `FillBucket` adds, whatever its outcome: the names
are those of entry paths below the source that `lstat` found, the source
itself first, in strictly ascending lexicographic order of their components;
on success every entry of every recorded directory is recorded. -/
theorem FillBucket_recorded (fuel : Nat) (srcPath destPath : String) (hasher : Hasher)
    (s : WalkState) (r : Status × WalkState) (hw : WF s.world)
    (h : FillBucket fuel srcPath destPath hasher s = some r) :
    RecordedAt destPath srcPath [] s r := by
  unfold FillBucket Walk at h
  split at h
  · rw [fillWalkFn_err] at h
    simp only [Option.some.injEq] at h
    subst h
    exact recordedAt_fail destPath srcPath [] s _ s (Step.refl _) (fun _ => sameButAtime_refl _)
      rfl (by simp)
  · rename_i info hstat
    exact walk_recorded srcPath destPath hasher fuel [] _ s r (by simp) hw hstat h

theorem slashPath_nil : slashPath [] = "" := rfl

/-- Below a clean source path other than `/` and `.`, the path of the node
reached through the entries `rel` is the source path followed by `/name` for
each entry. -/
theorem walkPath_clean (src : String) (hc : Clean src = src) (h1 : src ≠ "/") (h2 : src ≠ ".")
    (rel : List String) (hrel : ∀ c ∈ rel, validName c) :
    walkPath src rel = src ++ slashPath rel := by
  induction rel using List.reverseRecOn with
  | nil => simp [walkPath, slashPath_nil]
  | append_singleton rel name ih =>
    rw [← walkPath_snoc, ih (fun c hc => hrel c (List.mem_append_left _ hc))]
    exact Join_walk src hc h1 h2 rel name hrel

theorem recordedName_clean (src : String) (hc : Clean src = src) (h1 : src ≠ "/") (h2 : src ≠ ".")
    (rel : List String) (hrel : ∀ c ∈ rel, validName c) :
    recordedName src rel = "." ++ slashPath rel := by
  rw [recordedName, walkPath_clean src hc h1 h2 rel hrel, TrimPrefixStr_append]

theorem fixtureWorld_wf : WF fixtureWorld := by
  unfold WF validName
  decide

/-- C4: the records a run of `FillBucket` adds to the bucket (whatever its
outcome, with or without a destination) are those of nodes that `lstat` found
under the directory-entry paths `rels` below the source, and these paths are
recorded in strictly ascending lexicographic order of their components, names
compared byte-wise: a directory comes before everything beneath it, and the
entries of a directory come in ascending order of their names, each followed
by its whole subtree. On success the root comes first and every name in the
listing of every recorded directory is recorded too. -/
theorem FillBucket_records_depth_first (fuel : Nat) (srcPath destPath : String) (hasher : Hasher)
    (s : WalkState) (r : Status × WalkState) (hw : WF s.world)
    (h : FillBucket fuel srcPath destPath hasher s = some r) :
    ∃ (new : List Record) (rels : List (List String)), r.2.bucket = s.bucket ++ new
      ∧ new.map (fun x => x.metadata.Name) = rels.map (recordedName srcPath)
      ∧ rels.Pairwise (List.Lex nameLt)
      ∧ (∀ x ∈ rels, Found destPath srcPath s x)
      ∧ (r.1 = .ok → rels.head? = some [] ∧ ∀ x ∈ rels, Listed destPath srcPath s rels x) := by
  obtain ⟨_, _, new, rels, hb, ⟨hn, hv, hp⟩, hhead, hok⟩ :=
    FillBucket_recorded fuel srcPath destPath hasher s r hw h
  refine ⟨new, rels, hb, hn, hp, fun x hx => (hv x hx).2, fun h1 => ⟨?_, (hok h1).2⟩⟩
  rcases hhead with h0 | ⟨t, ht, _⟩
  · exact absurd h0 (hok h1).1
  · rw [ht]; rfl

/-- Witness for `FillBucket_records_depth_first`: the copy of the test tree. -/
theorem FillBucket_records_depth_first_witness :
    WF fixtureWorld
    ∧ FillBucket 4 "/tmp/src" "/tmp/dest" idHasher ⟨fixtureWorld, []⟩ = some (.ok, fixtureCopied)
    ∧ ∃ (new : List Record) (rels : List (List String)), fixtureCopied.bucket = [] ++ new
      ∧ new.map (fun x => x.metadata.Name) = rels.map (recordedName "/tmp/src")
      ∧ rels.Pairwise (List.Lex nameLt)
      ∧ (∀ x ∈ rels, Found "/tmp/dest" "/tmp/src" ⟨fixtureWorld, []⟩ x)
      ∧ ((Status.ok = .ok) → rels.head? = some [] ∧
          ∀ x ∈ rels, Listed "/tmp/dest" "/tmp/src" ⟨fixtureWorld, []⟩ rels x) :=
  ⟨fixtureWorld_wf, rfl, FillBucket_records_depth_first 4 "/tmp/src" "/tmp/dest" idHasher
    ⟨fixtureWorld, []⟩ (.ok, fixtureCopied) fixtureWorld_wf rfl⟩

/-- C5: `FillBucket("/tmp/src", "", bucket, hasher)` on the test tree succeeds
and records the root under the name "." and the nodes below it under "./a",
"./b", "./b/c": every name is "." followed by the path with the source prefix
trimmed (walker.go line 20). The claim, and the comment in the directory case
of the walk function ("it's just path="" right now"), have the root under
the empty name "" and the other nodes under "a", "b", "b/c". -/
theorem fixture_scan_names :
    (FillBucket 4 "/tmp/src" "" idHasher ⟨fixtureWorld, []⟩).map
        (fun r => (r.1, r.2.bucket.map (fun x => x.metadata.Name)))
      = some (.ok, [".", "./a", "./b", "./b/c"]) := by
  rfl

/-! ## Copying never overwrites (C12), scanning never writes (C13), links (C11) -/

theorem fillWalkFn_onDir (srcPath destPath : String) (hasher : Hasher) (path0 : String)
    (n : Inode) (hk : n.kind = .dir) (s : WalkState) :
    fillWalkFn srcPath destPath hasher path0 (some n.info) none s
      = fillDir destPath ("." ++ TrimPrefixStr path0 srcPath) n.info s := by
  have h31 := fileMode_testBit n 31 (by simp)
  simp only [fillWalkFn, Inode.info, ModeDir, and_two_pow_eq_iff, h31, hk, typeBits,
    Nat.testBit_two_pow_self, if_true]

theorem fileMode_and_ModeType (n : Inode) (d : List Nat) (hk : n.kind = .file d) :
    n.fileMode &&& ModeType = 0 := by
  apply Nat.eq_of_testBit_eq
  intro j
  rw [Nat.testBit_and, Nat.zero_testBit]
  by_cases h : j = 31 ∨ j = 27 ∨ j = 26 ∨ j = 25 ∨ j = 24
  · have h1 := fileMode_testBit n j (by omega)
    rw [h1, hk]
    simp [typeBits]
  · have h2 : ModeType.testBit j = false := by
      simp only [ModeType, ModeDir, ModeSymlink, ModeNamedPipe, ModeSocket, ModeDevice,
        Nat.testBit_or, Nat.testBit_two_pow]
      simp
      omega
    simp [h2]

theorem fillWalkFn_onFile (srcPath destPath : String) (hasher : Hasher) (path0 : String)
    (n : Inode) (d : List Nat) (hk : n.kind = .file d) (s : WalkState) :
    fillWalkFn srcPath destPath hasher path0 (some n.info) none s
      = fillRegular srcPath destPath hasher ("." ++ TrimPrefixStr path0 srcPath) n.info s := by
  have hb := fun i hi => fileMode_testBit n i hi
  have h31 := hb 31 (by simp)
  have h27 := hb 27 (by simp)
  have h26 := hb 26 (by simp)
  have h25 := hb 25 (by simp)
  have h24 := hb 24 (by simp)
  have h21 := hb 21 (by simp)
  have h0 := fileMode_and_ModeType n d hk
  simp only [fillWalkFn, Inode.info, h0, if_true]
  simp only [ModeDir, ModeSymlink, ModeNamedPipe, ModeSocket, ModeDevice,
    ModeCharDevice, and_two_pow_eq_iff, h31, h27, h26, h25, h24, h21, hk, typeBits,
    Nat.zero_testBit]
  simp

/-- The walk function on a directory or regular file whose destination name
is taken: the call fails and nothing changes. -/
theorem fillWalkFn_exists (srcPath destPath : String) (hasher : Hasher) (path0 : String)
    (src : Inode) (s : WalkState) (key : List String) (n : Inode) (hd : destPath ≠ "")
    (hk : src.kind = .dir ∨ ∃ d, src.kind = .file d)
    (hres : resolve s.world false (Join destPath ("." ++ TrimPrefixStr path0 srcPath)) = .ok key)
    (hn : s.world.node key = some n) :
    ∃ e, e.isPlain = true ∧
      fillWalkFn srcPath destPath hasher path0 (some src.info) none s = (.err e, s) := by
  rcases hk with hk | ⟨d, hk⟩
  · rw [fillWalkFn_onDir _ _ _ _ _ hk]
    unfold fillDir
    simp only
    split
    · rename_i e he
      exact ⟨e, FileInfoHeader_error he, rfl⟩
    · simp only [ne_eq, hd, not_false_eq_true, if_true]
      have hm : Mkdir s.world (Join destPath ("." ++ TrimPrefixStr path0 srcPath))
          (src.info.mode &&& ModePerm)
          = .error (.pathError "mkdir" (Join destPath ("." ++ TrimPrefixStr path0 srcPath)) .EEXIST) := by
        simp only [Mkdir, hres, hn]
      rw [hm]
      exact ⟨.pathError "mkdir" _ .EEXIST, rfl, rfl⟩
  · rw [fillWalkFn_onFile _ _ _ _ _ d hk]
    unfold fillRegular
    simp only
    split
    · rename_i e he
      exact ⟨e, OpenFileRead_error he, rfl⟩
    · simp only [ne_eq, hd, not_false_eq_true, if_true]
      have hm : OpenFileCreateExcl s.world (Join destPath ("." ++ TrimPrefixStr path0 srcPath))
          (src.info.mode &&& ModePerm)
          = .error (.pathError "open" (Join destPath ("." ++ TrimPrefixStr path0 srcPath)) .EEXIST) := by
        simp only [OpenFileCreateExcl, hres, hn]
      rw [hm]
      exact ⟨.pathError "open" _ .EEXIST, rfl, rfl⟩

theorem walk_of_err (fn : WalkFunc) (fuel : Nat) (path : String) (info : FileInfo)
    (s s1 : WalkState) (e : GoError) (he : e.isPlain = true)
    (h : fn path (some info) none s = (.err e, s1)) :
    walk fn (fuel + 1) path info s = some (.err e, s1) := by
  unfold walk
  rw [h]
  have : e ≠ .skipDir := by intro h1; subst h1; simp [GoError.isPlain] at he
  simp [this]

theorem TrimPrefixStr_self (s : String) : TrimPrefixStr s s = "" := by
  have h := TrimPrefixStr_append s ""
  rwa [String.append_empty] at h

/-- C11 (as stated, refuted): the source `/src` holds the link `l` with target
`../dest/l` and the process runs in `/src`. The copy to `/dest` succeeds, and
`/dest/l` is then a link whose target is the string `/dest/l`, not the
target of the source link. With the target `x` instead, the copy fails when
it stamps the times, nothing exists at `/dest/l`, and a link to `/dest/l`
has appeared at `/src/x`, the place the target names. -/
theorem symlink_copy_swaps_name_and_target :
    (linkWorld.node ["src", "l"]).map Inode.kind = some (.symlink "../dest/l")
    ∧ (FillBucket 2 "/src" "/dest" idHasher ⟨linkWorld, []⟩).map
        (fun r => (r.1, (r.2.world.node ["dest", "l"]).map Inode.kind))
      = some (.ok, some (.symlink "/dest/l"))
    ∧ (FillBucket 2 "/src" "/dest" idHasher ⟨strayWorld, []⟩).map
        (fun r => (r.1, (r.2.world.node ["dest", "l"]).map Inode.kind,
          (r.2.world.node ["src", "x"]).map Inode.kind))
      = some (.err (.pathError "utimensat" "/dest/l" .ENOENT), none, some (.symlink "/dest/l")) := by
  refine ⟨?_, ?_, ?_⟩ <;> rfl

/-- C12: copying never overwrites. Whatever `FillBucket` returns, every node
that was on disk before the call is still there with the content,
permissions and owner it had. And when the walk reaches a directory or
regular file whose destination name `Join destPath path` already exists, the
walk function changes nothing and returns an error, which ends the walk of
that node, the loop over the directory that holds it, and (for the root)
`FillBucket` itself, all in the unchanged state. -/
theorem FillBucket_never_overwrites (srcPath destPath : String) (hasher : Hasher)
    (hd : destPath ≠ "") :
    (∀ fuel s r, FillBucket fuel srcPath destPath hasher s = some r →
        ContentKept s.world r.2.world)
    ∧ (∀ (s : WalkState) (path0 : String) (src : Inode) (key : List String) (n : Inode),
        (src.kind = .dir ∨ ∃ d, src.kind = .file d) →
        resolve s.world false (Join destPath ("." ++ TrimPrefixStr path0 srcPath)) = .ok key →
        s.world.node key = some n →
        ∃ e, e.isPlain = true
          ∧ fillWalkFn srcPath destPath hasher path0 (some src.info) none s = (.err e, s)
          ∧ (∀ fuel, walk (fillWalkFn srcPath destPath hasher) (fuel + 1) path0 src.info s
              = some (.err e, s))
          ∧ (∀ fuel dir name rest, path0 = Join dir name → Lstat s.world path0 = .ok src.info →
              walkNames (fun p fi st => walk (fillWalkFn srcPath destPath hasher) (fuel + 1) p fi st)
                (fillWalkFn srcPath destPath hasher) dir (name :: rest) s = some (.err e, s)))
    ∧ (∀ (s : WalkState) (src : Inode) (key : List String) (n : Inode) (fuel : Nat),
        Lstat s.world srcPath = .ok src.info →
        (src.kind = .dir ∨ ∃ d, src.kind = .file d) →
        resolve s.world false (Join destPath ".") = .ok key →
        s.world.node key = some n →
        ∃ e, e.isPlain = true
          ∧ FillBucket (fuel + 1) srcPath destPath hasher s = some (.err e, s)) := by
  refine ⟨fun fuel s r h => FillBucket_kept fuel srcPath destPath hasher s r h, ?_, ?_⟩
  · intro s path0 src key n hk hres hn
    obtain ⟨e, he, hcall⟩ := fillWalkFn_exists srcPath destPath hasher path0 src s key n hd hk hres hn
    have hwalk := fun fuel => walk_of_err (fillWalkFn srcPath destPath hasher) fuel path0 src.info
      s s e he hcall
    refine ⟨e, he, hcall, hwalk, ?_⟩
    intro fuel dir name rest hp hl
    subst hp
    have hne : e ≠ .skipDir := by intro h1; subst h1; simp [GoError.isPlain] at he
    unfold walkNames
    simp only [hl, hwalk fuel, hne, and_false, if_false]
  · intro s src key n fuel hl hk hres hn
    have hres1 : resolve s.world false (Join destPath ("." ++ TrimPrefixStr srcPath srcPath))
        = .ok key := by
      rw [TrimPrefixStr_self, String.append_empty]
      exact hres
    obtain ⟨e, he, hcall⟩ := fillWalkFn_exists srcPath destPath hasher srcPath src s key n hd hk
      hres1 hn
    refine ⟨e, he, ?_⟩
    unfold FillBucket Walk
    simp only [hl]
    exact walk_of_err _ fuel srcPath src.info s s e he hcall

/-- Witness for `FillBucket_never_overwrites`: copying the test tree onto its
own directory `a`, which exists. -/
theorem FillBucket_never_overwrites_witness :
    "/tmp/src/a" ≠ ""
    ∧ ∃ e, e.isPlain = true
      ∧ FillBucket 1 "/tmp/src" "/tmp/src/a" idHasher ⟨fixtureWorld, []⟩
        = some (.err e, ⟨fixtureWorld, []⟩) :=
  ⟨by decide, (FillBucket_never_overwrites "/tmp/src" "/tmp/src/a" idHasher (by decide)).2.2
    ⟨fixtureWorld, []⟩ (exNode .dir 0o755 10000 1000000002 1000000002000) ["tmp", "src", "a"]
    (exNode .dir 0o777 10000 3000000002 3000000002000) 0 rfl (Or.inl rfl) rfl rfl⟩

/-- C13 (as stated, refuted): the scan of the test tree (no destination)
succeeds, and afterwards the source directory, its directories `a` and `b`
and the file `b/c` carry the time of the scan as their access time, not the
access times they had: listing a directory and reading a file stamp it. The
machine is not exactly as it was. -/
theorem fixture_scan_moves_access_times :
    (FillBucket 4 "/tmp/src" "" idHasher ⟨fixtureWorld, []⟩).map
        (fun r => (r.1, [["tmp", "src"], ["tmp", "src", "a"], ["tmp", "src", "b"],
          ["tmp", "src", "b", "c"]].map (fun k => (r.2.world.node k).map Inode.atime)))
      = some (.ok, [some 9000000000000, some 9000000000000, some 9000000000000,
          some 9000000000000])
    ∧ [["tmp", "src"], ["tmp", "src", "a"], ["tmp", "src", "b"],
          ["tmp", "src", "b", "c"]].map (fun k => (fixtureWorld.node k).map Inode.atime)
      = [some 1000000002, some 3000000002, some 5000000002, some 7000000002]
    ∧ (FillBucket 4 "/tmp/src" "" idHasher ⟨fixtureWorld, []⟩).map
        (fun r => decide (r.2.world = fixtureWorld)) = some false := by
  refine ⟨?_, ?_, ?_⟩ <;> rfl

/-- C13 (amended): scanning writes nothing. Whatever `FillBucket` returns when
called without a destination, the machine differs from the one at the call
in access times at most: the same names in the same order (nothing made,
nothing removed), under every name the same node with its type, content or
link target, permissions, owner, modification time and change time, and the
same clock, which every `mkdir`, `symlink`, file creation, write and `utimes`
advances. -/
theorem scan_changes_access_times_only (fuel : Nat) (srcPath : String) (hasher : Hasher)
    (s : WalkState) (r : Status × WalkState)
    (h : FillBucket fuel srcPath "" hasher s = some r) : SameButAtime s.world r.2.world :=
  (FillBucket_runFacts fuel srcPath "" hasher s r h).2.1 rfl

/-- Witness for `scan_changes_access_times_only`: the scan of the test tree. -/
theorem scan_changes_access_times_only_witness :
    FillBucket 4 "/tmp/src" "" idHasher ⟨fixtureWorld, []⟩ = some (.ok, fixtureScanned)
    ∧ SameButAtime fixtureWorld fixtureScanned.world :=
  ⟨rfl, scan_changes_access_times_only 4 "/tmp/src" idHasher ⟨fixtureWorld, []⟩
    (.ok, fixtureScanned) rfl⟩

/-! ## The git transmat -/

theorem pingSilos_first (env : GitEnv) (uri : String) (after : List String) :
    ∀ (before : List String) (events : List GitEvent),
      (∀ pre b post, before = pre ++ b :: post →
        env.Ping (events ++ pre.map GitEvent.ping) b ≠ none) →
      env.Ping (events ++ before.map GitEvent.ping) uri = none →
      pingSilos env (before ++ uri :: after) events
        = (some uri, events ++ (before.map GitEvent.ping ++ [.ping uri])) := by
  intro before
  induction before with
  | nil =>
    intro events _ hpong
    simp only [List.map_nil, List.append_nil] at hpong
    simp [pingSilos, hpong]
  | cons b bs ih =>
    intro events hfail hpong
    have h0 := hfail [] b bs rfl
    simp only [List.map_nil, List.append_nil] at h0
    obtain ⟨reason, hr⟩ := Option.ne_none_iff_exists'.mp h0
    have step := ih (events ++ [GitEvent.ping b])
      (by
        intro pre c post hsplit
        have := hfail (b :: pre) c post (by rw [hsplit]; rfl)
        simpa using this)
      (by simpa using hpong)
    simp only [List.cons_append, pingSilos, hr]
    simpa using step

theorem pingSilos_none (env : GitEnv) :
    ∀ (silos : List String) (events : List GitEvent),
      (∀ pre b post, silos = pre ++ b :: post →
        env.Ping (events ++ pre.map GitEvent.ping) b ≠ none) →
      pingSilos env silos events = (none, events ++ silos.map GitEvent.ping) := by
  intro silos
  induction silos with
  | nil => intro events _; simp [pingSilos]
  | cons b bs ih =>
    intro events hfail
    have h0 := hfail [] b bs rfl
    simp only [List.map_nil, List.append_nil] at h0
    obtain ⟨reason, hr⟩ := Option.ne_none_iff_exists'.mp h0
    have step := ih (events ++ [GitEvent.ping b])
      (by
        intro pre c post hsplit
        have := hfail (b :: pre) c post (by rw [hsplit]; rfl)
        simpa using this)
    simp only [pingSilos, hr]
    simpa using step

theorem MustBeType_same (k : String) : MustBeType k k = none := by
  simp [MustBeType]

/-- C14: `GitTransmat.Scan` is unsupported. For every kind, subject path, silo
list and option list the call panics with the configuration-validation error
"saving with the git transmat is not supported"; it never returns a commit
id. -/
theorem Scan_always_rejects (t : GitTransmat) (kind subjectPath : String)
    (siloURIs : List String) (options : List MaterializerConfigurer) :
    t.Scan kind subjectPath siloURIs options
        = .panicked (.ErrConfigValidation "saving with the git transmat is not supported")
    ∧ ∀ id, t.Scan kind subjectPath siloURIs options ≠ .returned id := by
  refine ⟨rfl, ?_⟩
  intro id h
  cases h

/-- C15: when the commit is not cached and the silo list is
`before ++ uri :: after`, where every silo of `before` fails its ping and
`uri` answers, `Materialize` pings exactly the silos of `before` and then
`uri`, in list order, pings no silo of `after`, and fetches from the
warehouse of `uri`: fetch and checkout run once, for `uri`, and decide the
outcome. -/
theorem Materialize_takes_first_responding_silo (t : GitTransmat) (env : GitEnv)
    (kind dataHash : String) (before : List String) (uri : String) (after : List String)
    (options : List MaterializerConfigurer) (s : GitState)
    (hkind : kind = GitKind)
    (hmiss : ∃ e, Stat s.world (t.workArea.getFullchFinalPath dataHash) = .error e)
    (hfail : ∀ pre b post, before = pre ++ b :: post →
      env.Ping (s.events ++ [.gitVersion] ++ pre.map GitEvent.ping) b ≠ none)
    (hpong : env.Ping (s.events ++ [.gitVersion] ++ before.map GitEvent.ping) uri = none) :
    (t.Materialize env kind dataHash (before ++ uri :: after) options s).1.events
        = s.events ++ [.gitVersion] ++ (before.map GitEvent.ping ++ [.ping uri])
            ++ [.provision uri dataHash]
    ∧ (t.Materialize env kind dataHash (before ++ uri :: after) options s).1.world
        = (env.provision s.world t.workArea uri dataHash).1
    ∧ (t.Materialize env kind dataHash (before ++ uri :: after) options s).2
        = (match (env.provision s.world t.workArea uri dataHash).2 with
          | some e => .panicked (TryPlanWhitelist e)
          | none => .returned { workDirPath := t.workArea.getFullchFinalPath dataHash,
                                hash := dataHash }) := by
  obtain ⟨e, he⟩ := hmiss
  subst hkind
  have hlen : ¬ (before ++ uri :: after).length < 1 := by simp
  have hp := pingSilos_first env uri after before (s.events ++ [.gitVersion]) hfail hpong
  unfold GitTransmat.Materialize
  simp only [MustBeType_same, he, hlen, if_false, hp]
  cases hprov : env.provision s.world t.workArea uri dataHash with
  | mk w1 res =>
    cases res <;> simp

/-- C16: when the commit is not cached and no silo answers its ping (the
empty silo list included), `Materialize` panics with
`ErrWarehouseUnavailable`, `During` "fetch". Every silo was pinged, nothing
was fetched or checked out, and the disk is as it was. -/
theorem Materialize_without_warehouse (t : GitTransmat) (env : GitEnv)
    (kind dataHash : String) (siloURIs : List String)
    (options : List MaterializerConfigurer) (s : GitState)
    (hkind : kind = GitKind)
    (hmiss : ∃ e, Stat s.world (t.workArea.getFullchFinalPath dataHash) = .error e)
    (hfail : ∀ pre b post, siloURIs = pre ++ b :: post →
      env.Ping (s.events ++ [.gitVersion] ++ pre.map GitEvent.ping) b ≠ none) :
    t.Materialize env kind dataHash siloURIs options s
      = ({ world := s.world,
           events := s.events ++ [.gitVersion] ++ siloURIs.map GitEvent.ping },
         .panicked (.ErrWarehouseUnavailable
           (if siloURIs = [] then "No warehouse coords configured!"
            else "No warehouses responded!") "fetch")) := by
  obtain ⟨e, he⟩ := hmiss
  subst hkind
  unfold GitTransmat.Materialize
  simp only [MustBeType_same, he]
  cases siloURIs with
  | nil => simp [TryPlanWhitelist]
  | cons b bs =>
    have hp := pingSilos_none env (b :: bs) (s.events ++ [.gitVersion]) hfail
    simp [hp, TryPlanWhitelist]

/-- C17: when the final full-checkout path of the commit exists, `Materialize`
called with kind "git" returns at once an arena whose path is that
directory and whose hash is the commit; no silo is pinged, nothing is
fetched or checked out, the disk is unchanged, whatever the silo list. -/
theorem Materialize_cached_short_circuit (t : GitTransmat) (env : GitEnv)
    (dataHash : String) (siloURIs : List String) (options : List MaterializerConfigurer)
    (s : GitState) (fi : FileInfo)
    (hhit : Stat s.world (t.workArea.getFullchFinalPath dataHash) = .ok fi) :
    ∃ arena, t.Materialize env "git" dataHash siloURIs options s = (s, .returned arena)
      ∧ arena.Path = t.workArea.getFullchFinalPath dataHash ∧ arena.Hash = dataHash := by
  refine ⟨{ workDirPath := t.workArea.getFullchFinalPath dataHash, hash := dataHash }, ?_, rfl, rfl⟩
  unfold GitTransmat.Materialize
  have hk : MustBeType GitKind "git" = none := MustBeType_same _
  simp only [hk, hhit]

/-- Witness for `Materialize_takes_first_responding_silo`: the silos
`[good, bad]` and a commit that is not cached; `bad` is never pinged. -/
theorem Materialize_takes_first_responding_silo_witness :
    (∃ e, Stat gitWorld (gitTransmat.workArea.getFullchFinalPath "def") = .error e)
    ∧ gitEnv.Ping [.gitVersion] "good" = none
    ∧ (gitTransmat.Materialize gitEnv "git" "def" ["good", "bad"] [] ⟨gitWorld, []⟩).1.events
        = [.gitVersion, .ping "good", .provision "good" "def"]
    ∧ (gitTransmat.Materialize gitEnv "git" "def" ["good", "bad"] [] ⟨gitWorld, []⟩).1.world
        = gitWorld
    ∧ (gitTransmat.Materialize gitEnv "git" "def" ["good", "bad"] [] ⟨gitWorld, []⟩).2
        = .returned { workDirPath := "/work/full/def", hash := "def" } :=
  ⟨⟨_, rfl⟩, rfl,
    Materialize_takes_first_responding_silo gitTransmat gitEnv "git" "def" [] "good" ["bad"] []
      ⟨gitWorld, []⟩ rfl ⟨_, rfl⟩ (fun pre b post h => by cases pre <;> cases h) rfl⟩

/-- Witness for `Materialize_without_warehouse`: the silos `[bad, worse]`. -/
theorem Materialize_without_warehouse_witness :
    (∃ e, Stat gitWorld (gitTransmat.workArea.getFullchFinalPath "def") = .error e)
    ∧ gitTransmat.Materialize gitEnv "git" "def" ["bad", "worse"] [] ⟨gitWorld, []⟩
      = (⟨gitWorld, [.gitVersion, .ping "bad", .ping "worse"]⟩,
         .panicked (.ErrWarehouseUnavailable "No warehouses responded!" "fetch")) :=
  ⟨⟨_, rfl⟩,
    Materialize_without_warehouse gitTransmat gitEnv "git" "def" ["bad", "worse"] []
      ⟨gitWorld, []⟩ rfl ⟨_, rfl⟩ (fun pre b post h => by
        have hb : b ∈ ["bad", "worse"] := by rw [h]; simp
        simp only [List.mem_cons, List.mem_singleton, List.not_mem_nil, or_false] at hb
        rcases hb with hb | hb <;> subst hb <;> simp [gitEnv])⟩

/-- Witness for `Materialize_cached_short_circuit`: the cached commit `abc`
and no silo at all. -/
theorem Materialize_cached_short_circuit_witness :
    Stat gitWorld (gitTransmat.workArea.getFullchFinalPath "abc") = .ok (exNode .dir 0o755 0 5 5).info
    ∧ ∃ arena, gitTransmat.Materialize gitEnv "git" "abc" [] [] ⟨gitWorld, []⟩
        = (⟨gitWorld, []⟩, .returned arena)
      ∧ arena.Path = gitTransmat.workArea.getFullchFinalPath "abc" ∧ arena.Hash = "abc" :=
  ⟨rfl, Materialize_cached_short_circuit gitTransmat gitEnv "abc" [] [] ⟨gitWorld, []⟩ _ rfl⟩

/-! ## Assembly parts, filter options, the environment slice -/

theorem bytesLt_append_right : ∀ (p q : List Char), q ≠ [] → bytesLt p (p ++ q) = true := by
  intro p
  induction p with
  | nil =>
    intro q hq
    cases q with
    | nil => exact absurd rfl hq
    | cons c q => rfl
  | cons a p ih =>
    intro q hq
    simp [bytesLt, ih q hq]

theorem bytesLt_of_properPrefixOf {p q : String} (h : properPrefixOf p q) :
    bytesLt p.data q.data = true := by
  obtain ⟨⟨t, ht⟩, hne⟩ := h
  rw [← ht]
  apply bytesLt_append_right
  intro h0
  subst h0
  apply hne
  apply String.ext
  simpa using ht

/-- C18: for two parts of a slice whose target paths are `p` and a proper
extension of `p`, `Less` puts the first before the second and never the
second before the first; so in a slice that `sort.Sort` has ordered by
`AssemblyPartsByPath`, the parent stands at the smaller index. -/
theorem Less_orders_parent_first (a : AssemblyPartsByPath) (i j : Nat) (x y : AssemblyPart)
    (hx : a[i]? = some x) (hy : a[j]? = some y)
    (hp : properPrefixOf x.TargetPath y.TargetPath) :
    a.Less i j = some true ∧ a.Less j i = some false ∧ (a.sorted → i < j) := by
  have hlt := bytesLt_of_properPrefixOf hp
  have hgt := bytesLt_asymm _ _ hlt
  have h1 : a.Less i j = some true := by simp [AssemblyPartsByPath.Less, hx, hy, hlt]
  refine ⟨h1, by simp [AssemblyPartsByPath.Less, hx, hy, hgt], ?_⟩
  intro hs
  by_contra hij
  have hle : j ≤ i := Nat.le_of_not_lt hij
  rcases Nat.lt_or_eq_of_le hle with hji | hji
  · have hi : i < a.Len := by
      obtain ⟨hi, _⟩ := List.getElem?_eq_some_iff.mp hx
      exact hi
    have := hs j i hji hi
    rw [h1] at this
    cases this
  · subst hji
    rw [hx] at hy
    cases hy
    exact hp.2 rfl

/-- Witness for `Less_orders_parent_first`: the mounts `/a` and `/a/b`. -/
theorem Less_orders_parent_first_witness :
    properPrefixOf "/a" "/a/b"
    ∧ mountParts.Less 0 1 = some true ∧ mountParts.Less 1 0 = some false
    ∧ (mountParts.sorted → 0 < 1) :=
  ⟨⟨⟨"/b".data, rfl⟩, by decide⟩,
    Less_orders_parent_first mountParts 0 1 ⟨"/a", "/x", false, false⟩
      ⟨"/a/b", "/y", true, false⟩ rfl rfl ⟨⟨"/b".data, rfl⟩, by decide⟩⟩

/-- C19: for a configuration whose three modes are each `FilterKeep` or
`FilterUse`, `ConvertFilterConfig` returns, in the order uid, gid, mtime,
one `UseFilter` configurer with the configured constant for each field whose
mode is `FilterUse` and none for a field whose mode is `FilterKeep`. No two
of the returned configurers filter the same field, and the result is empty
when all three modes are `FilterKeep`. -/
theorem ConvertFilterConfig_keep_or_use (conf : Filters)
    (hu : conf.UidMode = .FilterKeep ∨ conf.UidMode = .FilterUse)
    (hg : conf.GidMode = .FilterKeep ∨ conf.GidMode = .FilterUse)
    (hm : conf.MtimeMode = .FilterKeep ∨ conf.MtimeMode = .FilterUse) :
    ∃ opts, ConvertFilterConfig conf = .returned opts
      ∧ opts = (if conf.UidMode = .FilterUse then [.UseFilter (.UidFilter conf.Uid)] else [])
          ++ (if conf.GidMode = .FilterUse then [.UseFilter (.GidFilter conf.Gid)] else [])
          ++ (if conf.MtimeMode = .FilterUse then [.UseFilter (.MtimeFilter conf.Mtime)] else [])
      ∧ (opts.map MaterializerConfigurer.field).Nodup
      ∧ (∀ o ∈ opts, o.field ≠ none)
      ∧ (conf.UidMode = .FilterKeep → conf.GidMode = .FilterKeep →
          conf.MtimeMode = .FilterKeep → opts = []) := by
  obtain ⟨um, u, gm, g, mm, m⟩ := conf
  simp only at hu hg hm
  rcases hu with hu | hu <;> rcases hg with hg | hg <;> rcases hm with hm | hm <;>
    subst hu hg hm <;>
    simp [ConvertFilterConfig, filterSwitch, MaterializerConfigurer.field]

/-- Witness for `ConvertFilterConfig_keep_or_use`: uid and mtime are set, the
gid is kept. -/
theorem ConvertFilterConfig_keep_or_use_witness :
    ∃ opts, ConvertFilterConfig ⟨.FilterUse, 1000, .FilterKeep, 0, .FilterUse, 7⟩
        = .returned opts
      ∧ opts = [.UseFilter (.UidFilter 1000), .UseFilter (.MtimeFilter 7)]
      ∧ (opts.map MaterializerConfigurer.field).Nodup
      ∧ (∀ o ∈ opts, o.field ≠ none)
      ∧ ((FilterMode.FilterUse = FilterMode.FilterKeep) → (FilterMode.FilterKeep = .FilterKeep) →
          (FilterMode.FilterUse = FilterMode.FilterKeep) → opts = []) :=
  ConvertFilterConfig_keep_or_use ⟨.FilterUse, 1000, .FilterKeep, 0, .FilterUse, 7⟩
    (Or.inr rfl) (Or.inl rfl) (Or.inr rfl)

/-- The key–value pairs of `keys` laid out one after the other. -/
theorem fillSlots_eq (mp : Env) :
    ∀ (keys : List String) (pre rest : List String), rest.length = 2 * keys.length →
      fillSlots mp keys pre.length (pre ++ rest)
        = pre ++ keys.flatMap (fun k => [k, mp.get k]) := by
  intro keys
  induction keys with
  | nil =>
    intro pre rest hlen
    have : rest = [] := List.length_eq_zero.mp (by simpa using hlen)
    subst this
    simp [fillSlots]
  | cons k keys ih =>
    intro pre rest hlen
    match rest, hlen with
    | a :: b :: rest1, hlen =>
      have hl1 : rest1.length = 2 * keys.length := by
        simp only [List.length_cons] at hlen
        omega
      have hset : ((pre ++ a :: b :: rest1).set pre.length k).set (pre.length + 1) (mp.get k)
          = (pre ++ [k, mp.get k]) ++ rest1 := by
        rw [List.set_append_right _ _ (Nat.le_refl _)]
        simp only [Nat.sub_self, List.set_cons_zero]
        rw [List.set_append_right _ _ (Nat.le_succ _)]
        simp
      have hlen2 : (pre ++ [k, mp.get k]).length = pre.length + 2 := by simp
      simp only [fillSlots, hset]
      rw [← hlen2, ih (pre ++ [k, mp.get k]) rest1 hl1]
      simp

theorem sortStrings_perm (names : List String) : (sortStrings names).Perm names :=
  List.perm_insertionSort _ names

theorem asMappySlice_eq (mp : Env) :
    mp.asMappySlice
      = (sortStrings (mp.entries.map Prod.fst)).flatMap (fun k => [k, mp.get k]) := by
  unfold Env.asMappySlice
  have h := fillSlots_eq mp (sortStrings (mp.entries.map Prod.fst)) []
    (List.replicate (mp.entries.length * 2) "")
    (by rw [(sortStrings_perm _).length_eq]; simp [Nat.mul_comm])
  simpa using h

theorem pairs_getElem (f : String → String) :
    ∀ (keys : List String) (i : Nat) (k : String), keys[i]? = some k →
      (keys.flatMap (fun k => [k, f k]))[2 * i]? = some k
      ∧ (keys.flatMap (fun k => [k, f k]))[2 * i + 1]? = some (f k) := by
  intro keys
  induction keys with
  | nil => intro i k h; simp at h
  | cons a keys ih =>
    intro i k h
    cases i with
    | zero =>
      simp only [List.getElem?_cons_zero, Option.some.injEq] at h
      subst h
      simp
    | succ i =>
      simp only [List.getElem?_cons_succ] at h
      obtain ⟨h1, h2⟩ := ih i k h
      have e1 : 2 * (i + 1) = (2 * i) + 1 + 1 := by omega
      have e2 : 2 * (i + 1) + 1 = (2 * i + 1) + 1 + 1 := by omega
      simp only [List.flatMap_cons, List.cons_append, List.nil_append, e1, e2,
        List.getElem?_cons_succ]
      exact ⟨h1, h2⟩

theorem pairs_length (f : String → String) (keys : List String) :
    (keys.flatMap (fun k => [k, f k])).length = 2 * keys.length := by
  induction keys with
  | nil => rfl
  | cons a keys ih =>
    simp only [List.flatMap_cons, List.length_append, ih, List.length_cons, List.length_nil]
    omega

theorem lookup_of_mem_keys (l : List (String × String)) (k : String)
    (h : k ∈ l.map Prod.fst) : ∃ v, l.lookup k = some v ∧ (k, v) ∈ l := by
  induction l with
  | nil => simp at h
  | cons kv rest ih =>
    obtain ⟨k1, v1⟩ := kv
    by_cases hk : k = k1
    · subst hk
      exact ⟨v1, by simp [List.lookup_cons], by simp⟩
    · have hb : (k == k1) = false := by simpa using hk
      have hmem : k ∈ rest.map Prod.fst := by
        simp only [List.map_cons, List.mem_cons] at h
        rcases h with h | h
        · exact absurd h hk
        · exact h
      obtain ⟨v, hv, hin⟩ := ih hmem
      exact ⟨v, by simp [List.lookup_cons, hb, hv], List.mem_cons_of_mem _ hin⟩

theorem lookup_of_mem_nodup (l : List (String × String)) (hnd : (l.map Prod.fst).Nodup)
    (k v : String) (h : (k, v) ∈ l) : l.lookup k = some v := by
  induction l with
  | nil => simp at h
  | cons kv rest ih =>
    obtain ⟨k1, v1⟩ := kv
    simp only [List.map_cons, List.nodup_cons] at hnd
    simp only [List.mem_cons, Prod.mk.injEq] at h
    rcases h with ⟨h1, h2⟩ | h
    · subst h1 h2
      simp [List.lookup_cons]
    · have hk : k ≠ k1 := by
        intro hk
        subst hk
        exact hnd.1 (List.mem_map_of_mem Prod.fst h)
      have hb : (k == k1) = false := by simpa using hk
      simp [List.lookup_cons, hb, ih hnd.2 h]

theorem bytesLe_antisymm : IsAntisymm String (fun a b => bytesLe a.data b.data = true) where
  antisymm := by
    intro a b hab hba
    simp only [bytesLe, Bool.not_eq_true'] at hab hba
    rcases bytesLt_trichotomy a.data b.data with h | h | h
    · rw [h] at hba; cases hba
    · exact String.ext h
    · rw [h] at hab; cases hab

theorem sortStrings_congr {xs ys : List String} (h : xs.Perm ys) :
    sortStrings xs = sortStrings ys := by
  haveI := bytesLe_total
  haveI := bytesLe_trans
  haveI := bytesLe_antisymm
  apply List.eq_of_perm_of_sorted (r := fun a b => bytesLe a.data b.data = true)
  · exact (sortStrings_perm xs).trans (h.trans (sortStrings_perm ys).symm)
  · exact List.sorted_insertionSort _ xs
  · exact List.sorted_insertionSort _ ys

theorem Env.get_congr (mp mp2 : Env) (hv : mp.valid) (hperm : mp2.entries.Perm mp.entries)
    (k : String) (hk : k ∈ mp.entries.map Prod.fst) : mp2.get k = mp.get k := by
  have hv2 : mp2.valid := by
    unfold Env.valid at *
    exact (hperm.map Prod.fst).nodup_iff.mpr hv
  obtain ⟨v, _, hin⟩ := lookup_of_mem_keys mp.entries k hk
  have h1 := lookup_of_mem_nodup mp.entries hv k v hin
  have h2 := lookup_of_mem_nodup mp2.entries hv2 k v (hperm.symm.subset hin)
  simp [Env.get, h1, h2]

/-- C20: for a map (its keys pairwise distinct), `asMappySlice` returns a
slice of twice as many elements as the map has entries, made of the keys of
the map in strictly ascending byte-wise order, each at an even position and
followed by the value the map holds for it. The result is the same for
every order in which the map's entries are visited. -/
theorem asMappySlice_sorted_pairs (mp : Env) (hv : mp.valid) :
    ∃ keys : List String,
      keys.Perm (mp.entries.map Prod.fst) ∧ keys.Pairwise nameLt
      ∧ mp.asMappySlice.length = 2 * mp.entries.length
      ∧ (∀ i k, keys[i]? = some k →
          mp.asMappySlice[2 * i]? = some k ∧ mp.asMappySlice[2 * i + 1]? = some (mp.get k)
          ∧ (k, mp.get k) ∈ mp.entries)
      ∧ (∀ mp2 : Env, mp2.entries.Perm mp.entries → mp2.asMappySlice = mp.asMappySlice) := by
  refine ⟨sortStrings (mp.entries.map Prod.fst), sortStrings_perm _,
    (sortStrings_strict _ hv).1, ?_, ?_, ?_⟩
  · rw [asMappySlice_eq, pairs_length, (sortStrings_perm _).length_eq, List.length_map]
  · intro i k hk
    rw [asMappySlice_eq]
    obtain ⟨h1, h2⟩ := pairs_getElem mp.get _ i k hk
    refine ⟨h1, h2, ?_⟩
    have hmem : k ∈ mp.entries.map Prod.fst :=
      (sortStrings_perm _).subset (List.mem_iff_getElem?.mpr ⟨i, hk⟩)
    obtain ⟨v, hlk, hin⟩ := lookup_of_mem_keys mp.entries k hmem
    have : mp.get k = v := by simp [Env.get, hlk]
    rw [this]
    exact hin
  · intro mp2 hperm
    rw [asMappySlice_eq, asMappySlice_eq, sortStrings_congr (hperm.map Prod.fst)]
    apply List.flatMap_congr
    intro k hk
    have hmem : k ∈ mp.entries.map Prod.fst := (sortStrings_perm _).subset hk
    rw [Env.get_congr mp mp2 hv hperm k hmem]

/-- Witness for `asMappySlice_sorted_pairs`: a map visited in the order `b`,
`a`. -/
theorem asMappySlice_sorted_pairs_witness :
    Env.valid ⟨[("b", "2"), ("a", "1")]⟩
    ∧ Env.asMappySlice ⟨[("b", "2"), ("a", "1")]⟩ = ["a", "1", "b", "2"]
    ∧ ∃ keys : List String,
      keys.Perm (["b", "a"]) ∧ keys.Pairwise nameLt
      ∧ (Env.asMappySlice ⟨[("b", "2"), ("a", "1")]⟩).length = 2 * 2
      ∧ (∀ i k, keys[i]? = some k →
          (Env.asMappySlice ⟨[("b", "2"), ("a", "1")]⟩)[2 * i]? = some k
          ∧ (Env.asMappySlice ⟨[("b", "2"), ("a", "1")]⟩)[2 * i + 1]?
              = some (Env.get ⟨[("b", "2"), ("a", "1")]⟩ k)
          ∧ (k, Env.get ⟨[("b", "2"), ("a", "1")]⟩ k) ∈ [("b", "2"), ("a", "1")])
      ∧ (∀ mp2 : Env, mp2.entries.Perm [("b", "2"), ("a", "1")] →
          mp2.asMappySlice = Env.asMappySlice ⟨[("b", "2"), ("a", "1")]⟩) :=
  ⟨by simp [Env.valid], rfl,
    asMappySlice_sorted_pairs ⟨[("b", "2"), ("a", "1")]⟩ (by simp [Env.valid])⟩

/-! ## Mount groups: encoding and decoding (C21, C22, C27) -/

theorem sinkLeft_perm {α : Type} (less : α → α → Bool) (x : α) :
    ∀ left : List α, (sinkLeft less x left).Perm (x :: left) := by
  intro left
  induction left with
  | nil => exact List.Perm.refl _
  | cons y ys ih =>
    unfold sinkLeft
    split
    · exact ((ih.cons y).trans (List.Perm.swap x y ys))
    · exact List.Perm.refl _

theorem sinkLeft_sorted {α : Type} (less : α → α → Bool)
    (hasymm : ∀ a b, less a b = true → less b a = false)
    (htrans : ∀ a b c, less a b = false → less b c = false → less a c = false) (x : α) :
    ∀ left : List α, left.Pairwise (fun a b => less a b = false) →
      (sinkLeft less x left).Pairwise (fun a b => less a b = false) := by
  intro left
  induction left with
  | nil => intro _; simp [sinkLeft]
  | cons y ys ih =>
    intro h
    obtain ⟨hy, hys⟩ := List.pairwise_cons.mp h
    unfold sinkLeft
    split
    · rename_i hlt
      refine List.pairwise_cons.mpr ⟨?_, ih hys⟩
      intro z hz
      have hz1 : z ∈ x :: ys := (sinkLeft_perm less x ys).mem_iff.mp hz
      simp only [List.mem_cons] at hz1
      rcases hz1 with hz1 | hz1
      · subst hz1; exact hasymm _ _ hlt
      · exact hy z hz1
    · rename_i hge
      have hxy : less x y = false := by simpa using hge
      refine List.pairwise_cons.mpr ⟨?_, h⟩
      intro z hz
      simp only [List.mem_cons] at hz
      rcases hz with hz | hz
      · subst hz; exact hxy
      · exact htrans _ _ _ hxy (hy z hz)

theorem foldl_sinkLeft {α : Type} (less : α → α → Bool)
    (hasymm : ∀ a b, less a b = true → less b a = false)
    (htrans : ∀ a b c, less a b = false → less b c = false → less a c = false) :
    ∀ (l left : List α), left.Pairwise (fun a b => less a b = false) →
      (l.foldl (fun left x => sinkLeft less x left) left).Perm (l.reverse ++ left)
      ∧ (l.foldl (fun left x => sinkLeft less x left) left).Pairwise (fun a b => less a b = false) := by
  intro l
  induction l with
  | nil => intro left h; exact ⟨by simp, h⟩
  | cons x xs ih =>
    intro left h
    obtain ⟨hp, hs⟩ := ih (sinkLeft less x left) (sinkLeft_sorted less hasymm htrans x left h)
    refine ⟨?_, hs⟩
    simp only [List.foldl_cons, List.reverse_cons, List.append_assoc, List.singleton_append]
    exact hp.trans ((sinkLeft_perm less x left).append_left _)

/-- Go's insertion sort yields a permutation in which no element is `less`
than one before it. -/
theorem goInsertionSort_sorts {α : Type} (less : α → α → Bool)
    (hasymm : ∀ a b, less a b = true → less b a = false)
    (htrans : ∀ a b c, less a b = false → less b c = false → less a c = false) (l : List α) :
    (goInsertionSort less l).Perm l
    ∧ (goInsertionSort less l).Pairwise (fun a b => less b a = false) := by
  obtain ⟨hp, hs⟩ := foldl_sinkLeft less hasymm htrans l [] List.Pairwise.nil
  unfold goInsertionSort
  refine ⟨?_, List.pairwise_reverse.mpr hs⟩
  have h1 := (List.reverse_perm _).trans hp
  rw [List.append_nil] at h1
  exact h1.trans (List.reverse_perm l)

theorem Less_asymm (a b : Mount) (h : MountGroupByTargetPath.Less a b = true) :
    MountGroupByTargetPath.Less b a = false :=
  bytesLt_asymm _ _ h

theorem Less_negTrans (a b c : Mount) (h1 : MountGroupByTargetPath.Less a b = false)
    (h2 : MountGroupByTargetPath.Less b c = false) : MountGroupByTargetPath.Less a c = false := by
  unfold MountGroupByTargetPath.Less at *
  have ht := bytesLe_trans.trans c.TargetPath b.TargetPath a.TargetPath
    (by simpa [bytesLe] using h2) (by simpa [bytesLe] using h1)
  simpa [bytesLe] using ht

/-- The sort Go runs on short slices meets the contract of `sort.Sort`. -/
theorem goInsertionSort_contract : SortsByTargetPath (goInsertionSort MountGroupByTargetPath.Less) :=
  fun mg => goInsertionSort_sorts _ Less_asymm Less_negTrans mg

theorem fillMounts_eq :
    ∀ (ks : List Mount) (pre rest : List String), rest.length = 2 * ks.length →
      fillMounts ks pre.length (pre ++ rest)
        = pre ++ ks.flatMap (fun m => [m.TargetPath, m.SourcePath]) := by
  intro ks
  induction ks with
  | nil =>
    intro pre rest hlen
    have : rest = [] := List.length_eq_zero.mp (by simpa using hlen)
    subst this
    simp [fillMounts]
  | cons k ks ih =>
    intro pre rest hlen
    match rest, hlen with
    | a :: b :: rest1, hlen =>
      have hl1 : rest1.length = 2 * ks.length := by
        simp only [List.length_cons] at hlen
        omega
      have hset : ((pre ++ a :: b :: rest1).set pre.length k.TargetPath).set (pre.length + 1)
          k.SourcePath = (pre ++ [k.TargetPath, k.SourcePath]) ++ rest1 := by
        rw [List.set_append_right _ _ (Nat.le_refl _)]
        simp only [Nat.sub_self, List.set_cons_zero]
        rw [List.set_append_right _ _ (Nat.le_succ _)]
        simp
      have hlen2 : (pre ++ [k.TargetPath, k.SourcePath]).length = pre.length + 2 := by simp
      simp only [fillMounts, hset]
      rw [← hlen2, ih (pre ++ [k.TargetPath, k.SourcePath]) rest1 hl1]
      simp

theorem CodecEncodeSelf_eq (sorter : MountGroup → MountGroup) (mg : MountGroup) :
    MountGroup.CodecEncodeSelf sorter mg
      = (sorter mg).flatMap (fun m => [m.TargetPath, m.SourcePath]) := by
  unfold MountGroup.CodecEncodeSelf
  have h := fillMounts_eq (sorter mg) [] (List.replicate ((sorter mg).length * 2) "")
    (by simp [Nat.mul_comm])
  simpa using h

theorem mountPairs_length (l : List Mount) :
    (l.flatMap (fun m => [m.TargetPath, m.SourcePath])).length = 2 * l.length := by
  induction l with
  | nil => rfl
  | cons a l ih =>
    simp only [List.flatMap_cons, List.length_append, ih, List.length_cons, List.length_nil]
    omega

theorem mountPairs_getElem :
    ∀ (l : List Mount) (i : Nat) (m : Mount), l[i]? = some m →
      (l.flatMap (fun m => [m.TargetPath, m.SourcePath]))[2 * i]? = some m.TargetPath
      ∧ (l.flatMap (fun m => [m.TargetPath, m.SourcePath]))[2 * i + 1]? = some m.SourcePath := by
  intro l
  induction l with
  | nil => intro i m h; simp at h
  | cons a l ih =>
    intro i m h
    cases i with
    | zero =>
      simp only [List.getElem?_cons_zero, Option.some.injEq] at h
      subst h
      simp
    | succ i =>
      simp only [List.getElem?_cons_succ] at h
      obtain ⟨h1, h2⟩ := ih i m h
      have e1 : 2 * (i + 1) = (2 * i) + 1 + 1 := by omega
      have e2 : 2 * (i + 1) + 1 = (2 * i + 1) + 1 + 1 := by omega
      simp only [List.flatMap_cons, List.cons_append, List.nil_append, e1, e2,
        List.getElem?_cons_succ]
      exact ⟨h1, h2⟩

/-- C21: whatever order `sort.Sort` settles on, `CodecEncodeSelf` hands the
encoder a sequence of twice as many strings as the group has mounts: target
path and source path, alternating, of the mounts of a permutation of the
group in which the target paths are in non-decreasing byte-wise order. -/
theorem CodecEncodeSelf_sorted_pairs (sorter : MountGroup → MountGroup)
    (hs : SortsByTargetPath sorter) (mg : MountGroup) :
    ∃ sorted : List Mount,
      sorted.Perm mg
      ∧ sorted.Pairwise (fun a b => bytesLe a.TargetPath.data b.TargetPath.data = true)
      ∧ (MountGroup.CodecEncodeSelf sorter mg).length = 2 * mg.length
      ∧ ∀ i m, sorted[i]? = some m →
          (MountGroup.CodecEncodeSelf sorter mg)[2 * i]? = some m.TargetPath
          ∧ (MountGroup.CodecEncodeSelf sorter mg)[2 * i + 1]? = some m.SourcePath := by
  obtain ⟨hp, hsorted⟩ := hs mg
  refine ⟨sorter mg, hp, ?_, ?_, ?_⟩
  · refine hsorted.imp ?_
    intro a b h
    simpa [bytesLe, MountGroupByTargetPath.Less] using h
  · rw [CodecEncodeSelf_eq, mountPairs_length, hp.length_eq]
  · intro i m hm
    rw [CodecEncodeSelf_eq]
    exact mountPairs_getElem _ i m hm

/-- Witness for `CodecEncodeSelf_sorted_pairs`: three mounts, sorted as Go
sorts a short slice. -/
theorem CodecEncodeSelf_sorted_pairs_witness :
    SortsByTargetPath (goInsertionSort MountGroupByTargetPath.Less)
    ∧ MountGroup.CodecEncodeSelf (goInsertionSort MountGroupByTargetPath.Less) sampleMounts
        = ["/a", "/x", "/a/c", "/z", "/b", "/y"]
    ∧ ∃ sorted : List Mount,
      sorted.Perm sampleMounts
      ∧ sorted.Pairwise (fun a b => bytesLe a.TargetPath.data b.TargetPath.data = true)
      ∧ (MountGroup.CodecEncodeSelf (goInsertionSort MountGroupByTargetPath.Less)
          sampleMounts).length = 2 * sampleMounts.length
      ∧ ∀ i m, sorted[i]? = some m →
          (MountGroup.CodecEncodeSelf (goInsertionSort MountGroupByTargetPath.Less)
            sampleMounts)[2 * i]? = some m.TargetPath
          ∧ (MountGroup.CodecEncodeSelf (goInsertionSort MountGroupByTargetPath.Less)
            sampleMounts)[2 * i + 1]? = some m.SourcePath :=
  ⟨goInsertionSort_contract, rfl,
    CodecEncodeSelf_sorted_pairs _ goInsertionSort_contract sampleMounts⟩

theorem CodecEncodeSelf_paths (sorter : MountGroup → MountGroup) (mg : MountGroup) :
    MountGroup.CodecEncodeSelf sorter mg
      = ((sorter mg).map Mount.paths).flatMap (fun p => [p.1, p.2]) := by
  rw [CodecEncodeSelf_eq]
  induction sorter mg with
  | nil => rfl
  | cons a l ih => simp [List.flatMap_cons, Mount.paths, ih]

theorem keyLt_antisymm :
    IsAntisymm (String × String) (fun p q => bytesLt p.1.data q.1.data = true) where
  antisymm := by
    intro a b hab hba
    rw [bytesLt_asymm _ _ hab] at hba
    cases hba

/-- A sorted group with pairwise distinct target paths is strictly ascending. -/
theorem sorted_paths_strict (sorter : MountGroup → MountGroup) (hs : SortsByTargetPath sorter)
    (mg : MountGroup) (hnd : ((mg.map Mount.paths).map Prod.fst).Nodup) :
    ((sorter mg).map Mount.paths).Pairwise (fun p q => bytesLt p.1.data q.1.data = true) := by
  obtain ⟨hp, hsorted⟩ := hs mg
  have hnd1 : (sorter mg).Pairwise (fun a b => a.TargetPath ≠ b.TargetPath) := by
    have h1 : (((sorter mg).map Mount.paths).map Prod.fst).Nodup :=
      (((hp.map Mount.paths).map Prod.fst).nodup_iff).mpr hnd
    rw [List.map_map] at h1
    exact (List.pairwise_map.mp h1)
  rw [List.pairwise_map]
  refine (hsorted.and hnd1).imp ?_
  intro a b h
  obtain ⟨hle, hne⟩ := h
  unfold MountGroupByTargetPath.Less at hle
  rcases bytesLt_trichotomy a.TargetPath.data b.TargetPath.data with h1 | h1 | h1
  · exact h1
  · exact absurd (String.ext h1) hne
  · rw [h1] at hle; cases hle

/-- The encoding of a group with pairwise distinct target paths is fixed by
the set of its (target, source) pairs. -/
theorem CodecEncodeSelf_congr (sorter : MountGroup → MountGroup) (hs : SortsByTargetPath sorter)
    (mg1 mg2 : MountGroup) (hperm : (mg1.map Mount.paths).Perm (mg2.map Mount.paths))
    (hnd : (mg1.map Mount.TargetPath).Nodup) :
    MountGroup.CodecEncodeSelf sorter mg1 = MountGroup.CodecEncodeSelf sorter mg2 := by
  haveI := keyLt_antisymm
  have hnd1 : ((mg1.map Mount.paths).map Prod.fst).Nodup := by
    rw [List.map_map]
    exact hnd
  have hnd2 : ((mg2.map Mount.paths).map Prod.fst).Nodup :=
    ((hperm.map Prod.fst).nodup_iff).mp hnd1
  rw [CodecEncodeSelf_paths, CodecEncodeSelf_paths]
  congr 1
  apply List.eq_of_perm_of_sorted (r := fun p q => bytesLt p.1.data q.1.data = true)
  · exact (((hs mg1).1.map Mount.paths).trans hperm).trans ((hs mg2).1.map Mount.paths).symm
  · exact sorted_paths_strict sorter hs mg1 hnd1
  · exact sorted_paths_strict sorter hs mg2 hnd2

/-- C22 (as stated, refuted): two mounts on the target `/a` with the sources
`/x` and `/y`. The group and its reverse hold the same mounts, and (sorted
as Go sorts a slice of two: the second element moves only if it is `Less`)
they are encoded as `/a /x /a /y` and as `/a /y /a /x`. -/
theorem twin_mounts_encode_differently :
    twinMounts.reverse.Perm twinMounts
    ∧ MountGroup.CodecEncodeSelf (goInsertionSort MountGroupByTargetPath.Less) twinMounts
        = ["/a", "/x", "/a", "/y"]
    ∧ MountGroup.CodecEncodeSelf (goInsertionSort MountGroupByTargetPath.Less) twinMounts.reverse
        = ["/a", "/y", "/a", "/x"] :=
  ⟨List.reverse_perm _, rfl, rfl⟩

/-- C22 (amended): two groups that hold the same mounts in a different order,
with target paths that are pairwise distinct, are encoded to the same
sequence, whatever order `sort.Sort` gives to equal elements. -/
theorem CodecEncodeSelf_canonical (sorter : MountGroup → MountGroup)
    (hs : SortsByTargetPath sorter) (mg1 mg2 : MountGroup) (hperm : mg1.Perm mg2)
    (hnd : (mg1.map Mount.TargetPath).Nodup) :
    MountGroup.CodecEncodeSelf sorter mg1 = MountGroup.CodecEncodeSelf sorter mg2 :=
  CodecEncodeSelf_congr sorter hs mg1 mg2 (hperm.map Mount.paths) hnd

/-- Witness for `CodecEncodeSelf_canonical`: the three sample mounts and
their reverse. -/
theorem CodecEncodeSelf_canonical_witness :
    SortsByTargetPath (goInsertionSort MountGroupByTargetPath.Less)
    ∧ sampleMounts.reverse.Perm sampleMounts
    ∧ (sampleMounts.reverse.map Mount.TargetPath).Nodup
    ∧ MountGroup.CodecEncodeSelf (goInsertionSort MountGroupByTargetPath.Less) sampleMounts.reverse
      = MountGroup.CodecEncodeSelf (goInsertionSort MountGroupByTargetPath.Less) sampleMounts :=
  ⟨goInsertionSort_contract, List.reverse_perm _, by decide,
    CodecEncodeSelf_canonical _ goInsertionSort_contract sampleMounts.reverse sampleMounts
      (List.reverse_perm _) (by decide)⟩

theorem pairsOf_flatMap (l : List (String × String)) :
    pairsOf (l.flatMap (fun p => [p.1, p.2])) = l := by
  induction l with
  | nil => rfl
  | cons a l ih =>
    show pairsOf (a.1 :: a.2 :: l.flatMap (fun p => [p.1, p.2])) = a :: l
    rw [pairsOf, ih]

theorem CodecDecodeSelf_eq (raw : List (String × String)) :
    MountGroup.CodecDecodeSelf raw
      = raw.map (fun kv => (⟨kv.1, kv.2, true⟩ : Mount)) := by
  unfold MountGroup.CodecDecodeSelf
  have h : ∀ (l : List (String × String)) (acc : List Mount),
      l.foldl (fun tmp kv => tmp ++ [(⟨kv.1, kv.2, true⟩ : Mount)]) acc
      = acc ++ l.map (fun kv => (⟨kv.1, kv.2, true⟩ : Mount)) := by
    intro l
    induction l with
    | nil => intro acc; simp
    | cons a l ih => intro acc; simp [ih]
  simpa using h raw []

/-- C27: for a group with pairwise distinct target paths, whatever the order
in which the decoded map is visited, decoding the encoding gives a group
with the same (target, source) pairs in which every mount is writable. A
group with the same pairs and other `Writable` flags has the same encoding,
and the decoded group is the original one up to order exactly when every
mount of the original is writable. -/
theorem decode_encode_writable (sorter : MountGroup → MountGroup)
    (hs : SortsByTargetPath sorter) (mg : MountGroup)
    (hnd : (mg.map Mount.TargetPath).Nodup) (raw : List (String × String))
    (hraw : raw.Perm (pairsOf (MountGroup.CodecEncodeSelf sorter mg))) :
    ((MountGroup.CodecDecodeSelf raw).map Mount.paths).Perm (mg.map Mount.paths)
    ∧ (∀ m ∈ MountGroup.CodecDecodeSelf raw, m.Writable = true)
    ∧ (∀ mg2 : MountGroup, mg2.map Mount.paths = mg.map Mount.paths →
        MountGroup.CodecEncodeSelf sorter mg2 = MountGroup.CodecEncodeSelf sorter mg)
    ∧ ((MountGroup.CodecDecodeSelf raw).Perm mg ↔ ∀ m ∈ mg, m.Writable = true) := by
  rw [CodecEncodeSelf_paths, pairsOf_flatMap] at hraw
  have hraw2 : raw.Perm (mg.map Mount.paths) := hraw.trans ((hs mg).1.map Mount.paths)
  have hpaths : (MountGroup.CodecDecodeSelf raw).map Mount.paths = raw := by
    rw [CodecDecodeSelf_eq, List.map_map]
    conv_rhs => rw [← List.map_id raw]
    apply List.map_congr_left
    intro kv _
    rfl
  have hw : ∀ m ∈ MountGroup.CodecDecodeSelf raw, m.Writable = true := by
    intro m hm
    rw [CodecDecodeSelf_eq] at hm
    obtain ⟨kv, _, rfl⟩ := List.mem_map.mp hm
    rfl
  refine ⟨by rw [hpaths]; exact hraw2, hw, ?_, ?_⟩
  · intro mg2 h2
    refine CodecEncodeSelf_congr sorter hs mg2 mg (by rw [h2]) ?_
    have : mg2.map Mount.TargetPath = mg.map Mount.TargetPath := by
      have := congrArg (List.map Prod.fst) h2
      simpa [List.map_map, Function.comp, Mount.paths] using this
    rw [this]
    exact hnd
  · constructor
    · intro hp m hm
      exact hw m (hp.symm.subset hm)
    · intro hall
      have h1 : MountGroup.CodecDecodeSelf raw
          = raw.map (fun kv => (⟨kv.1, kv.2, true⟩ : Mount)) := CodecDecodeSelf_eq raw
      have h2 := hraw2.map (fun kv => (⟨kv.1, kv.2, true⟩ : Mount))
      rw [← h1, List.map_map] at h2
      have h3 : mg.map ((fun kv => (⟨kv.1, kv.2, true⟩ : Mount)) ∘ Mount.paths) = mg := by
        conv_rhs => rw [← List.map_id mg]
        apply List.map_congr_left
        intro m hm
        have := hall m hm
        cases m
        simp only [Mount.paths, Function.comp, id] at *
        rw [this]
      rw [h3] at h2
      exact h2

/-- Witness for `decode_encode_writable`: the three sample mounts, one of them
read-only, the decoded map visited in the order `/b`, `/a/c`, `/a`. -/
theorem decode_encode_writable_witness :
    MountGroup.CodecDecodeSelf [("/b", "/y"), ("/a/c", "/z"), ("/a", "/x")]
      = [⟨"/b", "/y", true⟩, ⟨"/a/c", "/z", true⟩, ⟨"/a", "/x", true⟩]
    ∧ (((MountGroup.CodecDecodeSelf [("/b", "/y"), ("/a/c", "/z"), ("/a", "/x")]).map
          Mount.paths).Perm (sampleMounts.map Mount.paths)
      ∧ (∀ m ∈ MountGroup.CodecDecodeSelf [("/b", "/y"), ("/a/c", "/z"), ("/a", "/x")],
          m.Writable = true)
      ∧ (∀ mg2 : MountGroup, mg2.map Mount.paths = sampleMounts.map Mount.paths →
          MountGroup.CodecEncodeSelf (goInsertionSort MountGroupByTargetPath.Less) mg2
            = MountGroup.CodecEncodeSelf (goInsertionSort MountGroupByTargetPath.Less)
                sampleMounts)
      ∧ ((MountGroup.CodecDecodeSelf [("/b", "/y"), ("/a/c", "/z"), ("/a", "/x")]).Perm
            sampleMounts ↔ ∀ m ∈ sampleMounts, m.Writable = true)) :=
  ⟨rfl, decode_encode_writable _ goInsertionSort_contract sampleMounts (by decide)
    [("/b", "/y"), ("/a/c", "/z"), ("/a", "/x")] (by decide)⟩

/-! ## `dir.New` (C23) -/

/-- C23 (as stated, refuted): on the machine of the test tree `New` panics
with `ProgrammerError` for the type "tar" and with `ValidationError` for the
URI of the test, which does not exist. But the URI `/tmp/src/b/c` names a
regular file, and the URI `/tmp/src/b/c/x` fails in `os.Stat` with `ENOTDIR`:
both are accepted, and the input with the SHA-384 factory is returned. -/
theorem New_accepts_non_directory (New384 : Hasher) :
    New New384 fixtureWorld ⟨"tar", "abcd", "/tmp/src"⟩
        = .panicked .ProgrammerError
            "This input implementation supports definitions of type %q, not %q" ["dir", "tar"]
    ∧ New New384 fixtureWorld ⟨"dir", "abcd", "/tmp/certainly/should/not/exist"⟩
        = .panicked .ValidationError "Input URI %q must be a directory"
            ["/tmp/certainly/should/not/exist"]
    ∧ New New384 fixtureWorld ⟨"dir", "abcd", "/tmp/src"⟩
        = .returned ⟨⟨"dir", "abcd", "/tmp/src"⟩, New384⟩
    ∧ (fixtureWorld.node ["tmp", "src", "b", "c"]).map Inode.kind = some (.file [122, 121, 120])
    ∧ New New384 fixtureWorld ⟨"dir", "abcd", "/tmp/src/b/c"⟩
        = .returned ⟨⟨"dir", "abcd", "/tmp/src/b/c"⟩, New384⟩
    ∧ Stat fixtureWorld "/tmp/src/b/c/x" = .error (.pathError "stat" "/tmp/src/b/c/x" .ENOTDIR)
    ∧ New New384 fixtureWorld ⟨"dir", "abcd", "/tmp/src/b/c/x"⟩
        = .returned ⟨⟨"dir", "abcd", "/tmp/src/b/c/x"⟩, New384⟩ := by
  refine ⟨?_, ?_, ?_, ?_, ?_, ?_, ?_⟩ <;> rfl

/-! ## The exit code of the chroot job (C24) -/

theorem and_127_eq_mod (n : Nat) : n &&& 0x7F = n % 128 :=
  Nat.and_pow_two_sub_one_eq_mod n 7

theorem and_255_eq_mod (n : Nat) : n &&& 0xFF = n % 256 :=
  Nat.and_pow_two_sub_one_eq_mod n 8

/-- A stopped or continued status is neither exited nor signaled: `waitTry`
asks for another round. -/
theorem waitTry_stopped (w : WaitStatus) (h : w.Stopped = true ∨ w.Continued = true) :
    waitTry (.state (some w)) = .ret (-1) none := by
  have hm : w.word % 128 = 127 := by
    rcases h with h | h
    · simp only [WaitStatus.Stopped, and_255_eq_mod, beq_iff_eq] at h
      omega
    · simp only [WaitStatus.Continued, beq_iff_eq] at h
      rw [h]
  simp [waitTry, WaitStatus.Exited, WaitStatus.Signaled, and_127_eq_mod, hm]

/-- While the statuses are stopped or continued the loop goes on. -/
theorem waitLoop_skip (waits : Nat → WaitResult) :
    ∀ (k fuel next : Nat),
      (∀ i, i < k → ∃ w, waits (next + i) = .state (some w) ∧
        (w.Stopped = true ∨ w.Continued = true)) →
      waitLoop waits (fuel + k) next (-1) none = waitLoop waits fuel (next + k) (-1) none := by
  intro k
  induction k with
  | zero => intro fuel next _; rfl
  | succ k ih =>
    intro fuel next h
    obtain ⟨w, hw, hs⟩ := h 0 (Nat.succ_pos k)
    rw [Nat.add_zero] at hw
    have hstep : waitLoop waits (fuel + k + 1) next (-1) none
        = waitLoop waits (fuel + k) (next + 1) (-1) none := by
      simp [waitLoop, hw, waitTry_stopped w hs]
    rw [← Nat.add_assoc, hstep, ih fuel (next + 1)]
    · congr 1
      omega
    · intro i hi
      have := h (i + 1) (Nat.succ_lt_succ hi)
      rwa [show next + (i + 1) = next + 1 + i by omega] at this

theorem exitStatus_range (w : WaitStatus) (h : w.Exited = true) :
    w.ExitStatus = (((w.word >>> 8) &&& 0xFF : Nat) : Int)
    ∧ 0 ≤ w.ExitStatus ∧ w.ExitStatus ≤ 255 := by
  have h1 : w.ExitStatus = (((w.word >>> 8) &&& 0xFF : Nat) : Int) := by
    simp [WaitStatus.ExitStatus, h]
  refine ⟨h1, ?_, ?_⟩
  · rw [h1]; exact Int.ofNat_nonneg _
  · rw [h1, and_255_eq_mod]
    have : (w.word >>> 8) % 256 < 256 := Nat.mod_lt _ (by decide)
    omega

theorem signal_range (w : WaitStatus) (h : w.Signaled = true) :
    w.Signal = ((w.word &&& 0x7F : Nat) : Int) ∧ 1 ≤ w.Signal ∧ w.Signal ≤ 126 := by
  have h1 : w.Signal = ((w.word &&& 0x7F : Nat) : Int) := by
    simp [WaitStatus.Signal, h]
  simp only [WaitStatus.Signaled, and_127_eq_mod, Bool.and_eq_true, bne_iff_ne, ne_eq] at h
  refine ⟨h1, ?_, ?_⟩
  · rw [h1, and_127_eq_mod]
    omega
  · rw [h1, and_127_eq_mod]
    have : w.word % 128 < 128 := Nat.mod_lt _ (by decide)
    omega

theorem valid_not_stopped (w : WaitStatus) (hv : w.valid) (hs : w.Stopped = false)
    (hc : w.Continued = false) : w.Exited = true ∨ w.Signaled = true := by
  rcases hv with h | h | h | h
  · exact Or.inl h
  · exact Or.inr h
  · rw [h] at hs; cases hs
  · rw [h] at hc; cases hc

/-- C24: the exit code follows the shell convention. Let the first `k` wait
results be stopped or continued statuses and the next one be an error or a
status (one of those `wait4` reports) that is neither stopped nor continued.
Then, given fuel for `k + 1` rounds, `waitAndHandleExit` ends and stores: -1
for the error, the exit status (between 0 and 255) of a process that exited,
128 plus the signal number for one that was terminated by a signal. The
stored code is -1 only in the case of the error. -/
theorem exit_code_follows_shell_convention (j : job) (waits : Nat → WaitResult) (k : Nat)
    (hearlier : ∀ i, i < k → ∃ w, waits i = .state (some w) ∧
      (w.Stopped = true ∨ w.Continued = true))
    (hk : (∃ err, waits k = .failed err) ∨
      ∃ w, waits k = .state (some w) ∧ w.valid ∧ w.Stopped = false ∧ w.Continued = false)
    (fuel : Nat) (hfuel : k + 1 < fuel) :
    ∃ j1, j.waitAndHandleExit waits fuel = some (.ok j1)
      ∧ (∀ err, waits k = .failed err → j1.exitCode = -1)
      ∧ (∀ w, waits k = .state (some w) → w.Exited = true →
          j1.exitCode = (((w.word >>> 8) &&& 0xFF : Nat) : Int) ∧ 0 ≤ j1.exitCode
          ∧ j1.exitCode ≤ 255)
      ∧ (∀ w, waits k = .state (some w) → w.Exited = false →
          j1.exitCode = 128 + ((w.word &&& 0x7F : Nat) : Int) ∧ 129 ≤ j1.exitCode
          ∧ j1.exitCode ≤ 254)
      ∧ (j1.exitCode = -1 ↔ ∃ err, waits k = .failed err) := by
  obtain ⟨f, rfl⟩ : ∃ f, fuel = f + 2 + k := ⟨fuel - (k + 2), by omega⟩
  have hskip := waitLoop_skip waits k (f + 2) 0 (by simpa using hearlier)
  rw [Nat.zero_add] at hskip
  unfold job.waitAndHandleExit
  rw [hskip]
  rcases hk with ⟨err, herr⟩ | ⟨w, hw, hv, hs, hc⟩
  · refine ⟨{ j with exitCode := -1 }, ?_, fun _ _ => rfl, ?_, ?_, ?_⟩
    · simp [waitLoop, herr, waitTry]
    · intro w hw; rw [herr] at hw; cases hw
    · intro w hw; rw [herr] at hw; cases hw
    · exact ⟨fun _ => ⟨err, herr⟩, fun _ => rfl⟩
  · rcases valid_not_stopped w hv hs hc with hex | hsig
    · obtain ⟨h1, h2, h3⟩ := exitStatus_range w hex
      have hne : w.ExitStatus ≠ -1 := by omega
      refine ⟨{ j with exitCode := w.ExitStatus }, ?_, ?_, ?_, ?_, ?_⟩
      · simp [waitLoop, hw, waitTry, hex, hne]
      · intro err herr; rw [hw] at herr; cases herr
      · intro w1 hw1 _
        rw [hw] at hw1
        cases hw1
        exact ⟨h1, h2, h3⟩
      · intro w1 hw1 hne1
        rw [hw] at hw1
        cases hw1
        rw [hex] at hne1
        cases hne1
      · constructor
        · intro h; exact absurd h hne
        · rintro ⟨err, herr⟩; rw [hw] at herr; cases herr
    · obtain ⟨h1, h2, h3⟩ := signal_range w hsig
      have hnex : w.Exited = false := by
        simp only [WaitStatus.Signaled, Bool.and_eq_true, bne_iff_ne, ne_eq] at hsig
        simp only [WaitStatus.Exited, beq_eq_false_iff_ne, ne_eq]
        exact hsig.2
      have hne : w.Signal + 128 ≠ -1 := by omega
      refine ⟨{ j with exitCode := w.Signal + 128 }, ?_, ?_, ?_, ?_, ?_⟩
      · simp [waitLoop, hw, waitTry, hnex, hsig, hne]
      · intro err herr; rw [hw] at herr; cases herr
      · intro w1 hw1 hex1
        rw [hw] at hw1
        cases hw1
        rw [hnex] at hex1
        cases hex1
      · intro w1 hw1 _
        rw [hw] at hw1
        cases hw1
        refine ⟨?_, ?_, ?_⟩
        · show w.Signal + 128 = _
          rw [h1]; omega
        · show 129 ≤ w.Signal + 128
          omega
        · show w.Signal + 128 ≤ 254
          omega
      · constructor
        · intro h; exact absurd h hne
        · rintro ⟨err, herr⟩; rw [hw] at herr; cases herr

/-- Witness for `exit_code_follows_shell_convention`: a child reported
stopped once and then exiting with status 14; the stored code is 14. A
process killed by SIGINT or SIGKILL gives 130 or 137. -/
theorem exit_code_follows_shell_convention_witness :
    job.waitAndHandleExit ⟨0⟩ stoppedThenExit14 3 = some (.ok ⟨14⟩)
    ∧ waitTry (.state (some ⟨2⟩)) = .ret 130 none
    ∧ waitTry (.state (some ⟨9⟩)) = .ret 137 none
    ∧ ∃ j1, job.waitAndHandleExit ⟨0⟩ stoppedThenExit14 3 = some (.ok j1)
      ∧ (∀ err, stoppedThenExit14 1 = .failed err → j1.exitCode = -1)
      ∧ (∀ w, stoppedThenExit14 1 = .state (some w) → w.Exited = true →
          j1.exitCode = (((w.word >>> 8) &&& 0xFF : Nat) : Int) ∧ 0 ≤ j1.exitCode
          ∧ j1.exitCode ≤ 255)
      ∧ (∀ w, stoppedThenExit14 1 = .state (some w) → w.Exited = false →
          j1.exitCode = 128 + ((w.word &&& 0x7F : Nat) : Int) ∧ 129 ≤ j1.exitCode
          ∧ j1.exitCode ≤ 254)
      ∧ (j1.exitCode = -1 ↔ ∃ err, stoppedThenExit14 1 = .failed err) :=
  ⟨rfl, rfl, rfl,
    exit_code_follows_shell_convention ⟨0⟩ stoppedThenExit14 1
      (fun i hi => ⟨⟨0x137F⟩, by
        have : i = 0 := by omega
        subst this
        exact ⟨rfl, Or.inl rfl⟩⟩)
      (Or.inr ⟨⟨0x0E00⟩, rfl, Or.inl rfl, rfl, rfl⟩) 3 (by decide)⟩

/-! ## The link the walker reads (C25) -/

/-- C25 (as stated, refuted): the source `/src` holds the link `l` with the
target `right`; the process runs in `/other`, which holds a link `l` with
the target `wrong`. The scan of `/src` succeeds and the record `./l` carries
the link name `wrong`. Run from the root directory, where no `l` exists, the
same scan fails in `readlink ./l` and makes no record for the link. -/
theorem scan_reads_link_of_working_directory :
    (cwdLinkWorld.node ["src", "l"]).map Inode.kind = some (.symlink "right")
    ∧ (FillBucket 2 "/src" "" idHasher ⟨cwdLinkWorld, []⟩).map
        (fun r => (r.1, r.2.bucket.map (fun x => (x.metadata.Name, x.metadata.Linkname))))
      = some (.ok, [(".", ""), ("./l", "wrong")])
    ∧ (FillBucket 2 "/src" "" idHasher ⟨{ cwdLinkWorld with cwd := [] }, []⟩).map
        (fun r => (r.1, r.2.bucket.map (fun x => (x.metadata.Name, x.metadata.Linkname))))
      = some (.err (.pathError "readlink" "./l" .ENOENT), [(".", "")]) := by
  refine ⟨?_, ?_, ?_⟩ <;> rfl

/-! ## The log of a walk (C26) -/

theorem walkNamesLog_erase (fn : WalkFunc)
    (rec : String → FileInfo → WalkState → Option (Status × WalkState))
    (recL : String → FileInfo → WalkState → List WalkEvent →
      Option ((Status × WalkState) × List WalkEvent))
    (hrec : ∀ p fi s lg, (recL p fi s lg).map Prod.fst = rec p fi s) (path : String) :
    ∀ (names : List String) (s : WalkState) (log : List WalkEvent),
      (walkNamesLog recL fn path names s log).map Prod.fst = walkNames rec fn path names s := by
  intro names
  induction names with
  | nil => intro s log; rfl
  | cons name rest ih =>
    intro s log
    rw [walkNamesLog, walkNames]
    simp only
    cases hl : Lstat s.world (Join path name) with
    | error e =>
      simp only
      cases hf : fn (Join path name) none (some e) s with
      | mk st s1 =>
        cases st with
        | ok => exact ih s1 _
        | panic e1 => rfl
        | err e1 =>
          by_cases hs : e1 = .skipDir
          · subst hs
            exact ih s1 _
          · cases e1 <;> first | rfl | exact absurd rfl hs
    | ok fileInfo =>
      simp only
      have h1 := hrec (Join path name) fileInfo s (log ++ [.lstat (Join path name)])
      cases hr : recL (Join path name) fileInfo s (log ++ [.lstat (Join path name)]) with
      | none =>
        rw [hr] at h1
        rw [← h1]
        rfl
      | some rl =>
        obtain ⟨⟨st, s1⟩, log2⟩ := rl
        rw [hr] at h1
        rw [← h1]
        cases st with
        | ok => exact ih s1 log2
        | panic e1 => rfl
        | err e1 =>
          simp only [Option.map_some']
          split
          · exact ih s1 log2
          · rfl

/-- The walk with a log is the walk: without the log the outcome is that of
`walk`. -/
theorem walkLog_erase (fn : WalkFunc) :
    ∀ (fuel : Nat) (path : String) (info : FileInfo) (s : WalkState) (log : List WalkEvent),
      (walkLog fn fuel path info s log).map Prod.fst = walk fn fuel path info s := by
  intro fuel
  induction fuel with
  | zero => intro path info s log; rfl
  | succ fuel ih =>
    intro path info s log
    rw [walkLog, walk]
    simp only
    cases hf : fn path (some info) none s with
    | mk st s1 =>
      cases st with
      | err e =>
        simp only
        split <;> rfl
      | panic e => rfl
      | ok =>
        simp only
        split
        · rfl
        · cases hd : readDirNames s1.world path with
          | error e => rfl
          | ok names =>
            exact walkNamesLog_erase fn _ _ (fun p fi st lg => ih p fi st lg) path names _ _

theorem FillBucketLog_erase (fuel : Nat) (srcPath destPath : String) (hasher : Hasher)
    (s : WalkState) :
    (FillBucketLog fuel srcPath destPath hasher s).map Prod.fst
      = FillBucket fuel srcPath destPath hasher s := by
  unfold FillBucketLog WalkLog FillBucket Walk
  cases hl : Lstat s.world srcPath with
  | error e => rfl
  | ok info => exact walkLog_erase _ fuel srcPath info s _

theorem callsOf_append (a b : List WalkEvent) : callsOf (a ++ b) = callsOf a ++ callsOf b := by
  induction a with
  | nil => rfl
  | cons ev a ih => cases ev <;> simp [callsOf, ih]

theorem runSteps_append (fn : WalkFunc) :
    ∀ (a b : List WalkEvent) (s s1 : WalkState),
      runSteps fn a s = (.ok, s1) → runSteps fn (a ++ b) s = runSteps fn b s1 := by
  intro a
  induction a with
  | nil =>
    intro b s s1 h
    simp only [runSteps, Prod.mk.injEq, true_and] at h
    subst h
    rfl
  | cons ev a ih =>
    intro b s s1 h
    cases ev with
    | lstat p =>
      rw [List.cons_append, runSteps]
      rw [runSteps] at h
      exact ih b _ s1 h
    | readdir p =>
      rw [List.cons_append, runSteps]
      rw [runSteps] at h
      exact ih b _ s1 h
    | call p i e =>
      rw [List.cons_append, runSteps]
      rw [runSteps] at h
      cases hf : fn p i e s with
      | mk st s2 =>
        rw [hf] at h
        cases st with
        | ok => exact ih b s2 s1 h
        | err e => simp at h
        | panic e => simp at h

theorem CallShape.prepend {before : List WalkEvent} {path : String} {info : Option FileInfo}
    {err : Option GoError} (evs : List WalkEvent) (h : CallShape before path info err) :
    CallShape (evs ++ before) path info err := by
  rcases h with h | h | ⟨fi, e0, pre, h1, h2, h3, h4⟩
  · exact Or.inl h
  · exact Or.inr (Or.inl h)
  · exact Or.inr (Or.inr ⟨fi, e0, evs ++ pre, h1, h2, h3, by rw [h4, List.append_assoc]⟩)

theorem loggedRun_nil (fn : WalkFunc) (s : WalkState) : LoggedRun fn s [] (.ok, s) :=
  ⟨fun _ => rfl, fun e he => by cases he⟩

theorem loggedRun_lstat (fn : WalkFunc) (s : WalkState) (p : String) :
    LoggedRun fn s [.lstat p] (.ok, s) :=
  ⟨fun _ => rfl, fun e he => by cases he⟩

theorem loggedRun_readdir (fn : WalkFunc) (s : WalkState) (p : String) :
    LoggedRun fn s [.readdir p] (.ok, { s with world := s.world.listed p }) :=
  ⟨fun _ => rfl, fun e he => by cases he⟩

theorem LoggedRun.seq {fn : WalkFunc} {s s1 : WalkState} {evs1 evs2 : List WalkEvent}
    {r : Status × WalkState} (h1 : LoggedRun fn s evs1 (.ok, s1)) (h2 : LoggedRun fn s1 evs2 r) :
    LoggedRun fn s (evs1 ++ evs2) r := by
  have hrun : runSteps fn evs1 s = (.ok, s1) := h1.1 rfl
  refine ⟨fun hok => ?_, fun e he => ?_⟩
  · rw [runSteps_append fn _ _ s s1 hrun]
    exact h2.1 hok
  · obtain ⟨before, path, info, err, s2, hevs, hb, hcall, hshape⟩ := h2.2 e he
    refine ⟨evs1 ++ before, path, info, err, s2, ?_, ?_, hcall, hshape.prepend evs1⟩
    · rw [hevs, List.append_assoc]
    · rw [runSteps_append fn _ _ s s1 hrun]
      exact hb

theorem LoggedRun.call (fn : WalkFunc) (s : WalkState) (path : String) (info : Option FileInfo)
    (err : Option GoError)
    (hshape : (∃ fi, info = some fi ∧ err = none) ∨
      (∃ e0, info = none ∧ err = some e0 ∧ e0.hasPath = true)) :
    LoggedRun fn s [.call path info err] (fn path info err s) := by
  have hshape1 : CallShape [] path info err := by
    rcases hshape with h | h
    · exact Or.inl h
    · exact Or.inr (Or.inl h)
  refine ⟨fun hok => ?_, fun e _ => ⟨[], path, info, err, s, rfl, rfl, rfl, hshape1⟩⟩
  simp only [runSteps]
  cases hf : fn path info err s with
  | mk st s1 =>
    rw [hf] at hok
    simp only at hok
    subst hok
    rfl

theorem listed_of_error {w : World} {path : String} {e : GoError}
    (h : readDirNames w path = .error e) : w.listed path = w := by
  simp only [World.listed, h]

theorem listed_of_ok {w : World} {path : String} {names : List String}
    (h : readDirNames w path = .ok names) : w.listed path = w.accessed true path := by
  simp only [World.listed, h]

theorem Lstat_error_hasPath {w : World} {path : String} {e : GoError}
    (h : Lstat w path = .error e) : e.hasPath = true := by
  unfold Lstat at h
  split at h
  · simp only [Except.error.injEq] at h
    subst h
    rfl
  · split at h
    · simp only [Except.error.injEq] at h
      subst h
      rfl
    · cases h

theorem plain_ne_skipDir {e : GoError} (h : e.isPlain = true) : e ≠ .skipDir := by
  intro h1
  subst h1
  cases h

/-- The steps of the loop over a directory, for the walk function of
`FillBucket`. -/
theorem walkNamesLog_run (srcPath destPath : String) (hasher : Hasher)
    (recL : String → FileInfo → WalkState → List WalkEvent →
      Option ((Status × WalkState) × List WalkEvent))
    (hrec : ∀ p fi s lg r lg1, recL p fi s lg = some (r, lg1) →
      r.1.isPlain = true ∧
      ∃ evs, lg1 = lg ++ evs ∧ LoggedRun (fillWalkFn srcPath destPath hasher) s evs r)
    (path : String) :
    ∀ (names : List String) (s : WalkState) (log : List WalkEvent) (r : Status × WalkState)
      (log1 : List WalkEvent),
      walkNamesLog recL (fillWalkFn srcPath destPath hasher) path names s log = some (r, log1) →
      ∃ evs, log1 = log ++ evs ∧ LoggedRun (fillWalkFn srcPath destPath hasher) s evs r := by
  intro names
  induction names with
  | nil =>
    intro s log r log1 h
    simp only [walkNamesLog, Option.some.injEq, Prod.mk.injEq] at h
    obtain ⟨h1, h2⟩ := h
    subst h1 h2
    exact ⟨[], by simp, loggedRun_nil _ _⟩
  | cons name rest ih =>
    intro s log r log1 h
    rw [walkNamesLog] at h
    simp only at h
    have hsilent : LoggedRun (fillWalkFn srcPath destPath hasher) s [.lstat (Join path name)]
        (.ok, s) := loggedRun_lstat _ _ _
    cases hl : Lstat s.world (Join path name) with
    | error e =>
      rw [hl] at h
      simp only at h
      have hp := Lstat_error_hasPath hl
      have hcall := LoggedRun.call (fillWalkFn srcPath destPath hasher) s (Join path name) none
        (some e) (Or.inr ⟨e, rfl, rfl, hp⟩)
      rw [fillWalkFn_err] at h hcall
      have hne := plain_ne_skipDir (hasPath_isPlain hp)
      have h2 : r = (.err e, s) ∧ log1 = log ++ [.lstat (Join path name)]
          ++ [.call (Join path name) none (some e)] := by
        cases e <;> first
          | exact absurd rfl hne
          | (simp only [Option.some.injEq, Prod.mk.injEq] at h
             exact ⟨h.1.symm, h.2.symm⟩)
      obtain ⟨hr, hlog⟩ := h2
      subst hr hlog
      exact ⟨[.lstat (Join path name)] ++ [.call (Join path name) none (some e)],
        by simp, LoggedRun.seq hsilent hcall⟩
    | ok fileInfo =>
      rw [hl] at h
      simp only at h
      cases hr : recL (Join path name) fileInfo s (log ++ [.lstat (Join path name)]) with
      | none =>
        rw [hr] at h
        cases h
      | some rl =>
        obtain ⟨⟨st, s1⟩, log2⟩ := rl
        rw [hr] at h
        obtain ⟨hplain, evs1, hlog2, hrun1⟩ := hrec _ _ _ _ _ _ hr
        have hrun2 := LoggedRun.seq hsilent hrun1
        cases st with
        | ok =>
          simp only at h
          obtain ⟨evs2, hlog1, hrun3⟩ := ih s1 log2 r log1 h
          refine ⟨[.lstat (Join path name)] ++ evs1 ++ evs2, ?_, LoggedRun.seq hrun2 hrun3⟩
          rw [hlog1, hlog2]
          simp
        | panic e1 =>
          simp only [Option.some.injEq, Prod.mk.injEq] at h
          obtain ⟨h1, h2⟩ := h
          subst h1 h2
          exact ⟨[.lstat (Join path name)] ++ evs1, by rw [hlog2]; simp, hrun2⟩
        | err e1 =>
          simp only at h
          have hne : e1 ≠ .skipDir := plain_ne_skipDir hplain
          rw [if_neg (fun hc => hne hc.2)] at h
          simp only [Option.some.injEq, Prod.mk.injEq] at h
          obtain ⟨h1, h2⟩ := h
          subst h1 h2
          exact ⟨[.lstat (Join path name)] ++ evs1, by rw [hlog2]; simp, hrun2⟩

/-- The steps of the walk of one node, for the walk function of `FillBucket`:
when the listing of a directory fails, the walk function is called a second
time for the directory, after its record was made. -/
theorem walkLog_run (srcPath destPath : String) (hasher : Hasher) :
    ∀ (fuel : Nat) (path : String) (info : FileInfo) (s : WalkState) (log : List WalkEvent)
      (r : Status × WalkState) (log1 : List WalkEvent),
      walkLog (fillWalkFn srcPath destPath hasher) fuel path info s log = some (r, log1) →
      r.1.isPlain = true ∧
      ∃ evs, log1 = log ++ evs ∧ LoggedRun (fillWalkFn srcPath destPath hasher) s evs r := by
  intro fuel
  induction fuel with
  | zero => intro path info s log r log1 h; simp [walkLog] at h
  | succ fuel ih =>
    intro path info s log r log1 h
    have hplain : r.1.isPlain = true := by
      have he := walkLog_erase (fillWalkFn srcPath destPath hasher) (fuel + 1) path info s log
      rw [h] at he
      exact (walk_runFacts srcPath destPath hasher (fuel + 1) path info s r he.symm).2.2.1
    refine ⟨hplain, ?_⟩
    rw [walkLog] at h
    simp only at h
    have hfacts := fillWalkFn_facts srcPath destPath hasher path (some info) none s
      (fun e1 h1 => by cases h1)
    have hcall := LoggedRun.call (fillWalkFn srcPath destPath hasher) s path (some info) none
      (Or.inl ⟨info, rfl, rfl⟩)
    cases hf : fillWalkFn srcPath destPath hasher path (some info) none s with
    | mk st s1 =>
      rw [hf] at h hfacts hcall
      cases st with
      | err e =>
        simp only at h
        have hne : e ≠ .skipDir := plain_ne_skipDir hfacts.2.2.1
        rw [if_neg (fun hc => hne hc.2)] at h
        simp only [Option.some.injEq, Prod.mk.injEq] at h
        obtain ⟨h1, h2⟩ := h
        subst h1 h2
        exact ⟨_, rfl, hcall⟩
      | panic e =>
        simp only [Option.some.injEq, Prod.mk.injEq] at h
        obtain ⟨h1, h2⟩ := h
        subst h1 h2
        exact ⟨_, rfl, hcall⟩
      | ok =>
        simp only at h
        split at h
        · simp only [Option.some.injEq, Prod.mk.injEq] at h
          obtain ⟨h1, h2⟩ := h
          subst h1 h2
          exact ⟨_, rfl, hcall⟩
        · have hlisted := loggedRun_readdir (fillWalkFn srcPath destPath hasher) s1 path
          cases hd : readDirNames s1.world path with
          | error e =>
            rw [hd] at h
            rw [listed_of_error hd] at hlisted
            simp only [Option.some.injEq, Prod.mk.injEq] at h
            obtain ⟨h1, h2⟩ := h
            subst h1 h2
            have hp := readDirNames_hasPath hd
            have hbefore : runSteps (fillWalkFn srcPath destPath hasher)
                [.call path (some info) none, .readdir path] s = (.ok, s1) :=
              (LoggedRun.seq hcall hlisted).1 rfl
            refine ⟨[.call path (some info) none, .readdir path, .call path (some info) (some e)],
              by simp, fun hok => ?_, fun e1 _ => ?_⟩
            · rw [fillWalkFn_err] at hok
              cases hok
            · exact ⟨[.call path (some info) none, .readdir path], path, some info, some e, s1,
                rfl, hbefore, rfl, Or.inr (Or.inr ⟨info, e, [], rfl, rfl, hp, rfl⟩)⟩
          | ok names =>
            rw [hd] at h
            rw [listed_of_ok hd] at hlisted
            simp only at h
            obtain ⟨evs, hlog1, hrun⟩ := walkNamesLog_run srcPath destPath hasher _
              (fun p fi st lg r1 lg1 h1 => ih p fi st lg r1 lg1 h1) path names _ _ r log1 h
            refine ⟨[.call path (some info) none] ++ ([.readdir path] ++ evs), ?_,
              LoggedRun.seq hcall (LoggedRun.seq hlisted hrun)⟩
            rw [hlog1]
            simp

/-- The steps of a whole run of `FillBucket`. -/
theorem FillBucketLog_run (fuel : Nat) (srcPath destPath : String) (hasher : Hasher)
    (s : WalkState) (r : Status × WalkState) (log : List WalkEvent)
    (h : FillBucketLog fuel srcPath destPath hasher s = some (r, log)) :
    LoggedRun (fillWalkFn srcPath destPath hasher) s log r := by
  unfold FillBucketLog WalkLog at h
  have hsilent : LoggedRun (fillWalkFn srcPath destPath hasher) s [.lstat srcPath] (.ok, s) :=
    loggedRun_lstat _ _ _
  cases hl : Lstat s.world srcPath with
  | error e =>
    rw [hl] at h
    simp only [Option.some.injEq, Prod.mk.injEq] at h
    obtain ⟨h1, h2⟩ := h
    subst h1 h2
    exact LoggedRun.seq hsilent (LoggedRun.call _ s srcPath none (some e)
      (Or.inr ⟨e, rfl, rfl, Lstat_error_hasPath hl⟩))
  | ok info =>
    rw [hl] at h
    simp only at h
    obtain ⟨_, evs, hlog, hrun⟩ := walkLog_run srcPath destPath hasher fuel srcPath info s _ r log h
    subst hlog
    exact LoggedRun.seq hsilent hrun

theorem Mkdir_hasPath {w : World} {path : String} {perm : Nat} {e : GoError}
    (h : Mkdir w path perm = .error e) : e.hasPath = true := by
  unfold Mkdir at h
  split at h
  · simp only [Except.error.injEq] at h; subst h; rfl
  · split at h
    · simp only [Except.error.injEq] at h; subst h; rfl
    · simp at h

theorem OpenFileCreateExcl_hasPath {w : World} {path : String} {perm : Nat} {e : GoError}
    (h : OpenFileCreateExcl w path perm = .error e) : e.hasPath = true := by
  unfold OpenFileCreateExcl at h
  split at h
  · simp only [Except.error.injEq] at h; subst h; rfl
  · split at h
    · simp only [Except.error.injEq] at h; subst h; rfl
    · simp at h

theorem OpenFileRead_hasPath {w : World} {path : String} {e : GoError}
    (h : OpenFileRead w path = .error e) : e.hasPath = true := by
  unfold OpenFileRead at h
  split at h
  · simp only [Except.error.injEq] at h; subst h; rfl
  · split at h
    · simp only [Except.error.injEq] at h; subst h; rfl
    · split at h
      · simp only [Except.error.injEq] at h; subst h; rfl
      · split at h
        · simp only [Except.error.injEq] at h; subst h; rfl
        · simp at h

theorem readAll_hasPath {w : World} {path : String} {key : List String} {e : GoError}
    (h : readAll w path key = .error e) : e.hasPath = true := by
  unfold readAll at h
  split at h
  · simp at h
  · split at h
    · simp at h
    · simp only [Except.error.injEq] at h; subst h; rfl
    · simp at h

theorem Readlink_hasPath {w : World} {path : String} {e : GoError}
    (h : Readlink w path = .error e) : e.hasPath = true := by
  unfold Readlink at h
  split at h
  · simp only [Except.error.injEq] at h; subst h; rfl
  · split at h
    · simp only [Except.error.injEq] at h; subst h; rfl
    · split at h
      · simp at h
      · simp only [Except.error.injEq] at h; subst h; rfl

theorem Symlink_hasPath {w : World} {old new : String} {e : GoError}
    (h : Symlink w old new = .error e) : e.hasPath = true := by
  unfold Symlink at h
  split at h
  · simp only [Except.error.injEq] at h; subst h; rfl
  · split at h
    · simp only [Except.error.injEq] at h; subst h; rfl
    · simp at h

theorem utimesAt_hasPath {w : World} {follow : Bool} {path : String} {a m : Nat} {e : GoError}
    (h : utimesAt w follow path a m = .error e) : e.hasPath = true := by
  unfold utimesAt at h
  split at h
  · simp only [Except.error.injEq] at h; subst h; rfl
  · split at h
    · simp only [Except.error.injEq] at h; subst h; rfl
    · simp at h

/-- A mode with a type bit has one of the five type bits. -/
theorem typeBit_of_ModeType (fm : Nat) (h : fm &&& ModeType ≠ 0) :
    fm &&& ModeDir ≠ 0 ∨ fm &&& ModeSymlink ≠ 0 ∨ fm &&& ModeDevice ≠ 0
      ∨ fm &&& ModeNamedPipe ≠ 0 ∨ fm &&& ModeSocket ≠ 0 := by
  by_contra hc
  simp only [not_or, ne_eq, not_not] at hc
  obtain ⟨h1, h2, h3, h4, h5⟩ := hc
  apply h
  apply Nat.eq_of_testBit_eq
  intro j
  have t1 := congrArg (fun x => x.testBit j) h1
  have t2 := congrArg (fun x => x.testBit j) h2
  have t3 := congrArg (fun x => x.testBit j) h3
  have t4 := congrArg (fun x => x.testBit j) h4
  have t5 := congrArg (fun x => x.testBit j) h5
  simp only [Nat.testBit_and, Nat.zero_testBit, ModeDir, ModeSymlink, ModeDevice, ModeNamedPipe,
    ModeSocket, Nat.testBit_two_pow] at t1 t2 t3 t4 t5
  simp only [Nat.testBit_and, Nat.zero_testBit, ModeType, ModeDir, ModeSymlink, ModeDevice,
    ModeNamedPipe, ModeSocket, Nat.testBit_or, Nat.testBit_two_pow]
  cases hb : fm.testBit j
  · simp
  · rw [hb] at t1 t2 t3 t4 t5
    simp only [Bool.true_and, decide_eq_false_iff_not] at t1 t2 t3 t4 t5
    simp [t1, t2, t3, t4, t5]

/-- The function `tar.FileInfoHeader` has a header for every mode: a mode without type
bits is a regular file, and every type bit has its case. -/
theorem FileInfoHeader_ok (fi : FileInfo) (link : String) :
    ∃ hdr, FileInfoHeader fi link = .ok hdr := by
  unfold FileInfoHeader
  simp only
  split
  · rename_i heq
    exfalso
    split_ifs at heq with h0 h1 h2 h3 h4 h5 h6
    rcases typeBit_of_ModeType fi.mode h0 with h | h | h | h | h
    · exact h1 h
    · exact h2 h
    · exact h3 h
    · exact h5 h
    · exact h6 h
  · exact ⟨_, rfl⟩

theorem FileInfoHeader_hasPath {fi : FileInfo} {link : String} {e : GoError}
    (h : FileInfoHeader fi link = .error e) : e.hasPath = true := by
  obtain ⟨hdr, hok⟩ := FileInfoHeader_ok fi link
  rw [hok] at h
  cases h

theorem fillDir_hasPath (destPath path : String) (info : FileInfo) (s : WalkState)
    (e : GoError) (h : (fillDir destPath path info s).1 = .err e) : e.hasPath = true := by
  unfold fillDir at h
  simp only at h
  split at h
  · rename_i e1 he
    simp only [Status.err.injEq] at h
    subst h
    exact FileInfoHeader_hasPath he
  · split at h
    · split at h
      · rename_i e1 he
        simp only [Status.err.injEq] at h
        subst h
        exact Mkdir_hasPath he
      · split at h
        · rename_i e1 he
          simp only [Status.err.injEq] at h
          subst h
          exact utimesAt_hasPath he
        · cases h
    · cases h

theorem fillSymlink_hasPath (destPath path : String) (info : FileInfo) (s : WalkState)
    (e : GoError) (h : (fillSymlink destPath path info s).1 = .err e) : e.hasPath = true := by
  unfold fillSymlink at h
  split at h
  · rename_i e1 he
    simp only [Status.err.injEq] at h
    subst h
    exact Readlink_hasPath he
  · split at h
    · rename_i e1 he
      simp only [Status.err.injEq] at h
      subst h
      exact FileInfoHeader_hasPath he
    · simp only at h
      split at h
      · split at h
        · rename_i e1 he
          simp only [Status.err.injEq] at h
          subst h
          exact Symlink_hasPath he
        · split at h
          · rename_i e1 he
            simp only [Status.err.injEq] at h
            subst h
            exact utimesAt_hasPath he
          · cases h
      · cases h

theorem fillRegular_hasPath (srcPath destPath : String) (hasher : Hasher) (path : String)
    (info : FileInfo) (s : WalkState) (e : GoError)
    (h : (fillRegular srcPath destPath hasher path info s).1 = .err e) : e.hasPath = true := by
  unfold fillRegular at h
  simp only at h
  split at h
  · rename_i e1 he
    simp only [Status.err.injEq] at h
    subst h
    exact OpenFileRead_hasPath he
  · rename_i src _
    by_cases hd : destPath = ""
    · simp only [hd, ne_eq, not_true_eq_false, ↓reduceIte] at h
      split at h
      · rename_i e1 he
        simp only [Status.err.injEq] at h
        subst h
        exact readAll_hasPath he
      · split at h
        · rename_i e1 he
          simp only [Status.err.injEq] at h
          subst h
          exact FileInfoHeader_hasPath he
        · cases h
    · simp only [ne_eq, hd, not_false_eq_true, ↓reduceIte] at h
      cases hopen : OpenFileCreateExcl s.world (Join destPath path) (info.mode &&& ModePerm) with
      | error e1 =>
        rw [hopen] at h
        simp only [Status.err.injEq] at h
        subst h
        exact OpenFileCreateExcl_hasPath hopen
      | ok res =>
        obtain ⟨w1, dest⟩ := res
        rw [hopen] at h
        simp only at h
        split at h
        · rename_i e1 he
          simp only [Status.err.injEq] at h
          subst h
          exact readAll_hasPath he
        · split at h
          · rename_i e1 he
            simp only [Status.err.injEq] at h
            subst h
            exact FileInfoHeader_hasPath he
          · split at h
            · rename_i e1 he
              simp only [Status.err.injEq] at h
              subst h
              exact utimesAt_hasPath he
            · cases h

/-- An error the walk function returns for a node it was given is a path or
link error of one of its system calls. -/
theorem fillWalkFn_hasPath (srcPath destPath : String) (hasher : Hasher) (path0 : String)
    (info : FileInfo) (s : WalkState) (e : GoError)
    (h : (fillWalkFn srcPath destPath hasher path0 (some info) none s).1 = .err e) :
    e.hasPath = true := by
  unfold fillWalkFn at h
  simp only at h
  split at h
  · exact fillDir_hasPath _ _ _ _ e h
  · split at h
    · exact fillSymlink_hasPath _ _ _ _ e h
    · split at h
      · cases h
      · split at h
        · cases h
        · split at h
          · cases h
          · split at h
            · cases h
            · split at h
              · exact fillRegular_hasPath _ _ _ _ _ _ e h
              · cases h

/-- Steps that all went through: every call among them was made for a node,
without an error, and appended one record under the rewritten path; the
other steps left the bucket alone. -/
theorem runSteps_records (srcPath destPath : String) (hasher : Hasher) :
    ∀ (evs : List WalkEvent) (s s1 : WalkState),
      runSteps (fillWalkFn srcPath destPath hasher) evs s = (.ok, s1) →
      (∀ c ∈ callsOf evs, c.2.2 = none ∧ c.2.1 ≠ none)
      ∧ ∃ recs : List Record, s1.bucket = s.bucket ++ recs
        ∧ recs.map (fun x => x.metadata.Name)
            = (callsOf evs).map (fun c => "." ++ TrimPrefixStr c.1 srcPath) := by
  intro evs
  induction evs with
  | nil =>
    intro s s1 h
    simp only [runSteps, Prod.mk.injEq, true_and] at h
    subst h
    exact ⟨fun c hc => (by cases hc), [], (by simp), rfl⟩
  | cons ev evs ih =>
    intro s s1 h
    cases ev with
    | lstat p =>
      rw [runSteps] at h
      exact ih s s1 h
    | readdir p =>
      rw [runSteps] at h
      exact ih { s with world := s.world.listed p } s1 h
    | call p i err =>
      rw [runSteps] at h
      cases hf : fillWalkFn srcPath destPath hasher p i err s with
      | mk st s2 =>
        rw [hf] at h
        cases st with
        | err e => simp at h
        | panic e => simp at h
        | ok =>
          simp only at h
          have herr : err = none := by
            cases err with
            | none => rfl
            | some e0 =>
              rw [fillWalkFn_err] at hf
              cases hf
          subst herr
          have hinfo : i ≠ none := by
            intro hi
            subst hi
            simp [fillWalkFn] at hf
          have hfacts := fillWalkFn_facts srcPath destPath hasher p i none s
            (fun e1 h1 => by cases h1)
          rw [hf] at hfacts
          obtain ⟨rec, hrec, hname⟩ := hfacts.2.2.2.1 rfl
          obtain ⟨hshape, recs, hrecs, hnames⟩ := ih s2 s1 h
          refine ⟨?_, rec :: recs, ?_, ?_⟩
          · intro c hc
            simp only [callsOf, List.mem_cons] at hc
            rcases hc with hc | hc
            · subst hc
              exact ⟨rfl, hinfo⟩
            · exact hshape c hc
          · rw [hrecs]
            simp only at hrec
            rw [hrec]
            simp
          · simp only [callsOf, List.map_cons, hnames, hname]

/-- C26 (as stated, refuted): user 1000 scans `/src`, which holds the
directory `a` that the user cannot list. `FillBucket` returns the error of
the listing, `open /src/a: permission denied`, and the bucket holds the
record of `.` and the record of `./a`, the failing node itself: `filepath.Walk`
lists a directory after the walk function has recorded it, and hands the
error of the listing to a second call for the same directory. -/
theorem unlistable_directory_is_recorded :
    (FillBucket 3 "/src" "" idHasher ⟨lockedWorld, []⟩).map
        (fun r => (r.1, r.2.bucket.map (fun x => x.metadata.Name)))
      = some (.err (.pathError "open" "/src/a" .EACCES), [".", "./a"])
    ∧ (FillBucketLog 3 "/src" "" idHasher ⟨lockedWorld, []⟩).map
        (fun r => (callsOf r.2).map (fun c => (c.1, c.2.1.isSome, c.2.2)))
      = some [("/src", true, none), ("/src/a", true, none),
          ("/src/a", true, some (.pathError "open" "/src/a" .EACCES))] := by
  constructor <;> rfl

/-- C26 (amended): a run of `FillBucket` is a run of steps of the walk, each
from the state the one before left. After success every call of the walk
function returned `nil`. When `FillBucket` returns an error, the walk stopped
at the call that failed. That call is the last step of the walk: no path is
looked up, no directory listed and no node visited after it. It returned the
error `FillBucket` returns, a path or link error of the failed operation.
It is the first call for a node, which then has made no record; or the call
for a name whose `lstat` failed; or the second call for a directory whose
listing failed, and then the record of that directory, made by the first
call, is the last in the bucket. Every call before the failing one was made
for a node, returned `nil` and appended one record, so the bucket holds
exactly the records of the calls before, in the order of the visits. The
machine is in the state the failing call left: nothing written is taken
back, and every node that was there before the run is still there. -/
theorem FillBucket_aborts_at_first_error (fuel : Nat) (srcPath destPath : String)
    (hasher : Hasher) (s : WalkState) (r : Status × WalkState)
    (h : FillBucket fuel srcPath destPath hasher s = some r) :
    ContentKept s.world r.2.world
    ∧ ∃ log : List WalkEvent,
      FillBucketLog fuel srcPath destPath hasher s = some (r, log)
      ∧ (r.1 = .ok →
          runSteps (fillWalkFn srcPath destPath hasher) log s = (.ok, r.2))
      ∧ ∀ e, r.1 = .err e →
        e.hasPath = true
        ∧ ∃ (before : List WalkEvent) (path : String) (info : Option FileInfo)
            (err : Option GoError) (s1 : WalkState) (recs : List Record),
            log = before ++ [.call path info err]
            ∧ runSteps (fillWalkFn srcPath destPath hasher) before s = (.ok, s1)
            ∧ (∀ c ∈ callsOf before, c.2.2 = none ∧ c.2.1 ≠ none)
            ∧ fillWalkFn srcPath destPath hasher path info err s1 = r
            ∧ ((∃ fi, info = some fi ∧ err = none)
              ∨ (info = none ∧ err = some e)
              ∨ (∃ fi pre recs0 rec, info = some fi ∧ err = some e
                  ∧ before = pre ++ [.call path (some fi) none, .readdir path]
                  ∧ recs = recs0 ++ [rec]
                  ∧ rec.metadata.Name = "." ++ TrimPrefixStr path srcPath))
            ∧ s1.bucket = s.bucket ++ recs
            ∧ recs.map (fun x => x.metadata.Name)
                = (callsOf before).map (fun c => "." ++ TrimPrefixStr c.1 srcPath)
            ∧ r.2.bucket = s1.bucket := by
  have hkept := FillBucket_kept fuel srcPath destPath hasher s r h
  have herase := FillBucketLog_erase fuel srcPath destPath hasher s
  rw [h] at herase
  cases hlog : FillBucketLog fuel srcPath destPath hasher s with
  | none =>
    rw [hlog] at herase
    cases herase
  | some rl =>
    obtain ⟨r1, log⟩ := rl
    rw [hlog] at herase
    simp only [Option.map_some', Option.some.injEq] at herase
    subst herase
    have hlogged := FillBucketLog_run fuel srcPath destPath hasher s r1 log hlog
    refine ⟨hkept, log, rfl, hlogged.1, ?_⟩
    intro e he
    obtain ⟨before, path, info, err, s1, hevs, hrun, hcall, hshape⟩ := hlogged.2 e he
    obtain ⟨hcalls, recs, hrecs, hnames⟩ := runSteps_records srcPath destPath hasher _ s s1 hrun
    have hpath : e.hasPath = true ∧
        ((∃ fi, info = some fi ∧ err = none)
          ∨ (info = none ∧ err = some e)
          ∨ (∃ fi pre recs0 rec, info = some fi ∧ err = some e
              ∧ before = pre ++ [.call path (some fi) none, .readdir path]
              ∧ recs = recs0 ++ [rec]
              ∧ rec.metadata.Name = "." ++ TrimPrefixStr path srcPath)) := by
      rcases hshape with ⟨fi, hi, herr⟩ | ⟨e0, hi, herr, hp⟩ | ⟨fi, e0, pre, hi, herr, hp, hpre⟩
      · subst hi herr
        refine ⟨?_, Or.inl ⟨fi, rfl, rfl⟩⟩
        apply fillWalkFn_hasPath srcPath destPath hasher path fi s1 e
        rw [hcall]
        exact he
      · subst hi herr
        rw [fillWalkFn_err] at hcall
        rw [← hcall] at he
        simp only [Status.err.injEq] at he
        subst he
        exact ⟨hp, Or.inr (Or.inl ⟨rfl, rfl⟩)⟩
      · subst hi herr
        rw [fillWalkFn_err] at hcall
        rw [← hcall] at he
        simp only [Status.err.injEq] at he
        subst he
        refine ⟨hp, Or.inr (Or.inr ?_)⟩
        rw [hpre, callsOf_append] at hnames
        simp only [callsOf, List.map_append, List.map_cons, List.map_nil] at hnames
        obtain ⟨recs0, recs1, hsplit, _, hlast⟩ := List.map_eq_append_iff.mp hnames
        cases recs1 with
        | nil => simp at hlast
        | cons rec tl =>
          simp only [List.map_cons, List.cons.injEq, List.map_eq_nil_iff] at hlast
          obtain ⟨hname, htl⟩ := hlast
          subst htl
          exact ⟨fi, pre, recs0, rec, rfl, rfl, hpre, hsplit, hname⟩
    have herrPlain : ∀ e1, err = some e1 → e1.isPlain = true := by
      intro e1 h1
      rcases hpath.2 with ⟨fi, _, herr⟩ | ⟨_, herr⟩ | ⟨_, _, _, _, _, herr, _⟩
      · rw [herr] at h1
        cases h1
      · rw [herr] at h1
        cases h1
        exact hasPath_isPlain hpath.1
      · rw [herr] at h1
        cases h1
        exact hasPath_isPlain hpath.1
    have hbucket : r1.2.bucket = s1.bucket := by
      have hfacts := fillWalkFn_facts srcPath destPath hasher path info err s1 herrPlain
      rw [hcall] at hfacts
      exact hfacts.2.2.2.2 (by rw [he]; intro hc; cases hc)
    exact ⟨hpath.1, before, path, info, err, s1, recs, hevs, hrun, hcalls, hcall, hpath.2,
      hrecs, hnames, hbucket⟩

/-- Witness for `FillBucket_aborts_at_first_error`: the scan of the tree of
`lockedWorld`, which fails when it lists the directory `a`. -/
theorem FillBucket_aborts_at_first_error_witness :
    FillBucket 3 "/src" "" idHasher ⟨lockedWorld, []⟩ = some lockedScanned
    ∧ lockedScanned.1 = .err (.pathError "open" "/src/a" .EACCES)
    ∧ lockedScanned.2.bucket.map (fun x => x.metadata.Name) = [".", "./a"]
    ∧ ContentKept lockedWorld lockedScanned.2.world
    ∧ ∃ log : List WalkEvent,
      FillBucketLog 3 "/src" "" idHasher ⟨lockedWorld, []⟩ = some (lockedScanned, log)
      ∧ (lockedScanned.1 = .ok →
          runSteps (fillWalkFn "/src" "" idHasher) log ⟨lockedWorld, []⟩
            = (.ok, lockedScanned.2))
      ∧ ∀ e, lockedScanned.1 = .err e →
        e.hasPath = true
        ∧ ∃ (before : List WalkEvent) (path : String) (info : Option FileInfo)
            (err : Option GoError) (s1 : WalkState) (recs : List Record),
            log = before ++ [.call path info err]
            ∧ runSteps (fillWalkFn "/src" "" idHasher) before ⟨lockedWorld, []⟩ = (.ok, s1)
            ∧ (∀ c ∈ callsOf before, c.2.2 = none ∧ c.2.1 ≠ none)
            ∧ fillWalkFn "/src" "" idHasher path info err s1 = lockedScanned
            ∧ ((∃ fi, info = some fi ∧ err = none)
              ∨ (info = none ∧ err = some e)
              ∨ (∃ fi pre recs0 rec, info = some fi ∧ err = some e
                  ∧ before = pre ++ [.call path (some fi) none, .readdir path]
                  ∧ recs = recs0 ++ [rec]
                  ∧ rec.metadata.Name = "." ++ TrimPrefixStr path "/src"))
            ∧ s1.bucket = [] ++ recs
            ∧ recs.map (fun x => x.metadata.Name)
                = (callsOf before).map (fun c => "." ++ TrimPrefixStr c.1 "/src")
            ∧ lockedScanned.2.bucket = s1.bucket :=
  ⟨rfl, rfl, rfl,
    FillBucket_aborts_at_first_error 3 "/src" "" idHasher ⟨lockedWorld, []⟩ lockedScanned rfl⟩

end Repeatr
